import Mathlib

/-!
# StackBlur (`stackblur.go`)

A shallow embedding of `Process` and of the declarations it uses, followed by
theorems about it.

Conventions of the embedding.

* `uint32` values are natural numbers below `2^32`; every `uint32` operation of
  the source is written with an explicit reduction modulo `4294967296`.
* `int` values are embedded as `Int`.  This is exact as long as no `int`
  operation of the source wraps, that is for `-2^62 ≤ radius < 2^62` (beyond,
  `radius + radius + 1` wraps in a 64-bit `int`); the ring of a positive radius
  has `2*radius+1` nodes, so a run that gets past the set-up has a radius far
  below `2^62`.  Theorems about all radii of a sign state that range.
* The four variables `rX, gX, bX, aX` of the source (for `X` one of `Sum`,
  `OutSum`, `InSum`, and `pr, pg, pb, pa`, and the fields `r, g, b, a` of a
  `blurStack`) are embedded as one value of type `Quad`, a function of the
  channel: `s.Sum Channel.r` is `rSum`, `s.pq Channel.g` is `pg`, and so on.
  Every statement of the source that is repeated for the four channels becomes
  one assignment of a `Quad`.
* Pointers to `blurStack` are `Option Nat`: `none` is `nil`, `some k` the
  address of the `k`-th node allocated.  Dereferencing `nil` is the fault
  `Fault.nilDereference`.
* The standard library (`image`, `image/color`, `image/draw`) is embedded from
  its documented behaviour for `*image.NRGBA`: `At` outside the bounds is the
  zero colour, `Set` outside the bounds does nothing, `NRGBA.RGBA` returns
  alpha-premultiplied 16-bit values, and `draw.Draw` with `draw.Src` from an
  `NRGBA` source copies the pixels unchanged.
* The send `done <- struct{}{}` is recorded as the event `Event.done` at the
  end of the trace of a run, after the `Event.set` of every pixel write;
  whether a receiver is ready is outside the embedding.
-/

namespace StackBlur

/-! ## Faults and machine integers -/

/-- Run-time panics of the Go program that `Process` can reach. -/
inductive Fault where
  | nilDereference
  | divideByZero
  | negativeDimensions
  deriving DecidableEq, Repr

/-- Addition of two `uint32` values. -/
def add32 (a b : Nat) : Nat := (a + b) % 4294967296

/-- Subtraction of two `uint32` values (wraps below zero). -/
def sub32 (a b : Nat) : Nat := (a + (4294967296 - b % 4294967296)) % 4294967296

/-- Multiplication of two `uint32` values. -/
def mul32 (a b : Nat) : Nat := (a * b) % 4294967296

/-- Conversion `uint32(i)` of an `int`. -/
def uint32 (i : Int) : Nat := (i % 4294967296).toNat

/-- Conversion `uint8(n)` of a `uint32`. -/
def uint8 (n : Nat) : Fin 256 := ⟨n % 256, Nat.mod_lt n (by decide)⟩

/-- Source: `func to8b(c uint32) uint32 { return uint32(uint8(c)) }`. -/
def to8b (c : Nat) : Nat := (uint8 c).val

/-! ## Colours, rectangles and images (`image`, `image/color`) -/

/-- The four channels of a pixel or of an accumulator. -/
inductive Channel where
  | r
  | g
  | b
  | a
  deriving DecidableEq, Repr

/-- Four `uint32` variables, one for each channel. -/
abbrev Quad := Channel → Nat

/-- Go `color.NRGBA`: 8-bit channels, alpha not premultiplied. -/
structure NRGBA where
  R : Fin 256
  G : Fin 256
  B : Fin 256
  A : Fin 256
  deriving DecidableEq, Repr

/-- The stored value of one channel of a colour. -/
def NRGBA.chan (c : NRGBA) : Channel → Nat
  | .r => c.R.val
  | .g => c.G.val
  | .b => c.B.val
  | .a => c.A.val

/-- Go `color.NRGBA.RGBA`: the alpha-premultiplied 16-bit value of each channel
(`r = uint32(c.R); r |= r << 8; r *= uint32(c.A); r /= 0xff`, and
`a = uint32(c.A); a |= a << 8`). -/
def NRGBA.RGBA (c : NRGBA) : Quad
  | .r => mul32 (c.R.val ||| ((c.R.val <<< 8) % 4294967296)) c.A.val / 0xff
  | .g => mul32 (c.G.val ||| ((c.G.val <<< 8) % 4294967296)) c.A.val / 0xff
  | .b => mul32 (c.B.val ||| ((c.B.val <<< 8) % 4294967296)) c.A.val / 0xff
  | .a => c.A.val ||| ((c.A.val <<< 8) % 4294967296)

/-- Go `image.Point`. -/
structure Point where
  X : Int
  Y : Int
  deriving DecidableEq, Repr

/-- Go `image.Rectangle`. -/
structure Rectangle where
  Min : Point
  Max : Point
  deriving DecidableEq, Repr

/-- Go `Rectangle.Dx`. -/
def Rectangle.Dx (r : Rectangle) : Int := r.Max.X - r.Min.X

/-- Go `Rectangle.Dy`. -/
def Rectangle.Dy (r : Rectangle) : Int := r.Max.Y - r.Min.Y

/-- Go `Point.In`. -/
def Point.In (p : Point) (r : Rectangle) : Bool :=
  decide (r.Min.X ≤ p.X) && decide (p.X < r.Max.X) &&
    decide (r.Min.Y ≤ p.Y) && decide (p.Y < r.Max.Y)

/-- An image with `NRGBA` pixels: its bounds and its pixel store, addressed by
the coordinates of a pixel. -/
structure Image where
  Rect : Rectangle
  Pix : Int → Int → NRGBA

/-- Go `(*image.NRGBA).At`: the zero colour outside the bounds. -/
def Image.At (p : Image) (x y : Int) : NRGBA :=
  if Point.In ⟨x, y⟩ p.Rect then p.Pix x y else ⟨0, 0, 0, 0⟩

/-- Go `(*image.NRGBA).Set` with an `NRGBA` colour: nothing outside the
bounds. -/
def Image.Set (p : Image) (x y : Int) (c : NRGBA) : Image :=
  if Point.In ⟨x, y⟩ p.Rect then
    { p with Pix := fun x1 y1 => if x1 = x ∧ y1 = y then c else p.Pix x1 y1 }
  else p

/-- Go `image.NewNRGBA`: a zero image with the given bounds; panics when a
dimension is negative. -/
def NewNRGBA (r : Rectangle) : Except Fault Image :=
  if r.Dx < 0 ∨ r.Dy < 0 then .error .negativeDimensions
  else .ok { Rect := r, Pix := fun _ _ => ⟨0, 0, 0, 0⟩ }

/-- Go `draw.Draw(img, img.Bounds(), src, src.Bounds().Min, draw.Src)` for an
`img` that has the bounds of `src`: every pixel in the bounds is copied. -/
def Draw (img src : Image) : Image :=
  { img with Pix := fun x y =>
      if Point.In ⟨x, y⟩ img.Rect then src.At x y else img.Pix x y }

/-- The value the passes read for the pixel at `(x, y)`:
`r, g, b, a := img.At(x, y).RGBA()` followed by `to8b` on each channel. -/
def readPixel (img : Image) (x y : Int) : Quad :=
  fun c => to8b ((img.At x y).RGBA c)

/-! ## The ring of `blurStack` nodes -/

/-- Source: `type blurStack struct { r, g, b, a uint32; next *blurStack }`. -/
structure blurStack where
  val : Quad
  next : Option Nat

/-- The heap of allocated `blurStack` nodes. -/
structure Heap where
  cell : Nat → blurStack
  size : Nat

/-- Source: `func (bs *blurStack) NewBlurStack() *blurStack`: a new node that
copies `bs`. -/
def NewBlurStack (bs : blurStack) (h : Heap) : Option Nat × Heap :=
  (some h.size,
   { cell := fun k => if k = h.size then bs else h.cell k, size := h.size + 1 })

/-- Read through a pointer. -/
def deref (h : Heap) : Option Nat → Except Fault blurStack
  | none => .error .nilDereference
  | some k => .ok (h.cell k)

/-- Assignment `ptr.r, ptr.g, ptr.b, ptr.a = v`. -/
def setVal (h : Heap) (ptr : Option Nat) (v : Quad) : Except Fault Heap :=
  match ptr with
  | none => .error .nilDereference
  | some k =>
    .ok { h with cell := fun j => if j = k then { h.cell k with val := v } else h.cell j }

/-- Assignment `ptr.next = n`. -/
def setNext (h : Heap) (ptr : Option Nat) (n : Option Nat) : Except Fault Heap :=
  match ptr with
  | none => .error .nilDereference
  | some k =>
    .ok { h with cell := fun j => if j = k then { h.cell k with next := n } else h.cell j }

/-! ## The variables of `Process` -/

/-- Observable actions of a run, in order. -/
inductive Event where
  | set (x y : Int)
  | done
  deriving DecidableEq, Repr

/-- The variables of `Process` that change during a run. -/
structure Vars where
  img : Image
  heap : Heap
  stackStart : Option Nat
  stackEnd : Option Nat
  stackIn : Option Nat
  stackOut : Option Nat
  stack : Option Nat
  Sum : Quad
  OutSum : Quad
  InSum : Quad
  pq : Quad
  trace : List Event

/-- Source line 39: `div = radius + radius + 1`. -/
def div (radius : Int) : Int := radius + radius + 1

/-- Source line 42: `radiusPlus1 = radius + 1`. -/
def radiusPlus1 (radius : Int) : Int := radius + 1

/-- Source line 43: `sumFactor = radiusPlus1 * (radiusPlus1 + 1) / 2`. -/
def sumFactor (radius : Int) : Int :=
  (radiusPlus1 radius * (radiusPlus1 radius + 1)).tdiv 2

/-- Source lines 44-45: `divsum := uint32((div + 1) >> 1); divsum *= divsum`. -/
def divsum (radius : Int) : Nat :=
  mul32 (uint32 ((div radius + 1) >>> (1 : Nat))) (uint32 ((div radius + 1) >>> (1 : Nat)))

/-- A counted `for` loop `for i := start; i < start + n; i++ { body }` whose
body changes neither `i` nor the bound. -/
def forLoop {σ : Type} (body : Int → σ → Except Fault σ) : Nat → Int → σ → Except Fault σ
  | 0, _, s => .ok s
  | n + 1, i, s =>
    match body i s with
    | .error e => .error e
    | .ok s1 => forLoop body n (i + 1) s1

/-- Source lines 51-57: the body of the loop that allocates the ring. -/
def ringStep (radius : Int) (i : Int) (s : Vars) : Except Fault Vars :=
  let bs : blurStack := { val := fun _ => 0, next := none }
  let nh := NewBlurStack bs s.heap
  match setNext nh.2 s.stack nh.1 with
  | .error e => .error e
  | .ok h1 =>
    match deref h1 s.stack with
    | .error e => .error e
    | .ok nd =>
      .ok { s with heap := h1, stack := nd.next,
                   stackEnd := if i = radiusPlus1 radius then nd.next else s.stackEnd }

/-- Source lines 47-58: the construction of the ring. -/
def buildRing (radius : Int) (img : Image) : Except Fault Vars :=
  let bs : blurStack := { val := fun _ => 0, next := none }
  let nh := NewBlurStack bs { cell := fun _ => bs, size := 0 }
  let s0 : Vars :=
    { img := img, heap := nh.2, stackStart := nh.1, stackEnd := none, stackIn := none,
      stackOut := none, stack := nh.1, Sum := fun _ => 0, OutSum := fun _ => 0,
      InSum := fun _ => 0, pq := fun _ => 0, trace := [] }
  match forLoop (ringStep radius) (div radius - 1).toNat 1 s0 with
  | .error e => .error e
  | .ok s1 =>
    match setNext s1.heap s1.stack s1.stackStart with
    | .error e => .error e
    | .ok h => .ok { s1 with heap := h }

/-! ## The horizontal pass (source lines 60-180) -/

/-- Source lines 61-79: the accumulators of a row are reset and seeded from
the pixel at `(0, y)`. -/
def hSeed (radius y : Int) (s : Vars) : Vars :=
  let pq := readPixel s.img 0 y
  { s with
    InSum := fun _ => 0
    pq := pq
    OutSum := fun c => mul32 (uint32 (radiusPlus1 radius)) (pq c)
    Sum := fun c => add32 0 (mul32 (uint32 (sumFactor radius)) (pq c))
    stack := s.stackStart }

/-- Source lines 81-87 (and 203-209): one node is filled with `pr, pg, pb, pa`
and `stack` moves to the next node. -/
def fillStep (_i : Int) (s : Vars) : Except Fault Vars :=
  match setVal s.heap s.stack s.pq with
  | .error e => .error e
  | .ok h =>
    match deref h s.stack with
    | .error e => .error e
    | .ok nd => .ok { s with heap := h, stack := nd.next }

/-- Source lines 89-117: the body of the pre-load loop of a row. -/
def hPreloadStep (radius width y : Int) (i : Int) (s : Vars) : Except Fault Vars :=
  let widthMinus1 := width - 1
  let p := if widthMinus1 < i then widthMinus1 else i
  let pq := readPixel s.img p y
  match setVal s.heap s.stack pq with
  | .error e => .error e
  | .ok h =>
    match deref h s.stack with
    | .error e => .error e
    | .ok nd =>
      .ok { s with
        heap := h
        pq := pq
        Sum := fun c => add32 (s.Sum c) (mul32 (nd.val c) (uint32 (radiusPlus1 radius - i)))
        InSum := fun c => add32 (s.InSum c) (pq c)
        stack := nd.next }

/-- Source lines 121-179: the body of the scan loop of a row. -/
def hScanStep (radius width y : Int) (x : Int) (s : Vars) : Except Fault Vars :=
  let widthMinus1 := width - 1
  if divsum radius = 0 then .error .divideByZero
  else
    let img := s.img.Set x y
      { R := uint8 (s.Sum .r / divsum radius), G := uint8 (s.Sum .g / divsum radius),
        B := uint8 (s.Sum .b / divsum radius), A := uint8 (s.Sum .a / divsum radius) }
    let Sum1 : Quad := fun c => sub32 (s.Sum c) (s.OutSum c)
    match deref s.heap s.stackIn with
    | .error e => .error e
    | .ok nIn =>
      let OutSum1 : Quad := fun c => sub32 (s.OutSum c) (nIn.val c)
      let p0 := x + radius + 1
      let p := if p0 > widthMinus1 then widthMinus1 else p0
      match setVal s.heap s.stackIn (readPixel img p y) with
      | .error e => .error e
      | .ok h =>
        match deref h s.stackIn with
        | .error e => .error e
        | .ok nIn1 =>
          let InSum1 : Quad := fun c => add32 (s.InSum c) (nIn1.val c)
          let Sum2 : Quad := fun c => add32 (Sum1 c) (InSum1 c)
          match deref h s.stackOut with
          | .error e => .error e
          | .ok nOut =>
            .ok { s with
              img := img
              heap := h
              trace := s.trace ++ [Event.set x y]
              Sum := Sum2
              stackIn := nIn1.next
              pq := nOut.val
              OutSum := fun c => add32 (OutSum1 c) (nOut.val c)
              InSum := fun c => sub32 (InSum1 c) (nOut.val c)
              stackOut := nOut.next }

/-- Source lines 60-180, the body of the loop over the rows: seed, fill,
pre-load, then scan the row `y`. -/
def hRow (radius width : Int) (y : Int) (s : Vars) : Except Fault Vars :=
  match forLoop fillStep (radiusPlus1 radius).toNat 0 (hSeed radius y s) with
  | .error e => .error e
  | .ok s1 =>
    match forLoop (hPreloadStep radius width y) (radiusPlus1 radius - 1).toNat 1 s1 with
    | .error e => .error e
    | .ok s2 =>
      forLoop (hScanStep radius width y) width.toNat 0
        { s2 with stackIn := s2.stackStart, stackOut := s2.stackEnd }

/-! ## The vertical pass (source lines 182-297) -/

/-- Source lines 183-201: the accumulators of a column are reset and seeded
from the pixel at `(x, 0)`. -/
def vSeed (radius x : Int) (s : Vars) : Vars :=
  let pq := readPixel s.img x 0
  { s with
    InSum := fun _ => 0
    pq := pq
    OutSum := fun c => mul32 (uint32 (radiusPlus1 radius)) (pq c)
    Sum := fun c => add32 0 (mul32 (uint32 (sumFactor radius)) (pq c))
    stack := s.stackStart }

/-- Source lines 211-234: the body of the pre-load loop of a column; the row
index `i` is used as it is. -/
def vPreloadStep (radius x : Int) (i : Int) (s : Vars) : Except Fault Vars :=
  let pq := readPixel s.img x i
  match setVal s.heap s.stack pq with
  | .error e => .error e
  | .ok h =>
    match deref h s.stack with
    | .error e => .error e
    | .ok nd =>
      .ok { s with
        heap := h
        pq := pq
        Sum := fun c => add32 (s.Sum c) (mul32 (nd.val c) (uint32 (radiusPlus1 radius - i)))
        InSum := fun c => add32 (s.InSum c) (pq c)
        stack := nd.next }

/-- Source lines 239-296: the body of the scan loop of a column. -/
def vScanStep (radius height x : Int) (y : Int) (s : Vars) : Except Fault Vars :=
  let heightMinus1 := height - 1
  if divsum radius = 0 then .error .divideByZero
  else
    let img := s.img.Set x y
      { R := uint8 (s.Sum .r / divsum radius), G := uint8 (s.Sum .g / divsum radius),
        B := uint8 (s.Sum .b / divsum radius), A := uint8 (s.Sum .a / divsum radius) }
    let Sum1 : Quad := fun c => sub32 (s.Sum c) (s.OutSum c)
    match deref s.heap s.stackIn with
    | .error e => .error e
    | .ok nIn =>
      let OutSum1 : Quad := fun c => sub32 (s.OutSum c) (nIn.val c)
      let p0 := y + radiusPlus1 radius
      let p := if p0 > heightMinus1 then heightMinus1 else p0
      match setVal s.heap s.stackIn (readPixel img x p) with
      | .error e => .error e
      | .ok h =>
        match deref h s.stackIn with
        | .error e => .error e
        | .ok nIn1 =>
          let InSum1 : Quad := fun c => add32 (s.InSum c) (nIn1.val c)
          let Sum2 : Quad := fun c => add32 (Sum1 c) (InSum1 c)
          match deref h s.stackOut with
          | .error e => .error e
          | .ok nOut =>
            .ok { s with
              img := img
              heap := h
              trace := s.trace ++ [Event.set x y]
              Sum := Sum2
              stackIn := nIn1.next
              pq := nOut.val
              OutSum := fun c => add32 (OutSum1 c) (nOut.val c)
              InSum := fun c => sub32 (InSum1 c) (nOut.val c)
              stackOut := nOut.next }

/-- Source lines 182-297, the body of the loop over the columns. -/
def vCol (radius height : Int) (x : Int) (s : Vars) : Except Fault Vars :=
  match forLoop fillStep (radiusPlus1 radius).toNat 0 (vSeed radius x s) with
  | .error e => .error e
  | .ok s1 =>
    match forLoop (vPreloadStep radius x) radius.toNat 1 s1 with
    | .error e => .error e
    | .ok s2 =>
      forLoop (vScanStep radius height x) height.toNat 0
        { s2 with stackIn := s2.stackStart, stackOut := s2.stackEnd }

/-! ## `Process` -/

/-- Source lines 24-300 up to the `return`: all the variables at the end of a
run of `Process(src, radius, done)`. -/
def run (src : Image) (radius : Int) : Except Fault Vars :=
  let width := src.Rect.Dx
  let height := src.Rect.Dy
  match NewNRGBA src.Rect with
  | .error e => .error e
  | .ok img0 =>
    match buildRing radius (Draw img0 src) with
    | .error e => .error e
    | .ok s0 =>
      match forLoop (hRow radius width) height.toNat 0 s0 with
      | .error e => .error e
      | .ok s1 =>
        match forLoop (vCol radius height) width.toNat 0 s1 with
        | .error e => .error e
        | .ok s2 => .ok { s2 with trace := s2.trace ++ [Event.done] }

/-- Source: `func Process(src image.Image, radius int, done chan struct{}) image.Image`:
the image returned, or the fault that stops the run. -/
def Process (src : Image) (radius : Int) : Except Fault Image :=
  match run src radius with
  | .error e => .error e
  | .ok s => .ok s.img

/-! ## The two passes as instances of one line scan

The horizontal and the vertical pass are the same statements up to the
address of the pixel with index `i` on the line (`addr i`), the index the
pre-load reads at offset `i` (`pre i`) and the length of the line.  The
definitions below state that common form once; `hRow_eq_lineG` and
`vCol_eq_lineG` show that the two passes above are its instances. -/

/-- The seeding of a line from the value `px` read at its first pixel. -/
def seedG (radius : Int) (px : Quad) (s : Vars) : Vars :=
  { s with
    InSum := fun _ => 0
    pq := px
    OutSum := fun c => mul32 (uint32 (radiusPlus1 radius)) (px c)
    Sum := fun c => add32 0 (mul32 (uint32 (sumFactor radius)) (px c))
    stack := s.stackStart }

/-- The body of the pre-load loop when the pixel read at offset `i` has the
address `addr (pre i)`. -/
def preloadStepG (radius : Int) (pre : Int → Int) (addr : Int → Point) (i : Int)
    (s : Vars) : Except Fault Vars :=
  let pq := readPixel s.img (addr (pre i)).X (addr (pre i)).Y
  match setVal s.heap s.stack pq with
  | .error e => .error e
  | .ok h =>
    match deref h s.stack with
    | .error e => .error e
    | .ok nd =>
      .ok { s with
        heap := h
        pq := pq
        Sum := fun c => add32 (s.Sum c) (mul32 (nd.val c) (uint32 (radiusPlus1 radius - i)))
        InSum := fun c => add32 (s.InSum c) (pq c)
        stack := nd.next }

/-- The colour written by a scan step: every accumulator divided by `divsum`
and narrowed to 8 bits. -/
def emit (radius : Int) (Sum : Quad) : NRGBA :=
  { R := uint8 (Sum .r / divsum radius), G := uint8 (Sum .g / divsum radius),
    B := uint8 (Sum .b / divsum radius), A := uint8 (Sum .a / divsum radius) }

/-- The index read by the scan step `i` of a line whose last index is `last`. -/
def ahead (radius last i : Int) : Int :=
  if i + radius + 1 > last then last else i + radius + 1

/-- The body of the scan loop of a line whose last index is `last`. -/
def scanStepG (radius last : Int) (addr : Int → Point) (i : Int) (s : Vars) :
    Except Fault Vars :=
  if divsum radius = 0 then .error .divideByZero
  else
    let img := s.img.Set (addr i).X (addr i).Y (emit radius s.Sum)
    let q := addr (ahead radius last i)
    match deref s.heap s.stackIn with
    | .error e => .error e
    | .ok nIn =>
      match setVal s.heap s.stackIn (readPixel img q.X q.Y) with
      | .error e => .error e
      | .ok h =>
        match deref h s.stackIn with
        | .error e => .error e
        | .ok nIn1 =>
          match deref h s.stackOut with
          | .error e => .error e
          | .ok nOut =>
            .ok { s with
              img := img
              heap := h
              trace := s.trace ++ [Event.set (addr i).X (addr i).Y]
              Sum := fun c => add32 (sub32 (s.Sum c) (s.OutSum c)) (add32 (s.InSum c) (nIn1.val c))
              stackIn := nIn1.next
              pq := nOut.val
              OutSum := fun c => add32 (sub32 (s.OutSum c) (nIn.val c)) (nOut.val c)
              InSum := fun c => sub32 (add32 (s.InSum c) (nIn1.val c)) (nOut.val c)
              stackOut := nOut.next }

/-- One line: seed, fill, pre-load, scan. -/
def lineG (radius len : Int) (pre : Int → Int) (addr : Int → Point) (s : Vars) :
    Except Fault Vars :=
  match forLoop fillStep (radiusPlus1 radius).toNat 0
      (seedG radius (readPixel s.img (addr 0).X (addr 0).Y) s) with
  | .error e => .error e
  | .ok s1 =>
    match forLoop (preloadStepG radius pre addr) radius.toNat 1 s1 with
    | .error e => .error e
    | .ok s2 =>
      forLoop (scanStepG radius (len - 1) addr) len.toNat 0
        { s2 with stackIn := s2.stackStart, stackOut := s2.stackEnd }

/-- The pre-load index of the horizontal pass: `i`, clamped to `width - 1`. -/
def hPre (width : Int) (i : Int) : Int := if width - 1 < i then width - 1 else i

/-! ## Predicates on the variables -/

/-- The pointers of a ring of `2*r+1` nodes built for a radius `r`: the nodes
have the addresses `0 .. 2*r`, each points to the next one and the last one to
the first, `stackStart` is node `0` and `stackEnd` node `r+1`. -/
structure Good (r : Nat) (s : Vars) : Prop where
  start : s.stackStart = some 0
  stop : s.stackEnd = some (r + 1)
  next : ∀ i, i < 2 * r + 1 → (s.heap.cell i).next = some ((i + 1) % (2 * r + 1))

/-- The positions of the two cursors at the start of the scan step `x`. -/
structure Ptrs (r x : Nat) (s : Vars) : Prop where
  ptrIn : s.stackIn = some (x % (2 * r + 1))
  ptrOut : s.stackOut = some ((x + r + 1) % (2 * r + 1))

/-- The pointers after the set-up for a radius `radius ≤ 0`: the allocation
loop does not run, the ring is the single node `0` pointing to itself, and
`stackEnd` is still `nil`. -/
structure Lone (s : Vars) : Prop where
  start : s.stackStart = some 0
  stop : s.stackEnd = none
  next : (s.heap.cell 0).next = some 0

/-! ## Window sums

`U` is the sequence of the values that enter the window of a line, indexed
from the left edge of the first window: the window of the scan step `x` holds
`U x .. U (x + 2*r)`, with its centre at `U (x + r)`. -/

/-- Sum of `f 0 .. f (n - 1)`. -/
def sumTo (f : Nat → Nat) : Nat → Nat
  | 0 => 0
  | n + 1 => sumTo f n + f n

/-- The rising half of the weighted window sum, centre included: weights
`1 .. r+1` on `U x .. U (x+r)`. -/
def rise (r : Nat) (U : Nat → Nat) (x : Nat) : Nat :=
  sumTo (fun j => (j + 1) * U (x + j)) (r + 1)

/-- The falling half of the weighted window sum: weights `r .. 1` on
`U (x+r+1) .. U (x+2*r)`. -/
def fall (r : Nat) (U : Nat → Nat) (x : Nat) : Nat :=
  sumTo (fun j => (r - j) * U (x + r + 1 + j)) r

/-- The triangular-weighted sum of the window of the scan step `x`. -/
def wsum (r : Nat) (U : Nat → Nat) (x : Nat) : Nat := rise r U x + fall r U x

/-- The plain sum of the left half of the window, centre included. -/
def osum (r : Nat) (U : Nat → Nat) (x : Nat) : Nat :=
  sumTo (fun j => U (x + j)) (r + 1)

/-- The plain sum of the right half of the window. -/
def isum (r : Nat) (U : Nat → Nat) (x : Nat) : Nat :=
  sumTo (fun j => U (x + r + 1 + j)) r

/-- The values held by the ring and by the accumulators at the start of the
scan step `x`, for the window sequence `U` (one sequence per channel); the
accumulators hold the window sums modulo `2^32`. -/
structure Vals (r : Nat) (U : Nat → Quad) (x : Nat) (s : Vars) : Prop where
  cells : ∀ j, x ≤ j → j ≤ x + 2 * r → (s.heap.cell (j % (2 * r + 1))).val = U j
  sum : ∀ c, s.Sum c = wsum r (fun j => U j c) x % 4294967296
  out : ∀ c, s.OutSum c = osum r (fun j => U j c) x % 4294967296
  ins : ∀ c, s.InSum c = isum r (fun j => U j c) x % 4294967296

/-! ## The images written by the lines and by the passes -/

/-- The window sequence of a line: `L i` is the value read for the pixel with
index `i` before the line is scanned.  The first `r+1` entries are the seed,
the next `r` are the pre-loaded values, and entry `x + 2*r + 1` is the value
read by the scan step `x`. -/
def windowSeq (r : Nat) (last : Int) (pre : Int → Int) (L : Int → Quad) (j : Nat) : Quad :=
  if j ≤ r then L 0
  else if j ≤ 2 * r then L (pre ((j - r : Nat) : Int))
  else L (ahead r last ((j - 2 * r - 1 : Nat) : Int))

/-- The image after the first `k` scan steps of a line have written their
colours, when the accumulators hold the window sums of `U` modulo `2^32`. -/
def lineOut (r : Nat) (U : Nat → Quad) (addr : Int → Point) (img : Image) : Nat → Image
  | 0 => img
  | k + 1 =>
    (lineOut r U addr img k).Set (addr k).X (addr k).Y
      (emit r (fun c => wsum r (fun j => U j c) k % 4294967296))

/-- The `Set` events of the first `k` scan steps of a line. -/
def lineEvents (addr : Int → Point) : Nat → List Event
  | 0 => []
  | k + 1 => lineEvents addr k ++ [Event.set (addr k).X (addr k).Y]

/-- The image after the first `k` lines of a pass: line `k` is scanned on the
image left by the lines before it.  `addr k i` is the address of the pixel
with index `i` on line `k`. -/
def passOut (r len : Nat) (pre : Int → Int) (addr : Int → Int → Point) (img : Image) :
    Nat → Image
  | 0 => img
  | k + 1 =>
    lineOut r
      (windowSeq r ((len : Int) - 1) pre
        (fun i => readPixel (passOut r len pre addr img k) (addr k i).X (addr k i).Y))
      (addr k) (passOut r len pre addr img k) len

/-- The `Set` events of the first `k` lines of a pass. -/
def passEvents (len : Nat) (addr : Int → Int → Point) : Nat → List Event
  | 0 => []
  | k + 1 => passEvents len addr k ++ lineEvents (addr k) len

/-- Address of the pixel with index `i` on row `y`. -/
def hAddr (y i : Int) : Point := ⟨i, y⟩

/-- Address of the pixel with index `i` on column `x`. -/
def vAddr (x i : Int) : Point := ⟨x, i⟩

/-- The image left by the horizontal pass with radius `r` on `img`. -/
def hOut (r : Nat) (img : Image) : Image :=
  passOut r img.Rect.Dx.toNat (hPre img.Rect.Dx) hAddr img img.Rect.Dy.toNat

/-- The image left by the vertical pass with radius `r` on `img`. -/
def vOut (r : Nat) (img : Image) : Image :=
  passOut r img.Rect.Dy.toNat (fun i => i) vAddr img img.Rect.Dx.toNat

/-- The copy of the source that `Process` works on. -/
def copyOf (src : Image) : Image :=
  Draw { Rect := src.Rect, Pix := fun _ _ => ⟨0, 0, 0, 0⟩ } src

/-! ## Observations and example images -/

/-- The pixel at `(x, y)` of the image returned by a run, when the run returns. -/
def pixelAt (res : Except Fault Image) (x y : Int) : Option NRGBA :=
  match res with
  | .ok img => some (img.At x y)
  | .error _ => none

/-- The image whose rows are `rows` (all of the length of the first one) and
whose upper left corner is at `origin`. -/
def imageOf (origin : Point) (rows : List (List NRGBA)) : Image :=
  { Rect := ⟨origin, ⟨origin.X + (rows.headD []).length, origin.Y + rows.length⟩⟩
    Pix := fun x y =>
      (rows.getD (y - origin.Y).toNat []).getD (x - origin.X).toNat ⟨0, 0, 0, 0⟩ }

/-- Opaque red. -/
def red : NRGBA := ⟨255, 0, 0, 255⟩

/-- Red with alpha 128. -/
def halfRed : NRGBA := ⟨255, 0, 0, 128⟩

/-- Opaque white, the impulse of the scenarios. -/
def white : NRGBA := ⟨255, 255, 255, 255⟩

/-- Opaque black. -/
def black : NRGBA := ⟨0, 0, 0, 255⟩

/-- Transparent black. -/
def clear : NRGBA := ⟨0, 0, 0, 0⟩

/-- The 3x3 all-red opaque image of the spec's scenario. -/
def red3x3 : Image := imageOf ⟨0, 0⟩ [[red, red, red], [red, red, red], [red, red, red]]

/-- A single opaque red pixel. -/
def red1x1 : Image := imageOf ⟨0, 0⟩ [[red]]

/-- One column of two opaque red pixels. -/
def red1x2 : Image := imageOf ⟨0, 0⟩ [[red], [red]]

/-- One column of two red pixels with alpha 128. -/
def halfRed1x2 : Image := imageOf ⟨0, 0⟩ [[halfRed], [halfRed]]

/-- The 5x1 impulse image of the spec's scenario. -/
def impulse5x1 : Image := imageOf ⟨0, 0⟩ [[clear, white, clear, clear, clear]]

/-- An image with no pixels. -/
def noPixels : Image := imageOf ⟨0, 0⟩ []

/-- The impulse image of width `w` and height `h` with bounds at the origin:
opaque white at `(x0, y0)` and `{0, 0, 0, 0}` everywhere else. -/
def impulseAt (w h : Nat) (x0 y0 : Int) : Image :=
  { Rect := ⟨⟨0, 0⟩, ⟨w, h⟩⟩
    Pix := fun x y => if x = x0 ∧ y = y0 then white else clear }

/-- The 1x3 impulse image away from the origin: its upper left corner, the
impulse, is at `(5, 0)`. -/
def impulseAway : Image := imageOf ⟨5, 0⟩ [[white], [clear], [clear]]

/-- A 2x2 opaque image with four different colours. -/
def solid2x2 : Image :=
  { Rect := ⟨⟨0, 0⟩, ⟨2, 2⟩⟩
    Pix := fun x y =>
      if x = 0 then (if y = 0 then ⟨10, 20, 30, 255⟩ else ⟨0, 255, 7, 255⟩)
      else (if y = 0 then ⟨200, 100, 50, 255⟩ else ⟨90, 90, 90, 255⟩) }

/-! ## The naive reference

The reference of the refinement claim, written from the words of the claim
and not from the code. -/

/-- The index `i` clamped to `lo .. hi`. -/
def clamp (i lo hi : Int) : Int := if i < lo then lo else if hi < i then hi else i

/-- The weight `radius + 1 - |k|` of the offset `k`. -/
def weight (radius : Nat) (k : Int) : Nat := ((radius : Int) + 1 - |k|).toNat

/-- The weighted sum of the claims, written from their words:
`sum over k in [-radius, radius] of (radius+1-|k|) * v[clamp(x+k, 0, len-1)]`;
the sum runs over `j = k + radius`. -/
def windowSum (radius len : Nat) (v : Int → Nat) (x : Int) : Nat :=
  sumTo (fun j =>
      weight radius ((j : Int) - radius) *
        v (clamp (x + ((j : Int) - radius)) 0 ((len : Int) - 1)))
    (2 * radius + 1)

/-- The one-dimensional reference
`T(v)[x] = floor(sum over k in [-radius, radius] of
(radius+1-|k|) * v[clamp(x+k, 0, len-1)] / (radius+1)^2)`;
the sum runs over `j = k + radius`. -/
def T (radius len : Nat) (v : Int → Nat) (x : Int) : Nat :=
  sumTo (fun j =>
      weight radius ((j : Int) - radius) *
        v (clamp (x + ((j : Int) - radius)) 0 ((len : Int) - 1)))
    (2 * radius + 1) / (radius + 1) ^ 2

/-- Channel `c` of the intermediate image of the reference: every row `v` of
the source is replaced by `T(v)`. -/
def naiveRows (radius : Nat) (src : Image) (c : Channel) (x y : Int) : Nat :=
  T radius src.Rect.Dx.toNat (fun i => (src.At i y).chan c) x

/-- Channel `c` of the reference image: every column of the intermediate image
is replaced by `T(column)`. -/
def naive (radius : Nat) (src : Image) (c : Channel) (x y : Int) : Nat :=
  T radius src.Rect.Dy.toNat (fun j => naiveRows radius src c x j) y

/-! ## The weight of a pixel in its own window -/

/-- Twice the total weight that the window centred at the index `x0` of a line
of length `n` gives to the pixel at `x0` itself, edge replication included:
`2*(r+1)` in the interior, `(r+1)*(r+2)` at one end of a longer line and
`2*(r+1)^2` on a line of one pixel. -/
def selfWeight2 (r n x0 : Nat) : Nat :=
  (if x0 = 0 then (r + 1) * (r + 2) else 2 * (r + 1)) +
    (if x0 + 1 = n then r * (r + 1) else 0)

/-! ## Walking the ring -/

/-- The pointer reached from `p` by following `next` `n` times. -/
def follow (h : Heap) : Nat → Option Nat → Except Fault (Option Nat)
  | 0, p => .ok p
  | n + 1, p =>
    match deref h p with
    | .error e => .error e
    | .ok nd => follow h n nd.next

/-! ## The variables at an emission

The scan loops of the source emit a pixel at the start of every iteration.  The
variables at that moment are those of the run stopped there: the definitions
below repeat `hRow`, `vCol` and `run` with the scan loop cut after `n`
iterations. -/

/-- `hRow` with the scan loop (source line 121) stopped after `n` iterations:
the variables at the start of the iteration `x = n` of the scan of the row `y`,
just before `img.Set(x, y, ...)`. -/
def hRowAt (radius width : Int) (y : Int) (n : Nat) (s : Vars) : Except Fault Vars :=
  match forLoop fillStep (radiusPlus1 radius).toNat 0 (hSeed radius y s) with
  | .error e => .error e
  | .ok s1 =>
    match forLoop (hPreloadStep radius width y) (radiusPlus1 radius - 1).toNat 1 s1 with
    | .error e => .error e
    | .ok s2 =>
      forLoop (hScanStep radius width y) n 0
        { s2 with stackIn := s2.stackStart, stackOut := s2.stackEnd }

/-- `vCol` with the scan loop (source line 239) stopped after `n` iterations:
the variables at the start of the iteration `y = n` of the scan of the column
`x`, just before `img.Set(x, y, ...)`. -/
def vColAt (radius height : Int) (x : Int) (n : Nat) (s : Vars) : Except Fault Vars :=
  match forLoop fillStep (radiusPlus1 radius).toNat 0 (vSeed radius x s) with
  | .error e => .error e
  | .ok s1 =>
    match forLoop (vPreloadStep radius x) radius.toNat 1 s1 with
    | .error e => .error e
    | .ok s2 =>
      forLoop (vScanStep radius height x) n 0
        { s2 with stackIn := s2.stackStart, stackOut := s2.stackEnd }

/-- The variables of the run of `Process(src, radius, done)` at the moment the
horizontal pass emits the pixel `(x, y)`: the rows before `y` are done, and the
scan of the row `y` is at the start of its iteration `x`. -/
def atRowScan (src : Image) (radius : Int) (y x : Nat) : Except Fault Vars :=
  match NewNRGBA src.Rect with
  | .error e => .error e
  | .ok img0 =>
    match buildRing radius (Draw img0 src) with
    | .error e => .error e
    | .ok s0 =>
      match forLoop (hRow radius src.Rect.Dx) y 0 s0 with
      | .error e => .error e
      | .ok s1 => hRowAt radius src.Rect.Dx y x s1

/-- The variables of the run of `Process(src, radius, done)` at the moment the
vertical pass emits the pixel `(x, y)`: the horizontal pass and the columns
before `x` are done, and the scan of the column `x` is at the start of its
iteration `y`. -/
def atColScan (src : Image) (radius : Int) (x y : Nat) : Except Fault Vars :=
  match NewNRGBA src.Rect with
  | .error e => .error e
  | .ok img0 =>
    match buildRing radius (Draw img0 src) with
    | .error e => .error e
    | .ok s0 =>
      match forLoop (hRow radius src.Rect.Dx) src.Rect.Dy.toNat 0 s0 with
      | .error e => .error e
      | .ok s1 =>
        match forLoop (vCol radius src.Rect.Dy) x 0 s1 with
        | .error e => .error e
        | .ok s2 => vColAt radius src.Rect.Dy x y s2

/-- The line scan `lineG` with the scan loop stopped after `n` iterations, for
a line whose last index is `last`. -/
def lineAtG (radius last : Int) (pre : Int → Int) (addr : Int → Point) (n : Nat)
    (s : Vars) : Except Fault Vars :=
  match forLoop fillStep (radiusPlus1 radius).toNat 0
      (seedG radius (readPixel s.img (addr 0).X (addr 0).Y) s) with
  | .error e => .error e
  | .ok s1 =>
    match forLoop (preloadStepG radius pre addr) radius.toNat 1 s1 with
    | .error e => .error e
    | .ok s2 =>
      forLoop (scanStepG radius last addr) n 0
        { s2 with stackIn := s2.stackStart, stackOut := s2.stackEnd }

/-! ## The scan of a row with its reads served from a copy

The variant that the in-place claim compares the horizontal scan with, written
from the words of the claim: the scan writes to the working image as `hRow`
does, and every read it makes is served from the image `orig`. -/

/-- The body of the pre-load loop, reading from `orig`. -/
def preloadStepFromG (orig : Image) (radius : Int) (pre : Int → Int) (addr : Int → Point)
    (i : Int) (s : Vars) : Except Fault Vars :=
  let pq := readPixel orig (addr (pre i)).X (addr (pre i)).Y
  match setVal s.heap s.stack pq with
  | .error e => .error e
  | .ok h =>
    match deref h s.stack with
    | .error e => .error e
    | .ok nd =>
      .ok { s with
        heap := h
        pq := pq
        Sum := fun c => add32 (s.Sum c) (mul32 (nd.val c) (uint32 (radiusPlus1 radius - i)))
        InSum := fun c => add32 (s.InSum c) (pq c)
        stack := nd.next }

/-- The body of the scan loop, writing to the working image and reading from
`orig`. -/
def scanStepFromG (orig : Image) (radius last : Int) (addr : Int → Point) (i : Int)
    (s : Vars) : Except Fault Vars :=
  if divsum radius = 0 then .error .divideByZero
  else
    let img := s.img.Set (addr i).X (addr i).Y (emit radius s.Sum)
    let q := addr (ahead radius last i)
    match deref s.heap s.stackIn with
    | .error e => .error e
    | .ok nIn =>
      match setVal s.heap s.stackIn (readPixel orig q.X q.Y) with
      | .error e => .error e
      | .ok h =>
        match deref h s.stackIn with
        | .error e => .error e
        | .ok nIn1 =>
          match deref h s.stackOut with
          | .error e => .error e
          | .ok nOut =>
            .ok { s with
              img := img
              heap := h
              trace := s.trace ++ [Event.set (addr i).X (addr i).Y]
              Sum := fun c => add32 (sub32 (s.Sum c) (s.OutSum c)) (add32 (s.InSum c) (nIn1.val c))
              stackIn := nIn1.next
              pq := nOut.val
              OutSum := fun c => add32 (sub32 (s.OutSum c) (nIn.val c)) (nOut.val c)
              InSum := fun c => sub32 (add32 (s.InSum c) (nIn1.val c)) (nOut.val c)
              stackOut := nOut.next }

/-- One line, reading from `orig`: seed, fill, pre-load, scan. -/
def lineFromG (orig : Image) (radius len : Int) (pre : Int → Int) (addr : Int → Point)
    (s : Vars) : Except Fault Vars :=
  match forLoop fillStep (radiusPlus1 radius).toNat 0
      (seedG radius (readPixel orig (addr 0).X (addr 0).Y) s) with
  | .error e => .error e
  | .ok s1 =>
    match forLoop (preloadStepFromG orig radius pre addr) radius.toNat 1 s1 with
    | .error e => .error e
    | .ok s2 =>
      forLoop (scanStepFromG orig radius (len - 1) addr) len.toNat 0
        { s2 with stackIn := s2.stackStart, stackOut := s2.stackEnd }

/-- The scan of the row `y` with its reads served from `orig`: the statements
of `hRow`, with `orig.At` in place of `img.At` at source lines 63, 95 and 145. -/
def hRowFrom (orig : Image) (radius width : Int) (y : Int) (s : Vars) : Except Fault Vars :=
  lineFromG orig radius width (hPre width) (fun i => ⟨i, y⟩) s

/-- What a scan leaves to see: the image and the list of its writes. -/
def written (s : Vars) : Image × List Event := (s.img, s.trace)

/-! ## The two passes on their own, and the transpose -/

/-- Source lines 47-58 and 60-180 on the working image `img`: the set-up of the
ring, then the horizontal pass; the image it leaves. -/
def horizontalPass (img : Image) (radius : Int) : Except Fault Image :=
  match buildRing radius img with
  | .error e => .error e
  | .ok s0 =>
    match forLoop (hRow radius img.Rect.Dx) img.Rect.Dy.toNat 0 s0 with
    | .error e => .error e
    | .ok s1 => .ok s1.img

/-- Source lines 47-58 and 182-297 on the working image `img`: the set-up of
the ring, then the vertical pass; the image it leaves. -/
def verticalPass (img : Image) (radius : Int) : Except Fault Image :=
  match buildRing radius img with
  | .error e => .error e
  | .ok s0 =>
    match forLoop (vCol radius img.Rect.Dy) img.Rect.Dx.toNat 0 s0 with
    | .error e => .error e
    | .ok s1 => .ok s1.img

/-- The transpose of an image: its pixel at `(x, y)` is the pixel at `(y, x)`
of `img`. -/
def transpose (img : Image) : Image :=
  { Rect := ⟨⟨img.Rect.Min.Y, img.Rect.Min.X⟩, ⟨img.Rect.Max.Y, img.Rect.Max.X⟩⟩
    Pix := fun x y => img.Pix y x }

/-- The write at the transposed position. -/
def Event.swap : Event → Event
  | .set x y => .set y x
  | .done => .done

/-- The variables of a run on the transposed image: the same ring and
accumulators, the working image transposed, every write at the transposed
position. -/
def Vars.swap (s : Vars) : Vars :=
  { s with img := transpose s.img, trace := s.trace.map Event.swap }

/-! ## An image away from the origin -/

/-- The 2x2 opaque image with a white left column and a black right column,
with its upper left corner at `origin`. -/
def edge2x2 (origin : Point) : Image :=
  imageOf origin [[white, black], [white, black]]

/-- The 2x2 opaque white image with its upper left corner at `origin`. -/
def white2x2 (origin : Point) : Image :=
  imageOf origin [[white, white], [white, white]]

/-! ## The mirror image -/

/-- The left-right mirror image of `img`: same bounds, and the pixel at column
`x` is the pixel of `img` at the column mirrored within the bounds. -/
def mirror (img : Image) : Image :=
  { Rect := img.Rect
    Pix := fun x y => img.Pix (img.Rect.Min.X + img.Rect.Max.X - 1 - x) y }

/-! ## Counted loops -/

theorem forLoop_zero {σ : Type} (body : Int → σ → Except Fault σ) (i : Int) (s : σ) :
    forLoop body 0 i s = .ok s := rfl

theorem forLoop_succ_ok {σ : Type} (body : Int → σ → Except Fault σ) (n : Nat) (i : Int)
    (s s1 : σ) (h : body i s = .ok s1) :
    forLoop body (n + 1) i s = forLoop body n (i + 1) s1 := by
  simp [forLoop, h]

theorem forLoop_succ_error {σ : Type} (body : Int → σ → Except Fault σ) (n : Nat) (i : Int)
    (s : σ) (e : Fault) (h : body i s = .error e) :
    forLoop body (n + 1) i s = .error e := by
  simp [forLoop, h]

/-- Invariant rule for a counted loop: an invariant that holds at entry and is
carried by every iteration, none of which faults, holds at exit, and the loop
does not fault. -/
theorem forLoop_invariant {σ : Type} (body : Int → σ → Except Fault σ)
    (P : Nat → σ → Prop) (n : Nat) (start : Int) (s0 : σ) (h0 : P 0 s0)
    (hstep : ∀ k s, k < n → P k s → ∃ s1, body (start + k) s = .ok s1 ∧ P (k + 1) s1) :
    ∃ s1, forLoop body n start s0 = .ok s1 ∧ P n s1 := by
  induction n generalizing P start s0 with
  | zero => exact ⟨s0, rfl, h0⟩
  | succ n ih =>
    obtain ⟨s1, hb, hP1⟩ := hstep 0 s0 (Nat.succ_pos n) h0
    simp only [Nat.cast_zero, add_zero] at hb
    rw [forLoop_succ_ok body n start s0 s1 hb]
    refine ih (fun k s => P (k + 1) s) (start + 1) s1 hP1 ?_
    intro k s hk hP
    obtain ⟨s2, hb2, hP2⟩ := hstep (k + 1) s (Nat.succ_lt_succ hk) hP
    refine ⟨s2, ?_, hP2⟩
    rw [← hb2]
    congr 1
    push_cast
    ring

/-! ## The passes are instances of the line scan -/

theorem hScanStep_eq (radius width y : Int) :
    hScanStep radius width y = scanStepG radius (width - 1) (fun i => ⟨i, y⟩) := by
  funext x s
  simp only [hScanStep, scanStepG, emit, ahead]

theorem vScanStep_eq (radius height x : Int) :
    vScanStep radius height x = scanStepG radius (height - 1) (fun i => ⟨x, i⟩) := by
  funext y s
  simp only [vScanStep, scanStepG, emit, ahead, radiusPlus1, add_assoc]

theorem hPreloadStep_eq (radius width y : Int) :
    hPreloadStep radius width y = preloadStepG radius (hPre width) (fun i => ⟨i, y⟩) := by
  funext i s
  rfl

theorem vPreloadStep_eq (radius x : Int) :
    vPreloadStep radius x = preloadStepG radius (fun i => i) (fun i => ⟨x, i⟩) := by
  funext i s
  rfl

theorem hRow_eq_lineG (radius width y : Int) :
    hRow radius width y = lineG radius width (hPre width) (fun i => ⟨i, y⟩) := by
  funext s
  simp only [hRow, lineG, hScanStep_eq, hPreloadStep_eq]
  have h : (radiusPlus1 radius - 1).toNat = radius.toNat := by simp [radiusPlus1]
  rw [h]
  rfl

theorem vCol_eq_lineG (radius height x : Int) :
    vCol radius height x = lineG radius height (fun i => i) (fun i => ⟨x, i⟩) := by
  funext s
  simp only [vCol, lineG, vScanStep_eq, vPreloadStep_eq]
  rfl

/-! ## The construction of the ring -/

theorem ringStep_loop (r : Nat) (img : Image) (s0 : Vars)
    (h0 : s0.img = img ∧ s0.trace = [] ∧ s0.heap.size = 1 ∧ s0.stack = some 0 ∧
      s0.stackStart = some 0 ∧ s0.stackEnd = none) (n : Nat) :
    ∃ s, forLoop (ringStep r) n 1 s0 = .ok s ∧
      s.img = img ∧ s.trace = [] ∧ s.heap.size = n + 1 ∧ s.stack = some n ∧
      s.stackStart = some 0 ∧ (∀ i, i < n → (s.heap.cell i).next = some (i + 1)) ∧
      s.stackEnd = (if r + 1 ≤ n then some (r + 1) else none) := by
  obtain ⟨hi, ht, hs, hk, hst, he⟩ := h0
  refine forLoop_invariant (ringStep r)
    (fun k s => s.img = img ∧ s.trace = [] ∧ s.heap.size = k + 1 ∧ s.stack = some k ∧
      s.stackStart = some 0 ∧ (∀ i, i < k → (s.heap.cell i).next = some (i + 1)) ∧
      s.stackEnd = (if r + 1 ≤ k then some (r + 1) else none)) n 1 s0
    ⟨hi, ht, hs, hk, hst, by intro i hi0; omega, by simp [he]⟩ ?_
  intro k s _ hP
  obtain ⟨hi, ht, hs, hk, hst, hnx, he⟩ := hP
  refine ⟨_, by simp [ringStep, NewBlurStack, setNext, deref, hk]; rfl, ?_⟩
  simp only [hs, hi, ht, hst, true_and]
  refine ⟨?_, ?_⟩
  · intro i hik
    by_cases h : i = k
    · subst h; simp
    · have : i < k := by omega
      have h5 : ¬ i = k + 1 := by omega
      simp [h, h5, hnx i this]
  · simp only [radiusPlus1, he]
    by_cases h1 : r + 1 ≤ k
    · have h2 : ¬ ((1 : Int) + k = r + 1) := by omega
      have h3 : r + 1 ≤ k + 1 := by omega
      simp [h1, h2, h3]
    · by_cases h4 : k = r
      · subst h4
        have : (1 : Int) + k = k + 1 := by ring
        simp [this]
      · have h2 : ¬ ((1 : Int) + k = r + 1) := by omega
        have h3 : ¬ r + 1 ≤ k + 1 := by omega
        simp [h1, h2, h3]

theorem buildRing_spec (r : Nat) (hr : 1 ≤ r) (img : Image) :
    ∃ s, buildRing r img = .ok s ∧ Good r s ∧ s.img = img ∧ s.trace = [] := by
  have hn : (div (r : Int) - 1).toNat = 2 * r := by
    simp only [div]; omega
  obtain ⟨s1, hs1, hi, ht, _, hk, hst, hnx, he⟩ :=
    ringStep_loop r img
      { img := img
        heap := (NewBlurStack { val := fun _ => 0, next := none }
          { cell := fun _ => { val := fun _ => 0, next := none }, size := 0 }).2
        stackStart := (NewBlurStack { val := fun _ => 0, next := none }
          { cell := fun _ => { val := fun _ => 0, next := none }, size := 0 }).1
        stackEnd := none, stackIn := none, stackOut := none
        stack := (NewBlurStack { val := fun _ => 0, next := none }
          { cell := fun _ => { val := fun _ => 0, next := none }, size := 0 }).1
        Sum := fun _ => 0, OutSum := fun _ => 0, InSum := fun _ => 0
        pq := fun _ => 0, trace := [] }
      ⟨rfl, rfl, rfl, rfl, rfl, rfl⟩ (2 * r)
  refine ⟨_, by simp only [buildRing, hn, hs1, hk, setNext]; rfl, ?_, ?_, ?_⟩
  · refine ⟨hst, ?_, ?_⟩
    · have : r + 1 ≤ 2 * r := by omega
      simp [he, this]
    · intro i hi2
      by_cases h : i = 2 * r
      · subst h; simp [hst]
      · have h1 : i < 2 * r := by omega
        have h2 : (i + 1) % (2 * r + 1) = i + 1 := Nat.mod_eq_of_lt (by omega)
        simp [h, hnx i h1, h2]
  · exact hi
  · exact ht

theorem buildRing_nonpos (radius : Int) (hr : radius ≤ 0) (img : Image) :
    ∃ s, buildRing radius img = .ok s ∧ s.img = img ∧ s.trace = [] ∧
      s.stackStart = some 0 ∧ s.stackEnd = none ∧ (s.heap.cell 0).next = some 0 := by
  have hn : (div radius - 1).toNat = 0 := by
    simp only [div]; omega
  refine ⟨_, by simp only [buildRing, hn, forLoop, NewBlurStack, setNext]; rfl, ?_⟩
  simp

/-! ## Window sums -/

theorem sumTo_congr (f g : Nat → Nat) (n : Nat) (h : ∀ j, j < n → f j = g j) :
    sumTo f n = sumTo g n := by
  induction n with
  | zero => rfl
  | succ n ih =>
    simp only [sumTo]
    rw [ih (fun j hj => h j (Nat.lt_succ_of_lt hj)), h n (Nat.lt_succ_self n)]

theorem sumTo_shift (f : Nat → Nat) (n : Nat) :
    sumTo f (n + 1) = f 0 + sumTo (fun j => f (j + 1)) n := by
  induction n with
  | zero => simp [sumTo]
  | succ n ih =>
    rw [sumTo, ih]
    simp only [sumTo]
    omega

theorem sumTo_add (f g : Nat → Nat) (n : Nat) :
    sumTo (fun j => f j + g j) n = sumTo f n + sumTo g n := by
  induction n with
  | zero => rfl
  | succ n ih => simp only [sumTo, ih]; omega

theorem sumTo_le (f g : Nat → Nat) (n : Nat) (h : ∀ j, j < n → f j ≤ g j) :
    sumTo f n ≤ sumTo g n := by
  induction n with
  | zero => exact Nat.le_refl _
  | succ n ih =>
    simp only [sumTo]
    exact Nat.add_le_add (ih (fun j hj => h j (Nat.lt_succ_of_lt hj))) (h n (Nat.lt_succ_self n))

theorem sumTo_const_mul (f : Nat → Nat) (a : Nat) (n : Nat) :
    sumTo (fun j => f j * a) n = sumTo f n * a := by
  induction n with
  | zero => simp [sumTo]
  | succ n ih => simp only [sumTo, ih]; ring

/-- Shifting a rising ramp by one position. -/
theorem ramp_up (f : Nat → Nat) (n : Nat) :
    sumTo (fun j => (j + 1) * f (j + 1)) n + sumTo f n =
      sumTo (fun j => (j + 1) * f j) n + n * f n := by
  induction n with
  | zero => simp [sumTo]
  | succ n ih =>
    simp only [sumTo]
    have e : (n + 1) * f (n + 1) = n * f (n + 1) + f (n + 1) := by ring
    have e2 : (n + 1) * f n = n * f n + f n := by ring
    omega

/-- Shifting a falling ramp by one position. -/
theorem ramp_down (f : Nat → Nat) (n : Nat) :
    sumTo (fun j => (n - j) * f (j + 1)) n + (n + 1) * f 0 =
      sumTo (fun j => (n - j) * f j) n + sumTo f (n + 1) := by
  induction n with
  | zero => simp [sumTo]
  | succ n ih =>
    have h1 : sumTo (fun j => (n + 1 - j) * f (j + 1)) (n + 1) =
        sumTo (fun j => (n - j) * f (j + 1)) n + sumTo (fun j => f (j + 1)) (n + 1) := by
      rw [sumTo, sumTo]
      rw [sumTo_congr (fun j => (n + 1 - j) * f (j + 1))
        (fun j => (n - j) * f (j + 1) + f (j + 1)) n
        (fun j hj => by
          have : n + 1 - j = (n - j) + 1 := by omega
          show (n + 1 - j) * _ = _
          rw [this]; ring)]
      rw [sumTo_add]
      simp
      omega
    have h2 : sumTo (fun j => (n + 1 - j) * f j) (n + 1) =
        sumTo (fun j => (n - j) * f j) n + sumTo f (n + 1) := by
      rw [sumTo, sumTo]
      rw [sumTo_congr (fun j => (n + 1 - j) * f j)
        (fun j => (n - j) * f j + f j) n
        (fun j hj => by
          have : n + 1 - j = (n - j) + 1 := by omega
          show (n + 1 - j) * _ = _
          rw [this]; ring)]
      rw [sumTo_add]
      simp
      omega
    have h3 := sumTo_shift f (n + 1)
    have e : (n + 1 + 1) * f 0 = (n + 1) * f 0 + f 0 := by ring
    rw [h1, h2, e]
    omega

theorem osum_step (r : Nat) (U : Nat → Nat) (x : Nat) :
    osum r U (x + 1) + U x = osum r U x + U (x + r + 1) := by
  have h := sumTo_shift (fun j => U (x + j)) (r + 1)
  have h2 : sumTo (fun j => U (x + 1 + j)) (r + 1) = sumTo (fun j => U (x + (j + 1))) (r + 1) :=
    sumTo_congr _ _ _ (fun j _ => by congr 1; omega)
  simp only [osum]
  rw [h2]
  have h3 : sumTo (fun j => U (x + j)) (r + 1 + 1) =
      sumTo (fun j => U (x + j)) (r + 1) + U (x + (r + 1)) := rfl
  rw [h3] at h
  simp only [Nat.add_zero] at h
  have h4 : x + (r + 1) = x + r + 1 := by omega
  rw [h4] at h
  omega

theorem isum_step (r : Nat) (U : Nat → Nat) (x : Nat) :
    isum r U (x + 1) + U (x + r + 1) = isum r U x + U (x + 2 * r + 1) := by
  have h := sumTo_shift (fun j => U (x + r + 1 + j)) r
  have h2 : sumTo (fun j => U (x + 1 + r + 1 + j)) r =
      sumTo (fun j => U (x + r + 1 + (j + 1))) r :=
    sumTo_congr _ _ _ (fun j _ => by congr 1; omega)
  simp only [isum]
  rw [h2]
  have h3 : sumTo (fun j => U (x + r + 1 + j)) (r + 1) =
      sumTo (fun j => U (x + r + 1 + j)) r + U (x + r + 1 + r) := rfl
  rw [h3] at h
  simp only [Nat.add_zero] at h
  have h4 : x + r + 1 + r = x + 2 * r + 1 := by omega
  rw [h4] at h
  omega

theorem rise_step (r : Nat) (U : Nat → Nat) (x : Nat) :
    rise r U (x + 1) + osum r U x = rise r U x + (r + 1) * U (x + r + 1) := by
  have h := ramp_up (fun j => U (x + j)) (r + 1)
  have h2 : sumTo (fun j => (j + 1) * U (x + 1 + j)) (r + 1) =
      sumTo (fun j => (j + 1) * U (x + (j + 1))) (r + 1) :=
    sumTo_congr _ _ _ (fun j _ => by congr 2; omega)
  simp only [rise, osum]
  rw [h2]
  have h4 : x + (r + 1) = x + r + 1 := by omega
  simp only [h4] at h
  exact h

theorem fall_step (r : Nat) (U : Nat → Nat) (x : Nat) :
    fall r U (x + 1) + (r + 1) * U (x + r + 1) =
      fall r U x + isum r U x + U (x + 2 * r + 1) := by
  have h := ramp_down (fun j => U (x + r + 1 + j)) r
  have h2 : sumTo (fun j => (r - j) * U (x + 1 + r + 1 + j)) r =
      sumTo (fun j => (r - j) * U (x + r + 1 + (j + 1))) r :=
    sumTo_congr _ _ _ (fun j _ => by congr 2; omega)
  simp only [fall, isum]
  rw [h2]
  have h3 : sumTo (fun j => U (x + r + 1 + j)) (r + 1) =
      sumTo (fun j => U (x + r + 1 + j)) r + U (x + r + 1 + r) := rfl
  rw [h3] at h
  simp only [Nat.add_zero] at h
  have h4 : x + r + 1 + r = x + 2 * r + 1 := by omega
  rw [h4] at h
  omega

/-- The recurrence that the scan step maintains. -/
theorem wsum_step (r : Nat) (U : Nat → Nat) (x : Nat) :
    wsum r U (x + 1) + osum r U x = wsum r U x + isum r U x + U (x + 2 * r + 1) := by
  have h1 := rise_step r U x
  have h2 := fall_step r U x
  simp only [wsum]
  omega

/-! ## Machine arithmetic and the scan step -/

theorem uint32_natCast (n : Nat) : uint32 (n : Int) = n % 4294967296 := by
  simp only [uint32]
  omega

theorem scan_sum_mod (S O I n S1 : Nat) (h : S1 + O = S + I + n) :
    add32 (sub32 (S % 4294967296) (O % 4294967296)) (add32 (I % 4294967296) n) =
      S1 % 4294967296 := by
  simp only [add32, sub32]
  omega

theorem scan_out_mod (O a b O1 : Nat) (h : O1 + a = O + b) :
    add32 (sub32 (O % 4294967296) a) b = O1 % 4294967296 := by
  simp only [add32, sub32]
  omega

theorem scan_in_mod (I n b I1 : Nat) (h : I1 + b = I + n) :
    sub32 (add32 (I % 4294967296) n) b = I1 % 4294967296 := by
  simp only [add32, sub32]
  omega

theorem sumFactor_natCast (r : Nat) :
    uint32 (sumFactor (r : Int)) = ((r + 1) * (r + 2) / 2) % 4294967296 := by
  have h : sumFactor (r : Int) = (((r + 1) * (r + 2) / 2 : Nat) : Int) := by
    simp only [sumFactor, radiusPlus1]
    have : ((r : Int) + 1) * ((r : Int) + 1 + 1) = (((r + 1) * (r + 2) : Nat) : Int) := by
      push_cast; ring
    rw [this]
    exact (Int.ofNat_tdiv _ _).symm
  rw [h, uint32_natCast]

theorem divsum_natCast (r : Nat) :
    divsum (r : Int) = ((r + 1) * (r + 1)) % 4294967296 := by
  have h : (div (r : Int) + 1) >>> (1 : Nat) = ((r + 1 : Nat) : Int) := by
    simp only [div]
    rw [Int.shiftRight_eq_div_pow]
    omega
  simp only [divsum, h, uint32_natCast, mul32]
  exact (Nat.mul_mod _ _ _).symm

theorem mod_ne_of_between (d x j : Nat) (h1 : x < j) (h2 : j < x + d) : j % d ≠ x % d := by
  intro h
  have h3 : (j - x) % d = 0 := Nat.sub_mod_eq_zero_of_mod_eq h
  have h4 : d ∣ j - x := Nat.dvd_of_mod_eq_zero h3
  have h5 := Nat.le_of_dvd (by omega) h4
  omega

theorem succ_mod_mod (x d : Nat) : (x % d + 1) % d = (x + 1) % d := by
  rw [Nat.add_mod, Nat.mod_mod, ← Nat.add_mod]

theorem scanStepG_spec (r : Nat) (hr : 1 ≤ r) (last : Int) (addr : Int → Point) (x : Nat)
    (s : Vars) (hd : divsum (r : Int) ≠ 0) (hg : Good r s) (hp : Ptrs r x s) :
    ∃ s1, scanStepG r last addr x s = .ok s1 ∧ Good r s1 ∧ Ptrs r (x + 1) s1 ∧
      s1.img = s.img.Set (addr x).X (addr x).Y (emit r s.Sum) ∧
      s1.trace = s.trace ++ [Event.set (addr x).X (addr x).Y] ∧
      ∀ U, Vals r U x s →
        U (x + 2 * r + 1) =
          readPixel s1.img (addr (ahead r last x)).X (addr (ahead r last x)).Y →
        Vals r U (x + 1) s1 := by
  have hin := hp.ptrIn
  have hout := hp.ptrOut
  have hlt : x % (2 * r + 1) < 2 * r + 1 := Nat.mod_lt _ (by omega)
  have hlt2 : (x + r + 1) % (2 * r + 1) < 2 * r + 1 := Nat.mod_lt _ (by omega)
  have hne : (x + r + 1) % (2 * r + 1) ≠ x % (2 * r + 1) :=
    mod_ne_of_between _ _ _ (by omega) (by omega)
  refine ⟨_, by simp only [scanStepG, hd, hin, hout, deref, setVal, if_false]; rfl,
    ?_, ?_, rfl, rfl, ?_⟩
  · refine ⟨hg.start, hg.stop, ?_⟩
    intro i hi
    by_cases h : i = x % (2 * r + 1)
    · simp only [h, if_true]
      exact hg.next _ hlt
    · simp only [h, if_false]
      exact hg.next i hi
  · refine ⟨?_, ?_⟩
    · simp only [if_true]
      rw [hg.next _ hlt, succ_mod_mod]
    · simp only [hne, if_false]
      rw [hg.next _ hlt2, succ_mod_mod]
      congr 2
      omega
  · intro U hv hU
    refine ⟨?_, ?_, ?_, ?_⟩
    · intro j hj1 hj2
      by_cases h : j = x + 2 * r + 1
      · have e : j % (2 * r + 1) = x % (2 * r + 1) := by
          rw [h, show x + 2 * r + 1 = x + (2 * r + 1) by omega, Nat.add_mod_right]
        simp only [e, if_true]
        rw [h, hU]
      · have e : j % (2 * r + 1) ≠ x % (2 * r + 1) :=
          mod_ne_of_between _ _ _ (by omega) (by omega)
        simp only [e, if_false]
        exact hv.cells j (by omega) (by omega)
    · intro c
      simp only [if_true]
      rw [hv.sum c, hv.out c, hv.ins c, ← hU]
      exact scan_sum_mod _ _ _ _ _ (wsum_step r (fun j => U j c) x)
    · intro c
      simp only [hne, if_false]
      rw [hv.out c, hv.cells x (le_refl _) (by omega),
        hv.cells (x + r + 1) (by omega) (by omega)]
      exact scan_out_mod _ _ _ _ (osum_step r (fun j => U j c) x)
    · intro c
      simp only [hne, if_true, if_false]
      rw [hv.ins c, ← hU, hv.cells (x + r + 1) (by omega) (by omega)]
      exact scan_in_mod _ _ _ _ (isum_step r (fun j => U j c) x)

/-! ## Seeding, filling and pre-loading a line -/

theorem sumTo_const (a : Nat) (n : Nat) : sumTo (fun _ => a) n = n * a := by
  induction n with
  | zero => simp [sumTo]
  | succ n ih => simp only [sumTo, ih]; ring

theorem sumTo_ramp (n : Nat) : 2 * sumTo (fun j => j + 1) n = n * (n + 1) := by
  induction n with
  | zero => simp [sumTo]
  | succ n ih => simp only [sumTo]; rw [Nat.mul_add, ih]; ring

theorem triangle_even (n : Nat) : n * (n + 1) / 2 * 2 = n * (n + 1) :=
  Nat.div_mul_cancel (by
    have := Nat.even_mul_succ_self n
    exact even_iff_two_dvd.mp this)

/-- The seed contributes `sumFactor` times its value to the weighted sum. -/
theorem rise_const (r : Nat) (U : Nat → Nat) (a : Nat) (h : ∀ j, j ≤ r → U j = a) :
    rise r U 0 = (r + 1) * (r + 2) / 2 * a := by
  have h1 : sumTo (fun j => (j + 1) * U (0 + j)) (r + 1) = sumTo (fun j => (j + 1) * a) (r + 1) :=
    sumTo_congr _ _ _ (fun j hj => by
      show (j + 1) * U (0 + j) = (j + 1) * a
      rw [Nat.zero_add, h j (by omega)])
  have h2 := sumTo_ramp (r + 1)
  have h3 := triangle_even (r + 1)
  simp only [rise]
  rw [h1, sumTo_const_mul]
  congr 1
  have : r + 1 + 1 = r + 2 := rfl
  rw [this] at h2 h3
  omega

theorem osum_const (r : Nat) (U : Nat → Nat) (a : Nat) (h : ∀ j, j ≤ r → U j = a) :
    osum r U 0 = (r + 1) * a := by
  have h1 : sumTo (fun j => U (0 + j)) (r + 1) = sumTo (fun _ => a) (r + 1) :=
    sumTo_congr _ _ _ (fun j hj => by
      show U (0 + j) = a
      rw [Nat.zero_add, h j (by omega)])
  simp only [osum]
  rw [h1, sumTo_const]

theorem fillStep_loop (r : Nat) (hr : 1 ≤ r) (s0 : Vars) (hg : Good r s0)
    (hk : s0.stack = some 0) (n : Nat) (hn : n ≤ r + 1) :
    ∃ s, forLoop fillStep n 0 s0 = .ok s ∧ Good r s ∧ s.stack = some n ∧
      (∀ j, j < n → (s.heap.cell j).val = s0.pq) ∧
      s.img = s0.img ∧ s.trace = s0.trace ∧ s.Sum = s0.Sum ∧ s.OutSum = s0.OutSum ∧
      s.InSum = s0.InSum ∧ s.pq = s0.pq := by
  refine forLoop_invariant fillStep
    (fun k s => k ≤ n → (Good r s ∧ s.stack = some k ∧
      (∀ j, j < k → (s.heap.cell j).val = s0.pq) ∧
      s.img = s0.img ∧ s.trace = s0.trace ∧ s.Sum = s0.Sum ∧ s.OutSum = s0.OutSum ∧
      s.InSum = s0.InSum ∧ s.pq = s0.pq)) n 0 s0
    (fun _ => ⟨hg, hk, by intro j hj; omega, rfl, rfl, rfl, rfl, rfl, rfl⟩) ?_ |>.imp
    (fun s h => ⟨h.1, h.2 (le_refl _)⟩)
  intro k s hkn hP
  obtain ⟨hg1, hk1, hc, hi, ht, hS, hO, hI, hq⟩ := hP (by omega)
  refine ⟨_, by simp only [fillStep, hk1, setVal, deref]; rfl, ?_⟩
  intro _
  refine ⟨⟨hg1.start, hg1.stop, ?_⟩, ?_, ?_, hi, ht, hS, hO, hI, hq⟩
  · intro i hi2
    by_cases h : i = k
    · simp only [h, if_true]
      exact hg1.next k (by omega)
    · simp only [h, if_false]
      exact hg1.next i hi2
  · simp only [if_true]
    rw [hg1.next k (by omega), Nat.mod_eq_of_lt (by omega)]
  · intro j hj
    by_cases h : j = k
    · simp only [h, if_true, hq]
    · simp only [h, if_false]
      exact hc j (by omega)

theorem preload_sum_mod (S v w : Nat) (T : Nat) (hT : T = S + w * v) :
    add32 (S % 4294967296) (mul32 v (w % 4294967296)) = T % 4294967296 := by
  subst hT
  simp only [add32, mul32]
  rw [Nat.mul_comm w v]
  conv_lhs => rw [Nat.add_mod, Nat.mod_mod, Nat.mod_mod, Nat.mul_mod, Nat.mod_mod]
  conv_rhs => rw [Nat.add_mod, Nat.mul_mod]

theorem preload_in_mod (S v : Nat) :
    add32 (S % 4294967296) v = (S + v) % 4294967296 := by
  simp only [add32]
  omega

theorem preloadStepG_loop (r : Nat) (hr : 1 ≤ r) (pre : Int → Int)
    (addr : Int → Point) (s1 : Vars) (hg : Good r s1) (hk : s1.stack = some (r + 1))
    (U : Nat → Quad)
    (hU : ∀ j, r < j → j ≤ 2 * r →
      U j = readPixel s1.img (addr (pre ((j - r : Nat) : Int))).X (addr (pre ((j - r : Nat) : Int))).Y)
    (hc : ∀ j, j ≤ r → (s1.heap.cell j).val = U j)
    (hS : ∀ c, s1.Sum c = rise r (fun j => U j c) 0 % 4294967296)
    (hI : ∀ c, s1.InSum c = 0) (n : Nat) (hn : n ≤ r) :
    ∃ s, forLoop (preloadStepG r pre addr) n 1 s1 = .ok s ∧ Good r s ∧
      s.img = s1.img ∧ s.trace = s1.trace ∧ s.OutSum = s1.OutSum ∧
      (∀ j, j ≤ r + n → (s.heap.cell j).val = U j) ∧
      (∀ c, s.Sum c = (rise r (fun j => U j c) 0 +
        sumTo (fun i => (r - i) * U (0 + r + 1 + i) c) n) % 4294967296) ∧
      (∀ c, s.InSum c = sumTo (fun i => U (0 + r + 1 + i) c) n % 4294967296) := by
  refine forLoop_invariant (preloadStepG r pre addr)
    (fun k s => k ≤ n → (Good r s ∧ s.stack = some ((r + 1 + k) % (2 * r + 1)) ∧
      s.img = s1.img ∧ s.trace = s1.trace ∧ s.OutSum = s1.OutSum ∧
      (∀ j, j ≤ r + k → (s.heap.cell j).val = U j) ∧
      (∀ c, s.Sum c = (rise r (fun j => U j c) 0 +
        sumTo (fun i => (r - i) * U (0 + r + 1 + i) c) k) % 4294967296) ∧
      (∀ c, s.InSum c = sumTo (fun i => U (0 + r + 1 + i) c) k % 4294967296))) n 1 s1
    (fun _ => ⟨hg, by rw [hk, Nat.mod_eq_of_lt (by omega)], rfl, rfl, rfl, hc,
      fun c => by simp [sumTo, hS c], fun c => by simp [sumTo, hI c]⟩) ?_ |>.imp
    (fun s h => ⟨h.1, (h.2 (le_refl _)).1, (h.2 (le_refl _)).2.2⟩)
  intro k s hkn hP
  obtain ⟨hg1, hk1, hi, ht, hO, hc1, hS1, hI1⟩ := hP (by omega)
  have hm : (r + 1 + k) % (2 * r + 1) = r + 1 + k := Nat.mod_eq_of_lt (by omega)
  rw [hm] at hk1
  have hidx : (1 : Int) + (k : Int) = ((r + 1 + k - r : Nat) : Int) := by omega
  have hw : radiusPlus1 (r : Int) - (1 + (k : Int)) = ((r - k : Nat) : Int) := by
    simp only [radiusPlus1]; omega
  have hw2 : radiusPlus1 (r : Int) - ((r + 1 + k - r : Nat) : Int) = ((r - k : Nat) : Int) := by
    simp only [radiusPlus1]; omega
  refine ⟨_, by simp only [preloadStepG, hk1, setVal, deref]; rfl, ?_⟩
  intro _
  refine ⟨⟨hg1.start, hg1.stop, ?_⟩, ?_, hi, ht, hO, ?_, ?_, ?_⟩
  · intro i hi2
    by_cases h : i = r + 1 + k
    · simp only [h, if_true]
      exact hg1.next _ (by omega)
    · simp only [h, if_false]
      exact hg1.next i hi2
  · simp only [if_true]
    rw [hg1.next _ (by omega)]
    congr 2
  · intro j hj
    by_cases h : j = r + 1 + k
    · simp only [h, if_true, hi, hidx]
      exact (hU _ (by omega) (by omega)).symm
    · simp only [h, if_false]
      exact hc1 j (by omega)
  · intro c
    simp only [if_true, hi, hidx, hw, hw2, uint32_natCast]
    rw [hS1 c, ← hU _ (by omega) (by omega)]
    refine preload_sum_mod _ _ _ _ ?_
    simp only [sumTo, Nat.zero_add]
    omega
  · intro c
    simp only [hi, hidx]
    rw [hI1 c, ← hU _ (by omega) (by omega), preload_in_mod]
    simp only [sumTo, Nat.zero_add]

/-! ## The image written by a line -/

theorem Image.Set_Rect (img : Image) (x y : Int) (c : NRGBA) :
    (img.Set x y c).Rect = img.Rect := by
  simp only [Image.Set]
  split <;> rfl

theorem Image.At_Set (img : Image) (x y : Int) (c : NRGBA) (x1 y1 : Int) :
    (img.Set x y c).At x1 y1 =
      if x1 = x ∧ y1 = y ∧ Point.In ⟨x, y⟩ img.Rect = true then c else img.At x1 y1 := by
  simp only [Image.Set]
  by_cases h : Point.In ⟨x, y⟩ img.Rect = true
  · by_cases h1 : x1 = x ∧ y1 = y
    · obtain ⟨hx, hy⟩ := h1
      subst hx; subst hy
      simp [Image.At, h]
    · simp only [h, if_true, Image.At]
      have : ¬ (x1 = x ∧ y1 = y ∧ True) := by simpa using h1
      simp [h1]
  · simp [h]

theorem lineOut_Rect (r : Nat) (U : Nat → Quad) (addr : Int → Point) (img : Image) (k : Nat) :
    (lineOut r U addr img k).Rect = img.Rect := by
  induction k with
  | zero => rfl
  | succ k ih => simp only [lineOut, Image.Set_Rect, ih]

theorem lineOut_At_off (r : Nat) (U : Nat → Quad) (addr : Int → Point) (img : Image) (k : Nat)
    (x y : Int) (h : ∀ i : Nat, i < k → addr i ≠ ⟨x, y⟩) :
    (lineOut r U addr img k).At x y = img.At x y := by
  induction k with
  | zero => rfl
  | succ k ih =>
    simp only [lineOut, Image.At_Set]
    have h1 := h k (Nat.lt_succ_self k)
    have h2 : ¬ (x = (addr k).X ∧ y = (addr k).Y ∧
        Point.In ⟨(addr k).X, (addr k).Y⟩ (lineOut r U addr img k).Rect = true) := by
      rintro ⟨hx, hy, _⟩
      exact h1 (by rw [hx, hy])
    rw [if_neg h2]
    exact ih (fun i hi => h i (Nat.lt_succ_of_lt hi))

theorem lineOut_At_on (r : Nat) (U : Nat → Quad) (addr : Int → Point) (img : Image) (k : Nat)
    (hinj : ∀ i j : Int, addr i = addr j → i = j) (i : Nat) (hi : i < k)
    (hin : Point.In (addr i) img.Rect = true) :
    (lineOut r U addr img k).At (addr i).X (addr i).Y =
      emit r (fun c => wsum r (fun j => U j c) i % 4294967296) := by
  induction k with
  | zero => omega
  | succ k ih =>
    simp only [lineOut, Image.At_Set]
    by_cases h : i = k
    · subst h
      simp [lineOut_Rect, hin]
    · have h2 : ¬ ((addr i).X = (addr k).X ∧ (addr i).Y = (addr k).Y ∧
          Point.In ⟨(addr k).X, (addr k).Y⟩ (lineOut r U addr img k).Rect = true) := by
        rintro ⟨hx, hy, _⟩
        have : addr (i : Int) = addr (k : Int) := by
          cases h1 : addr (i : Int); cases h2 : addr (k : Int)
          simp only [h1, h2] at hx hy
          rw [hx, hy]
        have := hinj _ _ this
        omega
      rw [if_neg h2]
      exact ih (by omega)

/-! ## One line -/

theorem ahead_gt (r : Nat) (len k : Nat) (h : k + 1 < len) :
    (k : Int) < ahead r ((len : Int) - 1) k := by
  simp only [ahead]
  split <;> omega

theorem windowSeq_ahead (r : Nat) (last : Int) (pre : Int → Int) (L : Int → Quad) (x : Nat) :
    windowSeq r last pre L (x + 2 * r + 1) = L (ahead r last x) := by
  have h1 : ¬ (x + 2 * r + 1 ≤ r) := by omega
  have h2 : ¬ (x + 2 * r + 1 ≤ 2 * r) := by omega
  have h3 : x + 2 * r + 1 - 2 * r - 1 = x := by omega
  simp only [windowSeq, h1, h2, h3, if_false]

/-- One line of a pass with a radius `r ≥ 1` and a non-zero `divsum` does not
fault, keeps the ring, and writes at the scan step `x` the window sum of the
values read before the line was scanned, divided by `divsum`. -/
theorem lineG_spec (r : Nat) (hr : 1 ≤ r) (len : Nat) (pre : Int → Int) (addr : Int → Point)
    (s : Vars) (hd : 0 < len → divsum (r : Int) ≠ 0) (hg : Good r s)
    (hinj : ∀ i j : Int, addr i = addr j → i = j) :
    ∃ s1, lineG r len pre addr s = .ok s1 ∧ Good r s1 ∧
      s1.img = lineOut r (windowSeq r ((len : Int) - 1) pre
        (fun i => readPixel s.img (addr i).X (addr i).Y)) addr s.img len ∧
      s1.trace = s.trace ++ lineEvents addr len := by
  let L : Int → Quad := fun i => readPixel s.img (addr i).X (addr i).Y
  let U : Nat → Quad := windowSeq r ((len : Int) - 1) pre L
  have hU0 : ∀ j, j ≤ r → U j = L 0 := by
    intro j hj
    simp only [U, windowSeq, hj, if_true]
  -- seed and fill
  obtain ⟨s1, e1, g1, k1, c1, i1, t1, S1, O1, I1, q1⟩ :=
    fillStep_loop r hr (seedG r (L 0) s) ⟨hg.start, hg.stop, hg.next⟩ hg.start (r + 1)
      (le_refl _)
  -- pre-load
  obtain ⟨s2, e2, g2, i2, t2, O2, c2, S2, I2⟩ :=
    preloadStepG_loop r hr pre addr s1 g1 k1 U
      (by
        intro j hj1 hj2
        have h1 : ¬ j ≤ r := by omega
        simp only [U, windowSeq, h1, hj2, if_true, if_false, i1]
        rfl)
      (by
        intro j hj
        rw [c1 j (by omega), hU0 j hj]
        rfl)
      (by
        intro c
        rw [S1]
        show add32 0 (mul32 (uint32 (sumFactor (r : Int))) (L 0 c)) = _
        rw [rise_const r (fun j => U j c) (L 0 c) (fun j hj => by show U j c = _; rw [hU0 j hj]),
          sumFactor_natCast]
        simp only [add32, mul32]
        rw [Nat.zero_add, Nat.mod_mod, Nat.mul_mod, Nat.mod_mod, ← Nat.mul_mod])
      (by intro c; rw [I1]; rfl) r (le_refl _)
  -- scan
  have hcnt1 : (radiusPlus1 (r : Int)).toNat = r + 1 := by
    simp only [radiusPlus1]; omega
  have hcnt2 : ((r : Int)).toNat = r := by omega
  have hcnt3 : ((len : Int)).toNat = len := by omega
  obtain ⟨s3, e3, g3, _, i3, t3, _⟩ :=
    forLoop_invariant (scanStepG r ((len : Int) - 1) addr)
      (fun k t => Good r t ∧ Ptrs r k t ∧ t.img = lineOut r U addr s.img k ∧
        t.trace = s.trace ++ lineEvents addr k ∧ (k < len → Vals r U k t)) len 0
      { s2 with stackIn := s2.stackStart, stackOut := s2.stackEnd }
      ⟨⟨g2.start, g2.stop, g2.next⟩,
        ⟨by simp [g2.start], by
          show s2.stackEnd = _
          rw [g2.stop, Nat.zero_add, Nat.mod_eq_of_lt (by omega)]⟩,
        by show s2.img = _; rw [i2, i1]; rfl,
        by show s2.trace = _; rw [t2, t1]; simp [lineEvents, seedG],
        fun _ => ⟨by
            intro j _ hj
            show (s2.heap.cell _).val = _
            rw [Nat.mod_eq_of_lt (by omega)]
            exact c2 j (by omega),
          fun c => by
            show s2.Sum c = _
            rw [S2 c]; rfl,
          fun c => by
            show s2.OutSum c = _
            rw [O2, O1]
            show mul32 (uint32 (radiusPlus1 (r : Int))) (L 0 c) = _
            rw [osum_const r (fun j => U j c) (L 0 c) (fun j hj => by show U j c = _; rw [hU0 j hj])]
            have : radiusPlus1 (r : Int) = ((r + 1 : Nat) : Int) := by
              simp only [radiusPlus1]; omega
            rw [this, uint32_natCast]
            simp only [mul32]
            rw [Nat.mul_mod, Nat.mod_mod, ← Nat.mul_mod],
          fun c => by
            show s2.InSum c = _
            rw [I2 c]; rfl⟩⟩
      (by
        intro k t hk ⟨gk, pk, ik, tk, vk⟩
        have hv := vk hk
        have hz : (0 : Int) + (k : Int) = (k : Int) := by omega
        rw [hz]
        obtain ⟨t1, et, gt, pt, it, tt, vt⟩ :=
          scanStepG_spec r hr ((len : Int) - 1) addr k t (hd (by omega)) gk pk
        have hsum : t.Sum = fun c => wsum r (fun j => U j c) k % 4294967296 :=
          funext hv.sum
        refine ⟨t1, et, gt, pt, ?_, ?_, ?_⟩
        · rw [it, ik, hsum]; rfl
        · rw [tt, tk]; simp [lineEvents]
        · intro hk1
          refine vt U hv ?_
          rw [show U (k + 2 * r + 1) = L (ahead r ((len : Int) - 1) k) from
            windowSeq_ahead r _ pre L k]
          show readPixel s.img _ _ = readPixel t1.img _ _
          rw [it, ik, hsum]
          unfold readPixel
          have hgt := ahead_gt r len k hk1
          have := lineOut_At_off r U addr s.img (k + 1)
            (addr (ahead r ((len : Int) - 1) k)).X (addr (ahead r ((len : Int) - 1) k)).Y
            (by
              intro i hi he
              have := hinj _ _ he
              omega)
          simp only [lineOut] at this
          rw [this])
  refine ⟨s3, ?_, g3, i3, t3⟩
  simp only [lineG, hcnt1, hcnt2, hcnt3]
  rw [e1]
  simp only []
  rw [e2]
  exact e3

/-! ## The passes and the run -/

theorem passOut_Rect (r len : Nat) (pre : Int → Int) (addr : Int → Int → Point) (img : Image)
    (k : Nat) : (passOut r len pre addr img k).Rect = img.Rect := by
  induction k with
  | zero => rfl
  | succ k ih => simp only [passOut, lineOut_Rect, ih]

/-- A pass with a radius `r ≥ 1` and a non-zero `divsum` does not fault and
keeps the ring. -/
theorem pass_spec (r : Nat) (hr : 1 ≤ r) (len n : Nat) (pre : Int → Int)
    (addr : Int → Int → Point) (s : Vars) (hd : 0 < len → 0 < n → divsum (r : Int) ≠ 0)
    (hg : Good r s)
    (hinj : ∀ k i j : Int, addr k i = addr k j → i = j) :
    ∃ s1, forLoop (fun k => lineG r len pre (addr k)) n 0 s = .ok s1 ∧ Good r s1 ∧
      s1.img = passOut r len pre addr s.img n ∧
      s1.trace = s.trace ++ passEvents len addr n := by
  refine forLoop_invariant (fun k => lineG r len pre (addr k))
    (fun k t => Good r t ∧ t.img = passOut r len pre addr s.img k ∧
      t.trace = s.trace ++ passEvents len addr k) n 0 s
    ⟨hg, rfl, by simp [passEvents]⟩ ?_
  intro k t hkn ⟨gk, ik, tk⟩
  have hz : (0 : Int) + (k : Int) = (k : Int) := by omega
  rw [hz]
  obtain ⟨t1, e1, g1, i1, tr1⟩ :=
    lineG_spec r hr len pre (addr k) t (fun h => hd h (by omega)) gk (hinj k)
  refine ⟨t1, e1, g1, ?_, ?_⟩
  · rw [i1, ik]; rfl
  · rw [tr1, tk]; simp [passEvents]

theorem copyOf_Rect (src : Image) : (copyOf src).Rect = src.Rect := rfl

theorem copyOf_At (src : Image) (x y : Int) : (copyOf src).At x y = src.At x y := by
  simp only [copyOf, Draw, Image.At]
  split <;> rfl

/-- The run of `Process` with a radius `r ≥ 1` and a non-zero `divsum` on an
image with non-negative dimensions: no fault, and the final image is the
vertical pass of the horizontal pass of the copy. -/
theorem run_spec (src : Image) (r : Nat) (hr : 1 ≤ r)
    (hd : 0 < src.Rect.Dx → 0 < src.Rect.Dy → divsum (r : Int) ≠ 0)
    (hw : 0 ≤ src.Rect.Dx) (hh : 0 ≤ src.Rect.Dy) :
    ∃ s, run src r = .ok s ∧ s.img = vOut r (hOut r (copyOf src)) ∧
      s.trace = passEvents src.Rect.Dx.toNat hAddr src.Rect.Dy.toNat ++
        passEvents src.Rect.Dy.toNat vAddr src.Rect.Dx.toNat ++ [Event.done] := by
  obtain ⟨s0, e0, g0, i0, t0⟩ := buildRing_spec r hr (copyOf src)
  have hW : src.Rect.Dx = ((src.Rect.Dx.toNat : Nat) : Int) := by omega
  have hH : src.Rect.Dy = ((src.Rect.Dy.toNat : Nat) : Int) := by omega
  obtain ⟨s1, e1, g1, i1, t1⟩ :=
    pass_spec r hr src.Rect.Dx.toNat src.Rect.Dy.toNat (hPre src.Rect.Dx) hAddr s0
      (fun h1 h2 => hd (by omega) (by omega)) g0
      (by
        intro k i j h
        simp only [hAddr, Point.mk.injEq] at h
        exact h.1)
  obtain ⟨s2, e2, g2, i2, t2⟩ :=
    pass_spec r hr src.Rect.Dy.toNat src.Rect.Dx.toNat (fun i => i) vAddr s1
      (fun h1 h2 => hd (by omega) (by omega)) g1
      (by
        intro k i j h
        simp only [vAddr, Point.mk.injEq] at h
        exact h.2)
  have hrow : hRow (r : Int) src.Rect.Dx =
      fun k => lineG r (src.Rect.Dx.toNat : Nat) (hPre src.Rect.Dx) (hAddr k) := by
    funext k
    rw [hRow_eq_lineG, ← hW]
    rfl
  have hcol : vCol (r : Int) src.Rect.Dy =
      fun k => lineG r (src.Rect.Dy.toNat : Nat) (fun i => i) (vAddr k) := by
    funext k
    rw [vCol_eq_lineG, ← hH]
    rfl
  have hnew : NewNRGBA src.Rect =
      .ok { Rect := src.Rect, Pix := fun _ _ => ⟨0, 0, 0, 0⟩ } := by
    have : ¬ (src.Rect.Dx < 0 ∨ src.Rect.Dy < 0) := by omega
    simp only [NewNRGBA, this, if_false]
  refine ⟨{ s2 with trace := s2.trace ++ [Event.done] }, ?_, ?_, ?_⟩
  · simp only [run, hnew]
    unfold copyOf at e0
    rw [e0]
    simp only [hrow, hcol]
    rw [e1]
    simp only []
    rw [e2]
  · show s2.img = _
    rw [i2, i1, i0]
    simp only [vOut, hOut, passOut_Rect, copyOf_Rect]
  · show s2.trace ++ [Event.done] = _
    rw [t2, t1, t0]
    simp

/-! ## Radius zero and negative radii -/

theorem buildRing_Lone (radius : Int) (hr : radius ≤ 0) (img : Image) :
    ∃ s, buildRing radius img = .ok s ∧ Lone s ∧ s.img = img ∧ s.trace = [] := by
  obtain ⟨s, e, i, t, a, b, c⟩ := buildRing_nonpos radius hr img
  exact ⟨s, e, ⟨a, b, c⟩, i, t⟩

/-- With a radius `radius ≤ 0` the seeding and the fill loop do not fault and
leave the lone node, the image and the trace as they were. -/
theorem lineG_nonpos_fill (radius : Int) (hr : radius ≤ 0) (px : Quad) (s : Vars)
    (hl : Lone s) :
    ∃ s1, forLoop fillStep (radiusPlus1 radius).toNat 0 (seedG radius px s) = .ok s1 ∧
      Lone s1 ∧ s1.img = s.img ∧ s1.trace = s.trace := by
  by_cases h0 : radius = 0
  · subst h0
    have h1 : (radiusPlus1 0).toNat = 1 := by simp [radiusPlus1]
    refine ⟨_, by
      simp only [h1, forLoop, fillStep, seedG, hl.start, setVal, deref]
      rfl, ?_, ?_, ?_⟩
    · exact ⟨rfl, hl.stop, by simp [hl.next]⟩
    · rfl
    · rfl
  · have h1 : (radiusPlus1 radius).toNat = 0 := by simp only [radiusPlus1]; omega
    refine ⟨_, by
      simp only [h1, forLoop]
      rfl, ?_, ?_, ?_⟩
    · exact ⟨hl.start, hl.stop, hl.next⟩
    · rfl
    · rfl

/-- With a radius `radius ≤ 0`, a line of no pixels changes nothing and does
not fault. -/
theorem lineG_nonpos_empty (radius len : Int) (hr : radius ≤ 0) (hlen : len ≤ 0)
    (pre : Int → Int) (addr : Int → Point) (s : Vars) (hl : Lone s) :
    ∃ s1, lineG radius len pre addr s = .ok s1 ∧ Lone s1 ∧ s1.img = s.img ∧
      s1.trace = s.trace := by
  obtain ⟨s2, e2, l2, i2, t2⟩ :=
    lineG_nonpos_fill radius hr (readPixel s.img (addr 0).X (addr 0).Y) s hl
  have h2 : radius.toNat = 0 := by omega
  have h3 : len.toNat = 0 := by omega
  refine ⟨{ s2 with stackIn := s2.stackStart, stackOut := s2.stackEnd }, ?_,
    ⟨l2.start, l2.stop, l2.next⟩, i2, t2⟩
  simp only [lineG, h3, h2, e2, forLoop]

/-- With a radius `radius ≤ 0`, the first scan step of a line with at least one
pixel faults: on the division when `divsum` is zero, and otherwise on the read
through `stackOut`, which is `nil`. -/
theorem lineG_nonpos_fault (radius len : Int) (hr : radius ≤ 0) (hlen : 1 ≤ len)
    (pre : Int → Int) (addr : Int → Point) (s : Vars) (hl : Lone s) :
    lineG radius len pre addr s =
      .error (if divsum radius = 0 then Fault.divideByZero else Fault.nilDereference) := by
  obtain ⟨s2, e2, l2, i2, t2⟩ :=
    lineG_nonpos_fill radius hr (readPixel s.img (addr 0).X (addr 0).Y) s hl
  have h2 : radius.toNat = 0 := by omega
  obtain ⟨n, hn⟩ : ∃ n, len.toNat = n + 1 := ⟨len.toNat - 1, by omega⟩
  simp only [lineG, hn, h2, e2, forLoop]
  by_cases hd : divsum radius = 0
  · simp [scanStepG, hd]
  · simp [scanStepG, hd, l2.start, l2.stop, deref, setVal]

/-! ## The bounds of the image never change -/

/-- A property kept by every iteration that does not fault is kept by the
loop. -/
theorem forLoop_preserves {σ : Type} (body : Int → σ → Except Fault σ) (Q : σ → Prop)
    (hb : ∀ i s s1, body i s = .ok s1 → Q s → Q s1) (n : Nat) (i : Int) (s s1 : σ)
    (h : forLoop body n i s = .ok s1) (hq : Q s) : Q s1 := by
  induction n generalizing i s with
  | zero =>
    simp only [forLoop, Except.ok.injEq] at h
    exact h ▸ hq
  | succ n ih =>
    simp only [forLoop] at h
    cases hbs : body i s with
    | error e => simp [hbs] at h
    | ok s2 =>
      simp only [hbs] at h
      exact ih (i + 1) s2 h (hb i s s2 hbs hq)

theorem fillStep_Rect (i : Int) (s s1 : Vars) (h : fillStep i s = .ok s1) :
    s1.img.Rect = s.img.Rect := by
  simp only [fillStep] at h
  cases hs : s.stack with
  | none => simp [hs, setVal] at h
  | some k =>
    simp only [hs, setVal, deref, Except.ok.injEq] at h
    rw [← h]

theorem preloadStepG_Rect (radius : Int) (pre : Int → Int) (addr : Int → Point) (i : Int)
    (s s1 : Vars) (h : preloadStepG radius pre addr i s = .ok s1) :
    s1.img.Rect = s.img.Rect := by
  simp only [preloadStepG] at h
  cases hs : s.stack with
  | none => simp [hs, setVal] at h
  | some k =>
    simp only [hs, setVal, deref, Except.ok.injEq] at h
    rw [← h]

theorem scanStepG_Rect (radius last : Int) (addr : Int → Point) (i : Int)
    (s s1 : Vars) (h : scanStepG radius last addr i s = .ok s1) :
    s1.img.Rect = s.img.Rect := by
  simp only [scanStepG] at h
  split at h
  · simp at h
  · cases hi : s.stackIn with
    | none => simp [hi, deref] at h
    | some k =>
      cases ho : s.stackOut with
      | none => simp [hi, ho, deref, setVal] at h
      | some m =>
        simp only [hi, ho, setVal, deref, Except.ok.injEq] at h
        rw [← h]
        exact Image.Set_Rect _ _ _ _

theorem lineG_Rect (radius len : Int) (pre : Int → Int) (addr : Int → Point)
    (s s1 : Vars) (h : lineG radius len pre addr s = .ok s1) :
    s1.img.Rect = s.img.Rect := by
  simp only [lineG] at h
  cases h1 : forLoop fillStep (radiusPlus1 radius).toNat 0
      (seedG radius (readPixel s.img (addr 0).X (addr 0).Y) s) with
  | error e => simp [h1] at h
  | ok t1 =>
    simp only [h1] at h
    cases h2 : forLoop (preloadStepG radius pre addr) radius.toNat 1 t1 with
    | error e => simp [h2] at h
    | ok t2 =>
      simp only [h2] at h
      have a1 := forLoop_preserves fillStep (fun t => t.img.Rect = s.img.Rect)
        (fun i t t3 ht hq => (fillStep_Rect i t t3 ht).trans hq) _ _ _ _ h1 rfl
      have a2 := forLoop_preserves (preloadStepG radius pre addr)
        (fun t => t.img.Rect = s.img.Rect)
        (fun i t t3 ht hq => (preloadStepG_Rect radius pre addr i t t3 ht).trans hq)
        _ _ _ _ h2 a1
      exact forLoop_preserves (scanStepG radius (len - 1) addr)
        (fun t => t.img.Rect = s.img.Rect)
        (fun i t t3 ht hq => (scanStepG_Rect radius (len - 1) addr i t t3 ht).trans hq)
        _ _ _ _ h a2

theorem buildRing_img (radius : Int) (img : Image) (s : Vars)
    (h : buildRing radius img = .ok s) : s.img = img := by
  simp only [buildRing] at h
  split at h
  · simp at h
  · rename_i s1 h1
    have a1 := forLoop_preserves (ringStep radius) (fun t => t.img = img)
      (fun i t t3 ht hq => by
        simp only [ringStep] at ht
        split at ht
        · simp at ht
        · split at ht
          · simp at ht
          · simp only [Except.ok.injEq] at ht
            rw [← ht]
            exact hq) _ _ _ _ h1 rfl
    split at h
    · simp at h
    · simp only [Except.ok.injEq] at h
      rw [← h]
      exact a1

/-- Whenever `Process` returns, the image it returns has the bounds of the
source, for every source and every radius. -/
theorem Process_Rect (src : Image) (radius : Int) (out : Image)
    (h : Process src radius = .ok out) : out.Rect = src.Rect := by
  simp only [Process] at h
  split at h
  · simp at h
  · rename_i s hs
    simp only [Except.ok.injEq] at h
    subst h
    simp only [run] at hs
    split at hs
    · simp at hs
    · rename_i img0 h0
      have r0 : img0.Rect = src.Rect := by
        simp only [NewNRGBA] at h0
        split at h0
        · simp at h0
        · simp only [Except.ok.injEq] at h0
          rw [← h0]
      split at hs
      · simp at hs
      · rename_i s0 hb
        have r1 : s0.img.Rect = src.Rect := by
          rw [buildRing_img _ _ _ hb]
          exact r0
        split at hs
        · simp at hs
        · rename_i s1 h1
          have r2 := forLoop_preserves (hRow radius src.Rect.Dx)
            (fun t => t.img.Rect = src.Rect)
            (fun i t t3 ht hq => by
              rw [hRow_eq_lineG] at ht
              exact (lineG_Rect _ _ _ _ _ _ ht).trans hq) _ _ _ _ h1 r1
          split at hs
          · simp at hs
          · rename_i s2 h2
            have r3 := forLoop_preserves (vCol radius src.Rect.Dy)
              (fun t => t.img.Rect = src.Rect)
              (fun i t t3 ht hq => by
                rw [vCol_eq_lineG] at ht
                exact (lineG_Rect _ _ _ _ _ _ ht).trans hq) _ _ _ _ h2 r2
            simp only [Except.ok.injEq] at hs
            rw [← hs]
            exact r3

/-! ## Runs of `Process`: empty images, faults, and returns -/

theorem NewNRGBA_ok (src : Image) (hw : 0 ≤ src.Rect.Dx) (hh : 0 ≤ src.Rect.Dy) :
    NewNRGBA src.Rect = .ok { Rect := src.Rect, Pix := fun _ _ => ⟨0, 0, 0, 0⟩ } := by
  have : ¬ (src.Rect.Dx < 0 ∨ src.Rect.Dy < 0) := by omega
  simp only [NewNRGBA, this, if_false]

theorem passOut_empty (r len : Nat) (pre : Int → Int) (addr : Int → Int → Point) (img : Image)
    (k : Nat) (h : len = 0 ∨ k = 0) : passOut r len pre addr img k = img := by
  rcases h with h | h
  · subst h
    induction k with
    | zero => rfl
    | succ k ih => simp only [passOut, lineOut, ih]
  · subst h
    rfl

theorem pass_nonpos_empty (radius len : Int) (hr : radius ≤ 0) (n : Nat)
    (hlen : len ≤ 0 ∨ n = 0) (pre : Int → Int) (addr : Int → Int → Point) (s : Vars)
    (hl : Lone s) :
    ∃ s1, forLoop (fun k => lineG radius len pre (addr k)) n 0 s = .ok s1 ∧ Lone s1 ∧
      s1.img = s.img ∧ s1.trace = s.trace := by
  rcases hlen with hlen | hn
  · refine forLoop_invariant (fun k => lineG radius len pre (addr k))
      (fun _ t => Lone t ∧ t.img = s.img ∧ t.trace = s.trace) n 0 s ⟨hl, rfl, rfl⟩ ?_
    intro k t _ ⟨lk, ik, tk⟩
    obtain ⟨t1, e1, l1, i1, tr1⟩ := lineG_nonpos_empty radius len hr hlen pre (addr (0 + k)) t lk
    exact ⟨t1, e1, l1, i1.trans ik, tr1.trans tk⟩
  · subst hn
    exact ⟨s, rfl, hl, rfl, rfl⟩

/-- On an image of zero width or zero height `Process` returns the copy of the
source, whatever the radius. -/
theorem Process_empty (src : Image) (radius : Int) (hw : 0 ≤ src.Rect.Dx)
    (hh : 0 ≤ src.Rect.Dy) (he : src.Rect.Dx = 0 ∨ src.Rect.Dy = 0) :
    Process src radius = .ok (copyOf src) := by
  by_cases hr : 1 ≤ radius
  · obtain ⟨r, rfl⟩ : ∃ r : Nat, radius = r := ⟨radius.toNat, by omega⟩
    obtain ⟨s, e, i, _⟩ := run_spec src r (by omega) (fun h1 h2 => by omega) hw hh
    simp only [Process, e]
    rw [i]
    have h1 : hOut r (copyOf src) = copyOf src := by
      simp only [hOut]
      exact passOut_empty _ _ _ _ _ _ (by rw [copyOf_Rect]; omega)
    rw [h1]
    simp only [vOut]
    rw [passOut_empty _ _ _ _ _ _ (by rw [copyOf_Rect]; omega)]
  · have hr0 : radius ≤ 0 := by omega
    obtain ⟨s0, e0, l0, i0, t0⟩ := buildRing_Lone radius hr0 (copyOf src)
    obtain ⟨s1, e1, l1, i1, t1⟩ :=
      pass_nonpos_empty radius src.Rect.Dx hr0 src.Rect.Dy.toNat (by omega)
        (hPre src.Rect.Dx) hAddr s0 l0
    obtain ⟨s2, e2, l2, i2, t2⟩ :=
      pass_nonpos_empty radius src.Rect.Dy hr0 src.Rect.Dx.toNat (by omega)
        (fun i => i) vAddr s1 l1
    have hrow : hRow radius src.Rect.Dx =
        fun k => lineG radius src.Rect.Dx (hPre src.Rect.Dx) (hAddr k) := by
      funext k
      rw [hRow_eq_lineG]
      rfl
    have hcol : vCol radius src.Rect.Dy =
        fun k => lineG radius src.Rect.Dy (fun i => i) (vAddr k) := by
      funext k
      rw [vCol_eq_lineG]
      rfl
    unfold copyOf at e0
    simp only [Process, run, NewNRGBA_ok src hw hh, e0, hrow, hcol, e1, e2]
    rw [i2, i1, i0]

/-- With a radius `radius ≤ 0`, `Process` faults on every image that has at
least one pixel: in the first scan step of the first row. -/
theorem Process_nonpos_fault (src : Image) (radius : Int) (hr : radius ≤ 0)
    (hw : 1 ≤ src.Rect.Dx) (hh : 1 ≤ src.Rect.Dy) :
    Process src radius =
      .error (if divsum radius = 0 then Fault.divideByZero else Fault.nilDereference) := by
  obtain ⟨s0, e0, l0, i0, t0⟩ := buildRing_Lone radius hr (copyOf src)
  obtain ⟨n, hn⟩ : ∃ n, src.Rect.Dy.toNat = n + 1 := ⟨src.Rect.Dy.toNat - 1, by omega⟩
  have e1 := forLoop_succ_error (hRow radius src.Rect.Dx) n 0 s0 _
    (by rw [hRow_eq_lineG]; exact lineG_nonpos_fault radius src.Rect.Dx hr hw _ _ s0 l0)
  unfold copyOf at e0
  simp only [Process, run, NewNRGBA_ok src (by omega) (by omega), e0, hn, e1]

/-- With a radius `r ≥ 1` whose `divsum` is not zero, `Process` returns an image
for every source with non-negative dimensions. -/
theorem Process_total (src : Image) (r : Nat) (hr : 1 ≤ r) (hd : divsum (r : Int) ≠ 0)
    (hw : 0 ≤ src.Rect.Dx) (hh : 0 ≤ src.Rect.Dy) :
    Process src r = .ok (vOut r (hOut r (copyOf src))) := by
  obtain ⟨s, e, i, _⟩ := run_spec src r hr (fun _ _ => hd) hw hh
  simp only [Process, e, i]

theorem divsum_zero : divsum 0 = 1 := by decide

/-! ## The window sum as a weighted sum, and its size -/

theorem sumTo_append (f : Nat → Nat) (a b : Nat) :
    sumTo f (a + b) = sumTo f a + sumTo (fun j => f (a + j)) b := by
  induction b with
  | zero => simp [sumTo]
  | succ b ih =>
    rw [← Nat.add_assoc]
    simp only [sumTo, ih]
    omega

/-- The window sum written with the weights `radius + 1 - |k|`. -/
theorem wsum_eq_weighted (r : Nat) (U : Nat → Nat) (x : Nat) :
    wsum r U x = sumTo (fun j => weight r ((j : Int) - r) * U (x + j)) (2 * r + 1) := by
  have h : 2 * r + 1 = (r + 1) + r := by omega
  rw [h, sumTo_append]
  simp only [wsum, rise, fall]
  congr 1
  · apply sumTo_congr
    intro j hj
    have : weight r ((j : Int) - r) = j + 1 := by
      simp only [weight]
      have : |(j : Int) - r| = r - j := by
        rw [abs_of_nonpos (by omega)]; omega
      rw [this]; omega
    rw [this]
  · apply sumTo_congr
    intro j hj
    have : weight r (((r + 1 + j : Nat) : Int) - r) = r - j := by
      simp only [weight]
      have : |((r + 1 + j : Nat) : Int) - r| = j + 1 := by
        rw [abs_of_nonneg (by omega)]; omega
      rw [this]; omega
    show (r - j) * U (x + r + 1 + j) = weight r (((r + 1 + j : Nat) : Int) - r) * U (x + (r + 1 + j))
    rw [this]
    congr 2
    omega

theorem wsum_const (r : Nat) (a : Nat) (x : Nat) :
    wsum r (fun _ => a) x = (r + 1) * (r + 1) * a := by
  simp only [wsum, rise, fall, sumTo_const_mul]
  have h1 := sumTo_ramp (r + 1)
  have h2 : 2 * sumTo (fun j => r - j) r = r * (r + 1) := by
    clear h1
    induction r with
    | zero => simp [sumTo]
    | succ n ih =>
      have e0 : sumTo (fun j => n + 1 - j) n = sumTo (fun j => n - j + 1) n :=
        sumTo_congr _ _ n (fun j hj => by show n + 1 - j = n - j + 1; omega)
      have e1 := sumTo_add (fun j => n - j) (fun _ => 1) n
      have e2 := sumTo_const 1 n
      have e : sumTo (fun j => n + 1 - j) (n + 1) = sumTo (fun j => n - j) n + (n + 1) := by
        simp only [sumTo]
        omega
      rw [e, Nat.mul_add, ih]
      ring
  have e3 : sumTo (fun j => j + 1) (r + 1) + sumTo (fun j => r - j) r = (r + 1) * (r + 1) := by
    have : (r + 1) * (r + 1 + 1) + r * (r + 1) = 2 * ((r + 1) * (r + 1)) := by ring
    omega
  rw [← Nat.add_mul, e3]

theorem wsum_le (r : Nat) (U V : Nat → Nat) (x : Nat) (h : ∀ j, U j ≤ V j) :
    wsum r U x ≤ wsum r V x := by
  simp only [wsum, rise, fall]
  exact Nat.add_le_add
    (sumTo_le _ _ _ (fun j _ => Nat.mul_le_mul_left _ (h _)))
    (sumTo_le _ _ _ (fun j _ => Nat.mul_le_mul_left _ (h _)))

theorem wsum_le_255 (r : Nat) (U : Nat → Nat) (x : Nat) (h : ∀ j, U j ≤ 255) :
    wsum r U x ≤ (r + 1) * (r + 1) * 255 := by
  rw [← wsum_const r 255 x]
  exact wsum_le r U (fun _ => 255) x h

/-! ## Reading and writing pixels; clamped indices -/

set_option maxRecDepth 100000 in
/-- The value read for a colour channel of an opaque pixel is the stored
value. -/
theorem read_solid_byte :
    ∀ v : Fin 256, to8b (mul32 (v.val ||| ((v.val <<< 8) % 4294967296)) 255 / 0xff) = v.val := by
  decide

set_option maxRecDepth 100000 in
/-- The value read for the alpha channel is the stored value. -/
theorem read_alpha_byte :
    ∀ v : Fin 256, to8b (v.val ||| ((v.val <<< 8) % 4294967296)) = v.val := by
  decide

theorem RGBA_solid (p : NRGBA) (h : p.A = 255) (c : Channel) :
    to8b (p.RGBA c) = p.chan c := by
  have hA : p.A.val = 255 := by rw [h]; rfl
  cases c
  · simp only [NRGBA.RGBA, NRGBA.chan, hA]; exact read_solid_byte p.R
  · simp only [NRGBA.RGBA, NRGBA.chan, hA]; exact read_solid_byte p.G
  · simp only [NRGBA.RGBA, NRGBA.chan, hA]; exact read_solid_byte p.B
  · simp only [NRGBA.RGBA, NRGBA.chan]; exact read_alpha_byte p.A

theorem RGBA_alpha (p : NRGBA) : to8b (p.RGBA .a) = p.chan .a := by
  simp only [NRGBA.RGBA, NRGBA.chan]; exact read_alpha_byte p.A

theorem to8b_le (n : Nat) : to8b n ≤ 255 := by
  simp only [to8b, uint8]
  omega

theorem readPixel_le (img : Image) (x y : Int) (c : Channel) : readPixel img x y c ≤ 255 :=
  to8b_le _

theorem emit_chan (radius : Int) (S : Quad) (c : Channel) :
    (emit radius S).chan c = (S c / divsum radius) % 256 := by
  cases c <;> rfl

theorem emit_A (radius : Int) (S : Quad) (h : (emit radius S).chan .a = 255) :
    (emit radius S).A = 255 := by
  apply Fin.ext
  exact h

/-- The colour written for a window of 8-bit values when the radius is at most
4103: no accumulator wraps and the narrowing to 8 bits changes nothing. -/
theorem emit_window (r : Nat) (hr : r ≤ 4103) (U : Nat → Quad) (x : Nat)
    (hU : ∀ j c, U j c ≤ 255) (c : Channel) :
    (emit r (fun c => wsum r (fun j => U j c) x % 4294967296)).chan c =
      wsum r (fun j => U j c) x / ((r + 1) * (r + 1)) := by
  have hb := wsum_le_255 r (fun j => U j c) x (fun j => hU j c)
  have hsq : (r + 1) * (r + 1) ≤ 4104 * 4104 := Nat.mul_le_mul (by omega) (by omega)
  have hpos : 0 < (r + 1) * (r + 1) := Nat.mul_pos (by omega) (by omega)
  have hd : divsum (r : Int) = (r + 1) * (r + 1) := by
    rw [divsum_natCast]
    exact Nat.mod_eq_of_lt (by omega)
  have hq : wsum r (fun j => U j c) x / ((r + 1) * (r + 1)) ≤ 255 := by
    apply Nat.div_le_of_le_mul
    rw [Nat.mul_comm] at hb
    rw [Nat.mul_comm]
    exact hb
  rw [emit_chan, hd]
  show wsum r (fun j => U j c) x % 4294967296 / ((r + 1) * (r + 1)) % 256 = _
  have hlt : wsum r (fun j => U j c) x < 4294967296 := by
    have : (r + 1) * (r + 1) * 255 ≤ 4104 * 4104 * 255 := Nat.mul_le_mul_right _ hsq
    omega
  rw [Nat.mod_eq_of_lt hlt, Nat.mod_eq_of_lt (by omega)]

theorem divsum_ne_zero (r : Nat) (hr : r ≤ 4103) : divsum (r : Int) ≠ 0 := by
  have hsq : (r + 1) * (r + 1) ≤ 4104 * 4104 := Nat.mul_le_mul (by omega) (by omega)
  have hpos : 0 < (r + 1) * (r + 1) := Nat.mul_pos (by omega) (by omega)
  rw [divsum_natCast, Nat.mod_eq_of_lt (by omega)]
  omega

theorem clamp_of_le (i hi : Int) (h : i ≤ 0) (h0 : 0 ≤ hi) : clamp i 0 hi = 0 := by
  unfold clamp
  split_ifs <;> omega

theorem clamp_of_mem (i hi : Int) (h : 0 ≤ i) (h1 : i ≤ hi) : clamp i 0 hi = i := by
  unfold clamp
  split_ifs <;> omega

theorem clamp_of_ge (i hi : Int) (h : hi ≤ i) (h0 : 0 ≤ hi) : clamp i 0 hi = hi := by
  unfold clamp
  split_ifs <;> omega

theorem clamp_range (i : Int) (len : Nat) (hlen : 1 ≤ len) :
    0 ≤ clamp i 0 ((len : Int) - 1) ∧ clamp i 0 ((len : Int) - 1) < len := by
  unfold clamp
  split_ifs <;> omega

theorem hPre_clamp (len : Nat) (i : Int) (hi : 1 ≤ i) :
    hPre len i = clamp i 0 ((len : Int) - 1) := by
  unfold hPre clamp
  split_ifs <;> omega

theorem id_clamp (r len : Nat) (hlen : r < len) (i : Int) (hi : 1 ≤ i) (hi2 : i ≤ r) :
    i = clamp i 0 ((len : Int) - 1) := by
  unfold clamp
  split_ifs <;> omega

theorem ahead_clamp (r len : Nat) (hlen : 1 ≤ len) (i : Nat) :
    ahead r ((len : Int) - 1) i = clamp ((i : Int) + r + 1) 0 ((len : Int) - 1) := by
  unfold ahead clamp
  split_ifs <;> omega

/-- The window sequence of a line whose pre-load index is clamped, in terms of
the clamped index. -/
theorem windowSeq_clamp (r len : Nat) (hlen : 1 ≤ len) (pre : Int → Int) (L : Int → Quad)
    (hpre : ∀ i : Int, 1 ≤ i → i ≤ r → pre i = clamp i 0 ((len : Int) - 1)) (j : Nat) :
    windowSeq r ((len : Int) - 1) pre L j = L (clamp ((j : Int) - r) 0 ((len : Int) - 1)) := by
  simp only [windowSeq]
  by_cases h1 : j ≤ r
  · simp only [h1, if_true]
    rw [clamp_of_le _ _ (by omega) (by omega)]
  · simp only [h1, if_false]
    by_cases h2 : j ≤ 2 * r
    · simp only [h2, if_true]
      rw [hpre _ (by omega) (by omega)]
      have : ((j - r : Nat) : Int) = (j : Int) - r := by omega
      rw [this]
    · simp only [h2, if_false]
      rw [ahead_clamp r len hlen]
      have : ((j - 2 * r - 1 : Nat) : Int) + r + 1 = (j : Int) - r := by omega
      rw [this]

/-! ## The pixels written by a pass -/

/-- A pass leaves alone every pixel that is on none of its lines. -/
theorem passOut_At_off (r len : Nat) (pre : Int → Int) (addr : Int → Int → Point)
    (img : Image) (k : Nat) (x y : Int)
    (h : ∀ l i : Nat, l < k → i < len → addr l i ≠ ⟨x, y⟩) :
    (passOut r len pre addr img k).At x y = img.At x y := by
  induction k with
  | zero => rfl
  | succ k ih =>
    simp only [passOut]
    rw [lineOut_At_off _ _ _ _ _ _ _ (fun i hi => h k i (Nat.lt_succ_self k) hi)]
    exact ih (fun l i hl hi => h l i (Nat.lt_succ_of_lt hl) hi)

/-- The pixel written by a pass at index `i` of line `l`: the window sum of the
values read on line `l` of the image the pass started from. -/
theorem passOut_At_on (r len : Nat) (pre : Int → Int) (addr : Int → Int → Point)
    (img : Image) (k : Nat)
    (hinj : ∀ l i m j : Int, addr l i = addr m j → l = m ∧ i = j)
    (l i : Nat) (hl : l < k) (hi : i < len) (hin : Point.In (addr l i) img.Rect = true) :
    (passOut r len pre addr img k).At (addr l i).X (addr l i).Y =
      emit r (fun c => wsum r (fun j => windowSeq r ((len : Int) - 1) pre
        (fun i1 => readPixel img (addr l i1).X (addr l i1).Y) j c) i % 4294967296) := by
  induction k with
  | zero => omega
  | succ k ih =>
    simp only [passOut]
    by_cases h : l = k
    · subst h
      rw [lineOut_At_on r _ (addr l) _ len (fun a b hab => (hinj l a l b hab).2) i hi
        (by rw [passOut_Rect]; exact hin)]
      have hread : (fun i1 : Int => readPixel (passOut r len pre addr img l)
          (addr l i1).X (addr l i1).Y) =
          (fun i1 : Int => readPixel img (addr l i1).X (addr l i1).Y) := by
        funext i1
        unfold readPixel
        rw [passOut_At_off r len pre addr img l _ _ (by
          intro m j hm _ he
          have := (hinj m j l i1 he).1
          omega)]
      rw [hread]
    · rw [lineOut_At_off _ _ _ _ _ _ _ (by
        intro j _ he
        have := (hinj k j l i he).1
        omega)]
      exact ih (by omega)

theorem hAddr_inj (l i m j : Int) (h : hAddr l i = hAddr m j) : l = m ∧ i = j := by
  simp only [hAddr, Point.mk.injEq] at h
  exact ⟨h.2, h.1⟩

theorem vAddr_inj (l i m j : Int) (h : vAddr l i = vAddr m j) : l = m ∧ i = j := by
  simp only [vAddr, Point.mk.injEq] at h
  exact ⟨h.1, h.2⟩

/-! ## The passes on opaque images -/

/-- The window sum of a clamped line, divided by `(r+1)^2`, is the reference
`T`. -/
theorem wsum_clamped_eq_T (r len : Nat) (v : Int → Nat) (x : Nat) :
    wsum r (fun j => v (clamp ((j : Int) - r) 0 ((len : Int) - 1))) x / ((r + 1) * (r + 1)) =
      T r len v x := by
  simp only [T, wsum_eq_weighted, pow_two]
  congr 1
  apply sumTo_congr
  intro j _
  show weight r ((j : Int) - r) * v (clamp (((x + j : Nat) : Int) - r) 0 ((len : Int) - 1)) = _
  have : ((x + j : Nat) : Int) - r = (x : Int) + ((j : Int) - r) := by omega
  rw [this]

/-- One pass over lines on which the value read for the channel `c` is the
stored value, with a radius of at most 4103 and clamped pre-load indices,
writes the reference `T` of every line in that channel. -/
theorem pass_clean (r len n : Nat) (pre : Int → Int) (addr : Int → Int → Point)
    (img : Image) (hr : r ≤ 4103) (hlen : 1 ≤ len)
    (hpre : ∀ i : Int, 1 ≤ i → i ≤ r → pre i = clamp i 0 ((len : Int) - 1))
    (hinj : ∀ l i m j : Int, addr l i = addr m j → l = m ∧ i = j)
    (l i : Nat) (hl : l < n) (hi : i < len) (hin : Point.In (addr l i) img.Rect = true)
    (c : Channel)
    (hclean : ∀ i1 : Int, 0 ≤ i1 → i1 < len →
      readPixel img (addr l i1).X (addr l i1).Y c =
        (img.At (addr l i1).X (addr l i1).Y).chan c) :
    ((passOut r len pre addr img n).At (addr l i).X (addr l i).Y).chan c =
      T r len (fun i1 => (img.At (addr l i1).X (addr l i1).Y).chan c) i := by
  rw [passOut_At_on r len pre addr img n hinj l i hl hi hin]
  have hU : ∀ j : Nat, windowSeq r ((len : Int) - 1) pre
      (fun i1 => readPixel img (addr l i1).X (addr l i1).Y) j c =
        (img.At (addr l (clamp ((j : Int) - r) 0 ((len : Int) - 1))).X
          (addr l (clamp ((j : Int) - r) 0 ((len : Int) - 1))).Y).chan c := by
    intro j
    rw [windowSeq_clamp r len hlen pre _ hpre j]
    have hc := clamp_range ((j : Int) - r) len hlen
    exact hclean _ hc.1 hc.2
  rw [emit_window r hr _ i (by
    intro j c1
    rw [windowSeq_clamp r len hlen pre _ hpre j]
    exact readPixel_le _ _ _ _) c]
  rw [show (fun j => windowSeq r ((len : Int) - 1) pre
      (fun i1 => readPixel img (addr l i1).X (addr l i1).Y) j c) =
      (fun (j : Nat) => (img.At (addr l (clamp ((j : Int) - r) 0 ((len : Int) - 1))).X
          (addr l (clamp ((j : Int) - r) 0 ((len : Int) - 1))).Y).chan c) from funext hU]
  exact wsum_clamped_eq_T r len
    (fun i1 => (img.At (addr l i1).X (addr l i1).Y).chan c) i

/-- One pass over opaque lines, with a radius of at most 4103 and clamped
pre-load indices, writes the reference `T` of every line, channel by channel. -/
theorem pass_solid (r len n : Nat) (pre : Int → Int) (addr : Int → Int → Point)
    (img : Image) (hr : r ≤ 4103) (hlen : 1 ≤ len)
    (hpre : ∀ i : Int, 1 ≤ i → i ≤ r → pre i = clamp i 0 ((len : Int) - 1))
    (hinj : ∀ l i m j : Int, addr l i = addr m j → l = m ∧ i = j)
    (l i : Nat) (hl : l < n) (hi : i < len) (hin : Point.In (addr l i) img.Rect = true)
    (hop : ∀ i1 : Int, 0 ≤ i1 → i1 < len → (img.At (addr l i1).X (addr l i1).Y).A = 255)
    (c : Channel) :
    ((passOut r len pre addr img n).At (addr l i).X (addr l i).Y).chan c =
      T r len (fun i1 => (img.At (addr l i1).X (addr l i1).Y).chan c) i :=
  pass_clean r len n pre addr img hr hlen hpre hinj l i hl hi hin c
    (fun i1 h0 h1 => RGBA_solid _ (hop i1 h0 h1) c)

theorem T_congr (r len : Nat) (hlen : 1 ≤ len) (v v1 : Int → Nat) (x : Int)
    (h : ∀ i : Int, 0 ≤ i → i < len → v i = v1 i) : T r len v x = T r len v1 x := by
  simp only [T]
  congr 1
  apply sumTo_congr
  intro j _
  have hc := clamp_range (x + ((j : Int) - r)) len hlen
  show _ * v _ = _ * v1 _
  rw [h _ hc.1 hc.2]

theorem T_const (r len : Nat) (hlen : 1 ≤ len) (v : Int → Nat) (a : Nat) (x : Nat)
    (h : ∀ i : Int, 0 ≤ i → i < len → v i = a) : T r len v x = a := by
  rw [T_congr r len hlen v (fun _ => a) x h, ← wsum_clamped_eq_T r len (fun _ => a) x,
    wsum_const]
  exact Nat.mul_div_cancel_left a (Nat.mul_pos (by omega) (by omega))

theorem In_origin (R : Rectangle) (hmin : R.Min = ⟨0, 0⟩) (x y : Int) :
    Point.In ⟨x, y⟩ R = true ↔ 0 ≤ x ∧ x < R.Dx ∧ 0 ≤ y ∧ y < R.Dy := by
  have hx : R.Min.X = 0 := by rw [hmin]
  have hy : R.Min.Y = 0 := by rw [hmin]
  simp only [Point.In, Rectangle.Dx, Rectangle.Dy, hx, hy, Bool.and_eq_true, decide_eq_true_eq]
  constructor
  · rintro ⟨⟨⟨a, b⟩, c⟩, d⟩
    exact ⟨a, by omega, c, by omega⟩
  · rintro ⟨a, b, c, d⟩
    exact ⟨⟨⟨a, by omega⟩, c⟩, by omega⟩

/-- The horizontal pass on an opaque image with bounds at the origin: every
row becomes its reference `T`, and the image stays opaque. -/
theorem hOut_solid (src : Image) (r : Nat) (hr : r ≤ 4103)
    (hmin : src.Rect.Min = ⟨0, 0⟩)
    (hop : ∀ x y, Point.In ⟨x, y⟩ src.Rect = true → (src.At x y).A = 255)
    (x y : Int) (hin : Point.In ⟨x, y⟩ src.Rect = true) (c : Channel) :
    ((hOut r (copyOf src)).At x y).chan c = naiveRows r src c x y := by
  obtain ⟨hx0, hx1, hy0, hy1⟩ := (In_origin src.Rect hmin x y).mp hin
  have hW : src.Rect.Dx = ((src.Rect.Dx.toNat : Nat) : Int) := by omega
  have hX : x = ((x.toNat : Nat) : Int) := by omega
  have hY : y = ((y.toNat : Nat) : Int) := by omega
  have key := pass_solid r src.Rect.Dx.toNat src.Rect.Dy.toNat (hPre src.Rect.Dx) hAddr
    (copyOf src) hr (by omega)
    (fun i h1 _ => by rw [hW]; exact hPre_clamp _ i h1) hAddr_inj y.toNat x.toNat
    (by omega) (by omega)
    (by rw [← hX, ← hY]; exact hin)
    (by
      intro i1 h0 h1
      rw [← hY]
      show ((copyOf src).At i1 y).A = 255
      rw [copyOf_At]
      exact hop i1 y ((In_origin src.Rect hmin i1 y).mpr ⟨h0, by omega, hy0, hy1⟩)) c
  rw [← hX, ← hY] at key
  simp only [hOut, copyOf_Rect]
  have e : (hAddr y x) = ⟨x, y⟩ := rfl
  rw [e] at key
  rw [key]
  simp only [naiveRows]
  congr 1
  funext i1
  show ((copyOf src).At i1 y).chan c = _
  rw [copyOf_At]

/-! ## Channels that are read as stored -/

theorem readPixel_alpha (img : Image) (x y : Int) :
    readPixel img x y .a = (img.At x y).chan .a :=
  RGBA_alpha _

/-- The horizontal pass on an image with bounds at the origin, in a channel
that is read as stored on the row `y`: the row becomes its reference `T`. -/
theorem hOut_clean (src : Image) (r : Nat) (hr : r ≤ 4103)
    (hmin : src.Rect.Min = ⟨0, 0⟩)
    (x y : Int) (hin : Point.In ⟨x, y⟩ src.Rect = true) (c : Channel)
    (hclean : ∀ i : Int, 0 ≤ i → i < src.Rect.Dx →
      readPixel src i y c = (src.At i y).chan c) :
    ((hOut r (copyOf src)).At x y).chan c = naiveRows r src c x y := by
  obtain ⟨hx0, hx1, hy0, hy1⟩ := (In_origin src.Rect hmin x y).mp hin
  have hW : src.Rect.Dx = ((src.Rect.Dx.toNat : Nat) : Int) := by omega
  have hX : x = ((x.toNat : Nat) : Int) := by omega
  have hY : y = ((y.toNat : Nat) : Int) := by omega
  have key := pass_clean r src.Rect.Dx.toNat src.Rect.Dy.toNat (hPre src.Rect.Dx) hAddr
    (copyOf src) hr (by omega)
    (fun i h1 _ => by rw [hW]; exact hPre_clamp _ i h1) hAddr_inj y.toNat x.toNat
    (by omega) (by omega)
    (by rw [← hX, ← hY]; exact hin) c
    (by
      intro i1 h0 h1
      rw [← hY]
      show readPixel (copyOf src) i1 y c = ((copyOf src).At i1 y).chan c
      have := hclean i1 h0 (by omega)
      simp only [readPixel, copyOf_At] at this ⊢
      exact this)
  rw [← hX, ← hY] at key
  simp only [hOut, copyOf_Rect]
  have e : (hAddr y x) = ⟨x, y⟩ := rfl
  rw [e] at key
  rw [key]
  simp only [naiveRows]
  congr 1
  funext i1
  show ((copyOf src).At i1 y).chan c = _
  rw [copyOf_At]

/-- The vertical pass after the horizontal pass, on an image with bounds at
the origin and a height above the radius, in a channel that both passes read
as stored on the lines they use: the pixel is the naive reference. -/
theorem vOut_hOut_clean (src : Image) (r : Nat) (hr : r ≤ 4103)
    (hmin : src.Rect.Min = ⟨0, 0⟩) (hh : (r : Int) < src.Rect.Dy)
    (x y : Int) (hin : Point.In ⟨x, y⟩ src.Rect = true) (c : Channel)
    (hclean : ∀ i j : Int, 0 ≤ i → i < src.Rect.Dx → 0 ≤ j → j < src.Rect.Dy →
      readPixel src i j c = (src.At i j).chan c)
    (hclean1 : ∀ j : Int, 0 ≤ j → j < src.Rect.Dy →
      readPixel (hOut r (copyOf src)) x j c = ((hOut r (copyOf src)).At x j).chan c) :
    ((vOut r (hOut r (copyOf src))).At x y).chan c = naive r src c x y := by
  obtain ⟨hx0, hx1, hy0, hy1⟩ := (In_origin src.Rect hmin x y).mp hin
  have hX : x = ((x.toNat : Nat) : Int) := by omega
  have hY : y = ((y.toNat : Nat) : Int) := by omega
  have hR : (hOut r (copyOf src)).Rect = src.Rect := by
    simp only [hOut, passOut_Rect, copyOf_Rect]
  have key := pass_clean r src.Rect.Dy.toNat src.Rect.Dx.toNat (fun i => i) vAddr
    (hOut r (copyOf src)) hr (by omega)
    (fun i h1 h2 => id_clamp r _ (by omega) i h1 h2) vAddr_inj x.toNat y.toNat
    (by omega) (by omega)
    (by rw [← hX, ← hY, hR]; exact hin) c
    (by
      intro i1 h0 h1
      rw [← hX]
      exact hclean1 i1 h0 (by omega))
  rw [← hX, ← hY] at key
  have e : vAddr x y = ⟨x, y⟩ := rfl
  rw [e] at key
  have hv : vOut r (hOut r (copyOf src)) =
      passOut r src.Rect.Dy.toNat (fun i => i) vAddr (hOut r (copyOf src))
        src.Rect.Dx.toNat := by
    simp only [vOut, hR]
  rw [hv, key]
  simp only [naive]
  apply T_congr r _ (by omega)
  intro i h0 h1
  exact hOut_clean src r hr hmin x i
    ((In_origin src.Rect hmin x i).mpr ⟨hx0, hx1, h0, by omega⟩) c
    (fun i1 a b => hclean i1 i a b h0 (by omega))

/-- The alpha channel of the image returned by the two passes is the naive
reference of the alpha channel, whatever the colours and the alpha of the
source: the alpha channel is always read as stored. -/
theorem alpha_refines_naive (src : Image) (r : Nat) (hr : r ≤ 4103)
    (hmin : src.Rect.Min = ⟨0, 0⟩) (hh : (r : Int) < src.Rect.Dy)
    (x y : Int) (hin : Point.In ⟨x, y⟩ src.Rect = true) :
    ((vOut r (hOut r (copyOf src))).At x y).chan .a = naive r src .a x y :=
  vOut_hOut_clean src r hr hmin hh x y hin .a
    (fun i j _ _ _ _ => readPixel_alpha src i j)
    (fun j _ _ => readPixel_alpha _ x j)

/-! ## The reference at an impulse -/

theorem sumTo_zero (n : Nat) : sumTo (fun _ => 0) n = 0 := by
  rw [sumTo_const, Nat.mul_zero]

theorem sumTo_ramp_down (r : Nat) : 2 * sumTo (fun j => r - j) r = r * (r + 1) := by
  induction r with
  | zero => simp [sumTo]
  | succ n ih =>
    have e0 : sumTo (fun j => n + 1 - j) n = sumTo (fun j => n - j + 1) n :=
      sumTo_congr _ _ n (fun j hj => by show n + 1 - j = n - j + 1; omega)
    have e1 := sumTo_add (fun j => n - j) (fun _ => 1) n
    have e2 := sumTo_const 1 n
    have e : sumTo (fun j => n + 1 - j) (n + 1) = sumTo (fun j => n - j) n + (n + 1) := by
      simp only [sumTo]
      omega
    rw [e, Nat.mul_add, ih]
    ring

/-- The window sum at the impulse of a clamped line that is `a` at the index
`x0` and zero elsewhere. -/
theorem wsum_impulse (r n x0 a : Nat) (hx : x0 < n) :
    2 * wsum r (fun j => if clamp ((j : Int) - r) 0 ((n : Int) - 1) = (x0 : Int) then a else 0) x0
      = selfWeight2 r n x0 * a := by
  have hrise : 2 * rise r
      (fun j => if clamp ((j : Int) - r) 0 ((n : Int) - 1) = (x0 : Int) then a else 0) x0 =
      (if x0 = 0 then (r + 1) * (r + 2) else 2 * (r + 1)) * a := by
    simp only [rise]
    by_cases h0 : x0 = 0
    · subst h0
      simp only [if_true]
      rw [sumTo_congr _ (fun j => (j + 1) * a) (r + 1) (fun j hj => by
        show (j + 1) * (if clamp (((0 + j : Nat) : Int) - r) 0 ((n : Int) - 1) = ((0 : Nat) : Int)
          then a else 0) = (j + 1) * a
        rw [clamp_of_le _ _ (by omega) (by omega)]
        simp), sumTo_const_mul, ← Nat.mul_assoc, sumTo_ramp]
    · simp only [h0, if_false]
      simp only [sumTo]
      rw [sumTo_congr _ (fun _ => 0) r (fun j hj => by
        show (j + 1) * (if clamp (((x0 + j : Nat) : Int) - r) 0 ((n : Int) - 1) = (x0 : Int)
          then a else 0) = 0
        have hne : clamp (((x0 + j : Nat) : Int) - r) 0 ((n : Int) - 1) ≠ (x0 : Int) := by
          unfold clamp
          split_ifs <;> omega
        rw [if_neg hne, Nat.mul_zero]), sumTo_zero]
      have he : clamp (((x0 + r : Nat) : Int) - r) 0 ((n : Int) - 1) = (x0 : Int) := by
        rw [clamp_of_mem _ _ (by omega) (by omega)]
        omega
      simp only [he, if_true]
      ring
  have hfall : 2 * fall r
      (fun j => if clamp ((j : Int) - r) 0 ((n : Int) - 1) = (x0 : Int) then a else 0) x0 =
      (if x0 + 1 = n then r * (r + 1) else 0) * a := by
    simp only [fall]
    by_cases h1 : x0 + 1 = n
    · simp only [h1, if_true]
      rw [sumTo_congr _ (fun j => (r - j) * a) r (fun j hj => by
        show (r - j) * (if clamp (((x0 + r + 1 + j : Nat) : Int) - r) 0 ((n : Int) - 1) = (x0 : Int)
          then a else 0) = (r - j) * a
        rw [clamp_of_ge _ _ (by omega) (by omega)]
        have : (n : Int) - 1 = (x0 : Int) := by omega
        simp [this]), sumTo_const_mul, ← Nat.mul_assoc, sumTo_ramp_down]
    · simp only [h1, if_false]
      rw [sumTo_congr _ (fun _ => 0) r (fun j hj => by
        show (r - j) * (if clamp (((x0 + r + 1 + j : Nat) : Int) - r) 0 ((n : Int) - 1) = (x0 : Int)
          then a else 0) = 0
        have hne : clamp (((x0 + r + 1 + j : Nat) : Int) - r) 0 ((n : Int) - 1) ≠ (x0 : Int) := by
          unfold clamp
          split_ifs <;> omega
        rw [if_neg hne, Nat.mul_zero]), sumTo_zero]
      simp
  simp only [wsum, selfWeight2, Nat.mul_add, Nat.add_mul, hrise, hfall]

/-- The reference `T` at the impulse of a line that is `a` at `x0` and zero
elsewhere. -/
theorem T_impulse (r n x0 a : Nat) (hx : x0 < n) :
    T r n (fun i => if i = (x0 : Int) then a else 0) x0 =
      selfWeight2 r n x0 * a / (2 * ((r + 1) * (r + 1))) := by
  rw [← wsum_clamped_eq_T r n (fun i => if i = (x0 : Int) then a else 0) x0]
  have h := wsum_impulse r n x0 a hx
  rw [← h, Nat.mul_div_mul_left _ _ (by decide : 0 < 2)]

theorem selfWeight2_mono (r r1 n x0 : Nat) (h : r ≤ r1) :
    selfWeight2 r1 n x0 * ((r + 1) * (r + 1)) ≤ selfWeight2 r n x0 * ((r1 + 1) * (r1 + 1)) := by
  obtain ⟨d, rfl⟩ : ∃ d, r1 = r + d := ⟨r1 - r, by omega⟩
  unfold selfWeight2
  split_ifs
  all_goals nlinarith [Nat.zero_le r, Nat.zero_le d, Nat.zero_le (r * d), Nat.zero_le (r * r),
    Nat.zero_le (d * d), Nat.zero_le (r * r * d), Nat.zero_le (r * d * d)]

theorem div_le_div_of_cross (x y x1 y1 : Nat) (hy : 0 < y) (hy1 : 0 < y1)
    (h : x1 * y ≤ x * y1) : x1 / y1 ≤ x / y := by
  rw [Nat.le_div_iff_mul_le hy]
  have h1 : x1 / y1 * y1 ≤ x1 := Nat.div_mul_le_self x1 y1
  have h2 : x1 / y1 * y * y1 ≤ x * y1 := by
    calc x1 / y1 * y * y1 = x1 / y1 * y1 * y := by ring
      _ ≤ x1 * y := Nat.mul_le_mul_right y h1
      _ ≤ x * y1 := h
  exact Nat.le_of_mul_le_mul_right h2 hy1

/-- The reference at the impulse does not grow with the radius. -/
theorem T_impulse_mono (r r1 n x0 a a1 : Nat) (hx : x0 < n) (h : r ≤ r1) (ha : a1 ≤ a) :
    T r1 n (fun i => if i = (x0 : Int) then a1 else 0) x0 ≤
      T r n (fun i => if i = (x0 : Int) then a else 0) x0 := by
  rw [T_impulse r n x0 a hx, T_impulse r1 n x0 a1 hx]
  apply div_le_div_of_cross
  · exact Nat.mul_pos (by decide) (Nat.mul_pos (by omega) (by omega))
  · exact Nat.mul_pos (by decide) (Nat.mul_pos (by omega) (by omega))
  · have hk := selfWeight2_mono r r1 n x0 h
    calc selfWeight2 r1 n x0 * a1 * (2 * ((r + 1) * (r + 1)))
        = 2 * (selfWeight2 r1 n x0 * ((r + 1) * (r + 1))) * a1 := by ring
      _ ≤ 2 * (selfWeight2 r n x0 * ((r1 + 1) * (r1 + 1))) * a :=
        Nat.mul_le_mul (Nat.mul_le_mul_left 2 hk) ha
      _ = selfWeight2 r n x0 * a * (2 * ((r1 + 1) * (r1 + 1))) := by ring

/-! ## Windows on transparent black -/

theorem wsum_zero (r : Nat) (U : Nat → Nat) (x : Nat) (h : ∀ j, j ≤ 2 * r → U (x + j) = 0) :
    wsum r U x = 0 := by
  simp only [wsum, rise, fall]
  rw [sumTo_congr _ (fun _ => 0) (r + 1) (fun j hj => by
      show (j + 1) * U (x + j) = 0
      rw [h j (by omega), Nat.mul_zero]),
    sumTo_congr _ (fun _ => 0) r (fun j hj => by
      show (r - j) * U (x + r + 1 + j) = 0
      rw [show x + r + 1 + j = x + (r + 1 + j) by omega, h (r + 1 + j) (by omega),
        Nat.mul_zero]),
    sumTo_zero, sumTo_zero]

theorem readPixel_clear (img : Image) (x y : Int) (h : img.At x y = clear) (c : Channel) :
    readPixel img x y c = 0 := by
  simp only [readPixel, h]
  cases c <;> rfl

theorem At_outside (img : Image) (x y : Int) (h : Point.In ⟨x, y⟩ img.Rect = false) :
    img.At x y = clear := by
  simp only [Image.At, h]
  rfl

/-- A pass with clamped pre-load indices writes `{0, 0, 0, 0}` where the whole
window lies on `{0, 0, 0, 0}` pixels. -/
theorem pass_clear (r len n : Nat) (pre : Int → Int) (addr : Int → Int → Point)
    (img : Image) (hlen : 1 ≤ len)
    (hpre : ∀ i : Int, 1 ≤ i → i ≤ r → pre i = clamp i 0 ((len : Int) - 1))
    (hinj : ∀ l i m j : Int, addr l i = addr m j → l = m ∧ i = j)
    (l i : Nat) (hl : l < n) (hi : i < len) (hin : Point.In (addr l i) img.Rect = true)
    (hz : ∀ j : Nat, j ≤ 2 * r →
      img.At (addr l (clamp (((i + j : Nat) : Int) - r) 0 ((len : Int) - 1))).X
        (addr l (clamp (((i + j : Nat) : Int) - r) 0 ((len : Int) - 1))).Y = clear) :
    (passOut r len pre addr img n).At (addr l i).X (addr l i).Y = clear := by
  rw [passOut_At_on r len pre addr img n hinj l i hl hi hin]
  have h0 : ∀ c, wsum r (fun j => windowSeq r ((len : Int) - 1) pre
      (fun i1 => readPixel img (addr l i1).X (addr l i1).Y) j c) i = 0 := by
    intro c
    apply wsum_zero
    intro j hj
    show windowSeq r ((len : Int) - 1) pre
      (fun i1 => readPixel img (addr l i1).X (addr l i1).Y) (i + j) c = 0
    rw [windowSeq_clamp r len hlen pre _ hpre (i + j)]
    exact readPixel_clear _ _ _ (hz j hj) c
  simp only [h0]
  simp [emit, uint8, clear]

theorem clamp_ne_of_far (x x0 : Int) (r len j : Nat)
    (hx : 0 ≤ x) (hx2 : x < len) (hj : j ≤ 2 * r) (hfar : (r : Int) < |x - x0|) :
    clamp (x + (j : Int) - r) 0 ((len : Int) - 1) ≠ x0 := by
  have habs : (r : Int) < x - x0 ∨ (r : Int) < x0 - x := by
    rcases abs_cases (x - x0) with ⟨h, _⟩ | ⟨h, _⟩
    · left; omega
    · right; omega
  unfold clamp
  split_ifs <;> omega

/-! ## Impulse images -/

/-- The horizontal pass on an impulse image leaves `{0, 0, 0, 0}` on every
row but the row of the impulse, and on that row further than `r` from it. -/
theorem hOut_impulse_clear (src : Image) (r : Nat) (x0 y0 : Int)
    (hmin : src.Rect.Min = ⟨0, 0⟩)
    (hz : ∀ x y, ¬ (x = x0 ∧ y = y0) → src.At x y = clear)
    (x y : Int) (hfar : y ≠ y0 ∨ (r : Int) < |x - x0|) :
    (hOut r (copyOf src)).At x y = clear := by
  by_cases hin : Point.In ⟨x, y⟩ src.Rect = true
  · obtain ⟨hx0, hx1, hy0, hy1⟩ := (In_origin src.Rect hmin x y).mp hin
    have hW : src.Rect.Dx = ((src.Rect.Dx.toNat : Nat) : Int) := by omega
    have hX : x = ((x.toNat : Nat) : Int) := by omega
    have hY : y = ((y.toNat : Nat) : Int) := by omega
    have key := pass_clear r src.Rect.Dx.toNat src.Rect.Dy.toNat (hPre src.Rect.Dx) hAddr
      (copyOf src) (by omega)
      (fun i h1 _ => by rw [hW]; exact hPre_clamp _ i h1) hAddr_inj y.toNat x.toNat
      (by omega) (by omega)
      (by rw [← hX, ← hY]; exact hin)
      (by
        intro j hj
        rw [← hY]
        show (copyOf src).At _ y = clear
        rw [copyOf_At]
        apply hz
        rintro ⟨ha, hb⟩
        rcases hfar with h | h
        · exact h hb
        · have := clamp_ne_of_far x x0 r src.Rect.Dx.toNat j hx0 (by omega) hj h
          apply this
          rw [← ha]
          congr 1
          omega)
    rw [← hX, ← hY] at key
    simp only [hOut, copyOf_Rect]
    exact key
  · apply At_outside
    simp only [hOut, passOut_Rect, copyOf_Rect]
    simpa using hin

/-- The two passes on an impulse image leave `{0, 0, 0, 0}` on every pixel
that is further than `r` from the impulse in `x` or in `y`. -/
theorem vOut_impulse_clear (src : Image) (r : Nat) (x0 y0 : Int)
    (hmin : src.Rect.Min = ⟨0, 0⟩) (hh : (r : Int) < src.Rect.Dy)
    (hz : ∀ x y, ¬ (x = x0 ∧ y = y0) → src.At x y = clear)
    (x y : Int) (hfar : (r : Int) < |x - x0| ∨ (r : Int) < |y - y0|) :
    (vOut r (hOut r (copyOf src))).At x y = clear := by
  have hR : (hOut r (copyOf src)).Rect = src.Rect := by
    simp only [hOut, passOut_Rect, copyOf_Rect]
  by_cases hin : Point.In ⟨x, y⟩ src.Rect = true
  · obtain ⟨hx0, hx1, hy0, hy1⟩ := (In_origin src.Rect hmin x y).mp hin
    have hX : x = ((x.toNat : Nat) : Int) := by omega
    have hY : y = ((y.toNat : Nat) : Int) := by omega
    have key := pass_clear r src.Rect.Dy.toNat src.Rect.Dx.toNat (fun i => i) vAddr
      (hOut r (copyOf src)) (by omega)
      (fun i h1 h2 => id_clamp r _ (by omega) i h1 h2) vAddr_inj x.toNat y.toNat
      (by omega) (by omega)
      (by rw [← hX, ← hY, hR]; exact hin)
      (by
        intro j hj
        rw [← hX]
        show (hOut r (copyOf src)).At x _ = clear
        apply hOut_impulse_clear src r x0 y0 hmin hz
        rcases hfar with h | h
        · right; exact h
        · left
          have := clamp_ne_of_far y y0 r src.Rect.Dy.toNat j hy0 (by omega) hj h
          intro he
          apply this
          rw [← he]
          congr 1
          omega)
    rw [← hX, ← hY] at key
    have hv : vOut r (hOut r (copyOf src)) =
        passOut r src.Rect.Dy.toNat (fun i => i) vAddr (hOut r (copyOf src))
          src.Rect.Dx.toNat := by
      simp only [vOut, hR]
    rw [hv]
    exact key
  · apply At_outside
    simp only [vOut, passOut_Rect, hR]
    simpa using hin

/-- The alpha channel of the naive reference at the impulse of an impulse
image. -/
theorem naive_alpha_impulse (src : Image) (r : Nat) (x0 y0 : Nat)
    (hmin : src.Rect.Min = ⟨0, 0⟩) (hin0 : Point.In ⟨x0, y0⟩ src.Rect = true)
    (hw : src.At x0 y0 = white)
    (hz : ∀ x y : Int, ¬ (x = x0 ∧ y = y0) → src.At x y = clear) :
    naive r src .a x0 y0 =
      T r src.Rect.Dy.toNat (fun j => if j = (y0 : Int) then
        T r src.Rect.Dx.toNat (fun i => if i = (x0 : Int) then 255 else 0) x0 else 0) y0 := by
  obtain ⟨hx0, hx1, hy0, hy1⟩ := (In_origin src.Rect hmin x0 y0).mp hin0
  simp only [naive]
  apply T_congr r _ (by omega)
  intro j _ _
  simp only [naiveRows]
  by_cases hj : j = (y0 : Int)
  · simp only [hj, if_true]
    apply T_congr r _ (by omega)
    intro i _ _
    by_cases hi : i = (x0 : Int)
    · simp only [hi, if_true, hw]
      rfl
    · simp only [hi, if_false]
      rw [hz i y0 (fun h => hi h.1)]
      rfl
  · simp only [hj, if_false]
    apply T_const r _ (by omega)
    intro i _ _
    rw [hz i j (fun h => hj h.2)]
    rfl

/-! ## A radius whose `divsum` wraps to zero -/

/-- With a radius `r ≥ 1` whose `divsum` is zero, the first scan step of a line
with at least one pixel faults on the division. -/
theorem lineG_divsum_zero (r : Nat) (hr : 1 ≤ r) (len : Int) (hlen : 1 ≤ len)
    (pre : Int → Int) (addr : Int → Point) (s : Vars) (hd : divsum (r : Int) = 0)
    (hg : Good r s) : lineG r len pre addr s = .error .divideByZero := by
  let L : Int → Quad := fun i => readPixel s.img (addr i).X (addr i).Y
  let U : Nat → Quad := windowSeq r (len - 1) pre L
  have hU0 : ∀ j, j ≤ r → U j = L 0 := by
    intro j hj
    simp only [U, windowSeq, hj, if_true]
  obtain ⟨s1, e1, g1, k1, c1, i1, t1, S1, O1, I1, q1⟩ :=
    fillStep_loop r hr (seedG r (L 0) s) ⟨hg.start, hg.stop, hg.next⟩ hg.start (r + 1)
      (le_refl _)
  obtain ⟨s2, e2, _⟩ :=
    preloadStepG_loop r hr pre addr s1 g1 k1 U
      (by
        intro j hj1 hj2
        have h1 : ¬ j ≤ r := by omega
        simp only [U, windowSeq, h1, hj2, if_true, if_false, i1]
        rfl)
      (by
        intro j hj
        rw [c1 j (by omega), hU0 j hj]
        rfl)
      (by
        intro c
        rw [S1]
        show add32 0 (mul32 (uint32 (sumFactor (r : Int))) (L 0 c)) = _
        rw [rise_const r (fun j => U j c) (L 0 c) (fun j hj => by show U j c = _; rw [hU0 j hj]),
          sumFactor_natCast]
        simp only [add32, mul32]
        rw [Nat.zero_add, Nat.mod_mod, Nat.mul_mod, Nat.mod_mod, ← Nat.mul_mod])
      (by intro c; rw [I1]; rfl) r (le_refl _)
  have hcnt1 : (radiusPlus1 (r : Int)).toNat = r + 1 := by
    simp only [radiusPlus1]; omega
  have hcnt2 : ((r : Int)).toNat = r := by omega
  obtain ⟨n, hn⟩ : ∃ n, len.toNat = n + 1 := ⟨len.toNat - 1, by omega⟩
  simp only [lineG, hcnt1, hcnt2, hn]
  rw [e1]
  simp only []
  rw [e2]
  simp only []
  apply forLoop_succ_error
  simp [scanStepG, hd]

/-- With a radius `r ≥ 1` whose `divsum` is zero, `Process` faults on the
division on every image that has at least one pixel. -/
theorem Process_divsum_zero (src : Image) (r : Nat) (hr : 1 ≤ r) (hd : divsum (r : Int) = 0)
    (hw : 1 ≤ src.Rect.Dx) (hh : 1 ≤ src.Rect.Dy) :
    Process src r = .error .divideByZero := by
  obtain ⟨s0, e0, g0, _, _⟩ := buildRing_spec r hr (copyOf src)
  obtain ⟨n, hn⟩ : ∃ n, src.Rect.Dy.toNat = n + 1 := ⟨src.Rect.Dy.toNat - 1, by omega⟩
  have e1 := forLoop_succ_error (hRow r src.Rect.Dx) n 0 s0 _
    (by rw [hRow_eq_lineG]; exact lineG_divsum_zero r hr src.Rect.Dx hw _ _ s0 hd g0)
  unfold copyOf at e0
  simp only [Process, run, NewNRGBA_ok src (by omega) (by omega), e0, hn, e1]

theorem divsum_65535 : divsum 65535 = 0 := by decide

/-! ## The trace of a run -/

theorem lineEvents_no_done (addr : Int → Point) (k : Nat) :
    Event.done ∉ lineEvents addr k := by
  induction k with
  | zero => simp [lineEvents]
  | succ k ih => simp [lineEvents, ih]

theorem passEvents_no_done (len : Nat) (addr : Int → Int → Point) (n : Nat) :
    Event.done ∉ passEvents len addr n := by
  induction n with
  | zero => simp [passEvents]
  | succ n ih => simp [passEvents, ih, lineEvents_no_done]

theorem lineEvents_mem (addr : Int → Point) (k i : Nat) (h : i < k) :
    Event.set (addr i).X (addr i).Y ∈ lineEvents addr k := by
  induction k with
  | zero => omega
  | succ k ih =>
    simp only [lineEvents, List.mem_append, List.mem_singleton]
    by_cases hik : i = k
    · subst hik
      exact Or.inr rfl
    · exact Or.inl (ih (by omega))

theorem passEvents_mem (len : Nat) (addr : Int → Int → Point) (n l i : Nat) (hl : l < n)
    (hi : i < len) : Event.set (addr l i).X (addr l i).Y ∈ passEvents len addr n := by
  induction n with
  | zero => omega
  | succ n ih =>
    simp only [passEvents, List.mem_append]
    by_cases hln : l = n
    · subst hln
      exact Or.inr (lineEvents_mem (addr l) len i hi)
    · exact Or.inl (ih (by omega))

theorem passEvents_empty (len : Nat) (addr : Int → Int → Point) (n : Nat)
    (h : len = 0 ∨ n = 0) : passEvents len addr n = [] := by
  rcases h with h | h
  · subst h
    induction n with
    | zero => rfl
    | succ n ih => simp [passEvents, lineEvents, ih]
  · subst h
    rfl

theorem run_error_of_Process (src : Image) (radius : Int) (e : Fault)
    (h : Process src radius = .error e) : run src radius = .error e := by
  simp only [Process] at h
  split at h
  · rename_i e1 h1
    simp only [Except.error.injEq] at h
    rw [h1, h]
  · simp at h

theorem run_negative (src : Image) (radius : Int) (h : src.Rect.Dx < 0 ∨ src.Rect.Dy < 0) :
    run src radius = .error .negativeDimensions := by
  simp only [run, NewNRGBA, h, if_true]

/-- On an image of zero width or zero height and with a radius `radius ≤ 0`, the
run writes no pixel and sends on `done`. -/
theorem run_nonpos_empty (src : Image) (radius : Int) (hr0 : radius ≤ 0)
    (hw : 0 ≤ src.Rect.Dx) (hh : 0 ≤ src.Rect.Dy)
    (he : src.Rect.Dx = 0 ∨ src.Rect.Dy = 0) :
    ∃ s, run src radius = .ok s ∧ s.trace = [Event.done] := by
  obtain ⟨s0, e0, l0, i0, t0⟩ := buildRing_Lone radius hr0 (copyOf src)
  obtain ⟨s1, e1, l1, i1, t1⟩ :=
    pass_nonpos_empty radius src.Rect.Dx hr0 src.Rect.Dy.toNat (by omega)
      (hPre src.Rect.Dx) hAddr s0 l0
  obtain ⟨s2, e2, l2, i2, t2⟩ :=
    pass_nonpos_empty radius src.Rect.Dy hr0 src.Rect.Dx.toNat (by omega)
      (fun i => i) vAddr s1 l1
  have hrow : hRow radius src.Rect.Dx =
      fun k => lineG radius src.Rect.Dx (hPre src.Rect.Dx) (hAddr k) := by
    funext k
    rw [hRow_eq_lineG]
    rfl
  have hcol : vCol radius src.Rect.Dy =
      fun k => lineG radius src.Rect.Dy (fun i => i) (vAddr k) := by
    funext k
    rw [vCol_eq_lineG]
    rfl
  unfold copyOf at e0
  refine ⟨{ s2 with trace := s2.trace ++ [Event.done] }, ?_, ?_⟩
  · simp only [run, NewNRGBA_ok src hw hh, e0, hrow, hcol, e1, e2]
  · show s2.trace ++ [Event.done] = _
    rw [t2, t1, t0]
    rfl

/-- The trace of every run that returns: the writes of the horizontal pass, the
writes of the vertical pass, and then the send on `done`. -/
theorem run_trace (src : Image) (radius : Int) (s : Vars) (h : run src radius = .ok s) :
    s.trace = passEvents src.Rect.Dx.toNat hAddr src.Rect.Dy.toNat ++
      passEvents src.Rect.Dy.toNat vAddr src.Rect.Dx.toNat ++ [Event.done] := by
  by_cases hneg : src.Rect.Dx < 0 ∨ src.Rect.Dy < 0
  · rw [run_negative src radius hneg] at h
    simp at h
  have hw : 0 ≤ src.Rect.Dx := by omega
  have hh : 0 ≤ src.Rect.Dy := by omega
  by_cases hr : 1 ≤ radius
  · obtain ⟨r, rfl⟩ : ∃ r : Nat, radius = r := ⟨radius.toNat, by omega⟩
    by_cases hd : 0 < src.Rect.Dx → 0 < src.Rect.Dy → divsum (r : Int) ≠ 0
    · obtain ⟨s1, e1, _, t1⟩ := run_spec src r (by omega) hd hw hh
      rw [e1] at h
      simp only [Except.ok.injEq] at h
      rw [← h, t1]
    · have hd1 : 0 < src.Rect.Dx ∧ 0 < src.Rect.Dy ∧ divsum (r : Int) = 0 := by
        by_contra hc
        apply hd
        intro h1 h2 h3
        exact hc ⟨h1, h2, h3⟩
      have := run_error_of_Process src r _
        (Process_divsum_zero src r (by omega) hd1.2.2 (by omega) (by omega))
      rw [this] at h
      simp at h
  · have hr0 : radius ≤ 0 := by omega
    by_cases he : src.Rect.Dx = 0 ∨ src.Rect.Dy = 0
    · obtain ⟨s1, e1, t1⟩ := run_nonpos_empty src radius hr0 hw hh he
      rw [e1] at h
      simp only [Except.ok.injEq] at h
      rw [← h, t1]
      rw [passEvents_empty _ _ _ (by omega), passEvents_empty _ _ _ (by omega)]
      rfl
    · have := run_error_of_Process src radius _
        (Process_nonpos_fault src radius hr0 (by omega) (by omega))
      rw [this] at h
      simp at h

/-! ## The shape of the ring -/

/-- The ring built for a radius `r ≥ 0`: `2*r+1` nodes are allocated, node `i`
points to node `i+1` and the last one to node `0`, `stackStart` is node `0`,
and `stackEnd` is node `r+1` when `r ≥ 1` and `nil` when `r = 0`. -/
theorem buildRing_shape (r : Nat) (img : Image) :
    ∃ s, buildRing r img = .ok s ∧ s.heap.size = 2 * r + 1 ∧ s.stackStart = some 0 ∧
      (∀ i, i < 2 * r + 1 → (s.heap.cell i).next = some ((i + 1) % (2 * r + 1))) ∧
      s.stackEnd = (if r = 0 then none else some (r + 1)) := by
  have hn : (div (r : Int) - 1).toNat = 2 * r := by
    simp only [div]; omega
  obtain ⟨s1, hs1, hi, ht, hsz, hk, hst, hnx, he⟩ :=
    ringStep_loop r img
      { img := img
        heap := (NewBlurStack { val := fun _ => 0, next := none }
          { cell := fun _ => { val := fun _ => 0, next := none }, size := 0 }).2
        stackStart := (NewBlurStack { val := fun _ => 0, next := none }
          { cell := fun _ => { val := fun _ => 0, next := none }, size := 0 }).1
        stackEnd := none, stackIn := none, stackOut := none
        stack := (NewBlurStack { val := fun _ => 0, next := none }
          { cell := fun _ => { val := fun _ => 0, next := none }, size := 0 }).1
        Sum := fun _ => 0, OutSum := fun _ => 0, InSum := fun _ => 0
        pq := fun _ => 0, trace := [] }
      ⟨rfl, rfl, rfl, rfl, rfl, rfl⟩ (2 * r)
  refine ⟨_, by simp only [buildRing, hn, hs1, hk, setNext]; rfl, ?_, ?_, ?_, ?_⟩
  · exact hsz
  · exact hst
  · intro i hi2
    by_cases h : i = 2 * r
    · subst h; simp [hst]
    · have h1 : i < 2 * r := by omega
      have h2 : (i + 1) % (2 * r + 1) = i + 1 := Nat.mod_eq_of_lt (by omega)
      simp [h, hnx i h1, h2]
  · show s1.stackEnd = _
    rw [he]
    by_cases h0 : r = 0
    · subst h0; simp
    · have : r + 1 ≤ 2 * r := by omega
      simp [h0, this]

/-- Following `next` in a ring of `d` nodes adds to the address modulo `d`. -/
theorem follow_ring (h : Heap) (d : Nat)
    (hnx : ∀ i, i < d → (h.cell i).next = some ((i + 1) % d)) (k i : Nat) (hi : i < d) :
    follow h k (some i) = .ok (some ((i + k) % d)) := by
  induction k generalizing i with
  | zero => simp [follow, Nat.mod_eq_of_lt hi]
  | succ k ih =>
    simp only [follow, deref, hnx i hi]
    rw [ih _ (Nat.mod_lt _ (by omega))]
    congr 2
    rw [Nat.add_mod, Nat.mod_mod, ← Nat.add_mod]
    congr 1
    omega

/-! ## The variables at an emission -/

theorem hRowAt_eq_lineAtG (radius width y : Int) (n : Nat) :
    hRowAt radius width y n = lineAtG radius (width - 1) (hPre width) (fun i => ⟨i, y⟩) n := by
  funext s
  simp only [hRowAt, lineAtG, hScanStep_eq, hPreloadStep_eq]
  have h : (radiusPlus1 radius - 1).toNat = radius.toNat := by simp [radiusPlus1]
  rw [h]
  rfl

theorem vColAt_eq_lineAtG (radius height x : Int) (n : Nat) :
    vColAt radius height x n = lineAtG radius (height - 1) (fun i => i) (fun i => ⟨x, i⟩) n := by
  funext s
  simp only [vColAt, lineAtG, vScanStep_eq, vPreloadStep_eq]
  rfl

/-- At the start of the scan step `n` of a line of length `len > n`, with a
radius `r ≥ 1` and a non-zero `divsum`, the accumulators hold the window sums of
the values read before the line was scanned. -/
theorem lineAtG_spec (r : Nat) (hr : 1 ≤ r) (len : Nat) (pre : Int → Int) (addr : Int → Point)
    (s : Vars) (hd : divsum (r : Int) ≠ 0) (hg : Good r s)
    (hinj : ∀ i j : Int, addr i = addr j → i = j) (n : Nat) (hn : n < len) :
    ∃ s1, lineAtG r ((len : Int) - 1) pre addr n s = .ok s1 ∧
      Vals r (windowSeq r ((len : Int) - 1) pre
        (fun i => readPixel s.img (addr i).X (addr i).Y)) n s1 := by
  let L : Int → Quad := fun i => readPixel s.img (addr i).X (addr i).Y
  let U : Nat → Quad := windowSeq r ((len : Int) - 1) pre L
  have hU0 : ∀ j, j ≤ r → U j = L 0 := by
    intro j hj
    simp only [U, windowSeq, hj, if_true]
  obtain ⟨s1, e1, g1, k1, c1, i1, t1, S1, O1, I1, q1⟩ :=
    fillStep_loop r hr (seedG r (L 0) s) ⟨hg.start, hg.stop, hg.next⟩ hg.start (r + 1)
      (le_refl _)
  obtain ⟨s2, e2, g2, i2, t2, O2, c2, S2, I2⟩ :=
    preloadStepG_loop r hr pre addr s1 g1 k1 U
      (by
        intro j hj1 hj2
        have h1 : ¬ j ≤ r := by omega
        simp only [U, windowSeq, h1, hj2, if_true, if_false, i1]
        rfl)
      (by
        intro j hj
        rw [c1 j (by omega), hU0 j hj]
        rfl)
      (by
        intro c
        rw [S1]
        show add32 0 (mul32 (uint32 (sumFactor (r : Int))) (L 0 c)) = _
        rw [rise_const r (fun j => U j c) (L 0 c) (fun j hj => by show U j c = _; rw [hU0 j hj]),
          sumFactor_natCast]
        simp only [add32, mul32]
        rw [Nat.zero_add, Nat.mod_mod, Nat.mul_mod, Nat.mod_mod, ← Nat.mul_mod])
      (by intro c; rw [I1]; rfl) r (le_refl _)
  have hcnt1 : (radiusPlus1 (r : Int)).toNat = r + 1 := by
    simp only [radiusPlus1]; omega
  have hcnt2 : ((r : Int)).toNat = r := by omega
  obtain ⟨s3, e3, _, _, _, v3⟩ :=
    forLoop_invariant (scanStepG r ((len : Int) - 1) addr)
      (fun k t => Good r t ∧ Ptrs r k t ∧ t.img = lineOut r U addr s.img k ∧ Vals r U k t) n 0
      { s2 with stackIn := s2.stackStart, stackOut := s2.stackEnd }
      ⟨⟨g2.start, g2.stop, g2.next⟩,
        ⟨by simp [g2.start], by
          show s2.stackEnd = _
          rw [g2.stop, Nat.zero_add, Nat.mod_eq_of_lt (by omega)]⟩,
        by show s2.img = _; rw [i2, i1]; rfl,
        ⟨by
            intro j _ hj
            show (s2.heap.cell _).val = _
            rw [Nat.mod_eq_of_lt (by omega)]
            exact c2 j (by omega),
          fun c => by
            show s2.Sum c = _
            rw [S2 c]; rfl,
          fun c => by
            show s2.OutSum c = _
            rw [O2, O1]
            show mul32 (uint32 (radiusPlus1 (r : Int))) (L 0 c) = _
            rw [osum_const r (fun j => U j c) (L 0 c) (fun j hj => by show U j c = _; rw [hU0 j hj])]
            have : radiusPlus1 (r : Int) = ((r + 1 : Nat) : Int) := by
              simp only [radiusPlus1]; omega
            rw [this, uint32_natCast]
            simp only [mul32]
            rw [Nat.mul_mod, Nat.mod_mod, ← Nat.mul_mod],
          fun c => by
            show s2.InSum c = _
            rw [I2 c]; rfl⟩⟩
      (by
        intro k t hk ⟨gk, pk, ik, hv⟩
        have hz : (0 : Int) + (k : Int) = (k : Int) := by omega
        rw [hz]
        obtain ⟨t1, et, gt, pt, it, _, vt⟩ :=
          scanStepG_spec r hr ((len : Int) - 1) addr k t hd gk pk
        have hsum : t.Sum = fun c => wsum r (fun j => U j c) k % 4294967296 :=
          funext hv.sum
        refine ⟨t1, et, gt, pt, ?_, ?_⟩
        · rw [it, ik, hsum]; rfl
        · refine vt U hv ?_
          rw [show U (k + 2 * r + 1) = L (ahead r ((len : Int) - 1) k) from
            windowSeq_ahead r _ pre L k]
          show readPixel s.img _ _ = readPixel t1.img _ _
          rw [it, ik, hsum]
          unfold readPixel
          have hgt := ahead_gt r len k (by omega)
          have := lineOut_At_off r U addr s.img (k + 1)
            (addr (ahead r ((len : Int) - 1) k)).X (addr (ahead r ((len : Int) - 1) k)).Y
            (by
              intro i hi he
              have := hinj _ _ he
              omega)
          simp only [lineOut] at this
          rw [this])
  refine ⟨s3, ?_, v3⟩
  simp only [lineAtG, hcnt1, hcnt2]
  rw [e1]
  simp only []
  rw [e2]
  exact e3

theorem readPixel_congr (img img1 : Image) (x y : Int) (h : img.At x y = img1.At x y) :
    readPixel img x y = readPixel img1 x y := by
  unfold readPixel
  rw [h]

/-- A window sum of 8-bit values with a radius of at most 4103 is below `2^32`. -/
theorem wsum_lt (r : Nat) (hr : r ≤ 4103) (U : Nat → Nat) (x : Nat) (h : ∀ j, U j ≤ 255) :
    wsum r U x < 4294967296 := by
  have hb := wsum_le_255 r U x h
  have hsq : (r + 1) * (r + 1) ≤ 4104 * 4104 := Nat.mul_le_mul (by omega) (by omega)
  have : (r + 1) * (r + 1) * 255 ≤ 4104 * 4104 * 255 := Nat.mul_le_mul_right _ hsq
  omega

theorem windowSeq_le (r : Nat) (last : Int) (pre : Int → Int) (L : Int → Quad)
    (h : ∀ i c, L i c ≤ 255) (j : Nat) (c : Channel) : windowSeq r last pre L j c ≤ 255 := by
  simp only [windowSeq]
  split_ifs <;> exact h _ _

theorem wsum_clamped_eq_windowSum (r len : Nat) (v : Int → Nat) (x : Nat) :
    wsum r (fun j => v (clamp ((j : Int) - r) 0 ((len : Int) - 1))) x = windowSum r len v x := by
  simp only [windowSum, wsum_eq_weighted]
  apply sumTo_congr
  intro j _
  show weight r ((j : Int) - r) * v (clamp (((x + j : Nat) : Int) - r) 0 ((len : Int) - 1)) = _
  have : ((x + j : Nat) : Int) - r = (x : Int) + ((j : Int) - r) := by omega
  rw [this]

theorem T_eq_windowSum (r len : Nat) (v : Int → Nat) (x : Int) :
    T r len v x = windowSum r len v x / (r + 1) ^ 2 := rfl

/-- The run up to the emission of the pixel `(x, y)` by the horizontal pass. -/
theorem atRowScan_spec (src : Image) (r : Nat) (hr : 1 ≤ r) (hd : divsum (r : Int) ≠ 0)
    (y x : Nat) (hy : (y : Int) < src.Rect.Dy) (hx : (x : Int) < src.Rect.Dx) :
    ∃ s, atRowScan src r y x = .ok s ∧
      Vals r (windowSeq r (src.Rect.Dx - 1) (hPre src.Rect.Dx)
        (fun i => readPixel src i y)) x s := by
  have hw : 0 ≤ src.Rect.Dx := by omega
  have hh : 0 ≤ src.Rect.Dy := by omega
  have hW : src.Rect.Dx = ((src.Rect.Dx.toNat : Nat) : Int) := by omega
  obtain ⟨s0, e0, g0, i0, _⟩ := buildRing_spec r hr (copyOf src)
  obtain ⟨s1, e1, g1, i1, _⟩ :=
    pass_spec r hr src.Rect.Dx.toNat y (hPre src.Rect.Dx) hAddr s0 (fun _ _ => hd) g0
      (by
        intro k i j h
        simp only [hAddr, Point.mk.injEq] at h
        exact h.1)
  obtain ⟨s2, e2, v2⟩ :=
    lineAtG_spec r hr src.Rect.Dx.toNat (hPre src.Rect.Dx) (hAddr y) s1 hd g1
      (by
        intro i j h
        simp only [hAddr, Point.mk.injEq] at h
        exact h.1) x (by omega)
  have hrow : hRow (r : Int) src.Rect.Dx =
      fun k => lineG r (src.Rect.Dx.toNat : Nat) (hPre src.Rect.Dx) (hAddr k) := by
    funext k
    rw [hRow_eq_lineG, ← hW]
    rfl
  have hL : (fun i : Int => readPixel s1.img (hAddr y i).X (hAddr y i).Y) =
      fun i => readPixel src i y := by
    funext i
    apply readPixel_congr
    rw [i1, i0]
    show (passOut r _ _ hAddr (copyOf src) y).At i y = _
    rw [passOut_At_off _ _ _ _ _ _ _ _ (by
      intro l j hl _ he
      simp only [hAddr, Point.mk.injEq] at he
      omega)]
    exact copyOf_At src i y
  rw [hL, ← hW] at v2
  refine ⟨s2, ?_, v2⟩
  unfold copyOf at e0
  simp only [atRowScan, NewNRGBA_ok src hw hh, e0, hrow, e1]
  rw [hRowAt_eq_lineAtG, hW]
  rw [← hW] at e2 ⊢
  exact e2

/-- The run up to the emission of the pixel `(x, y)` by the vertical pass. -/
theorem atColScan_spec (src : Image) (r : Nat) (hr : 1 ≤ r) (hd : divsum (r : Int) ≠ 0)
    (x y : Nat) (hx : (x : Int) < src.Rect.Dx) (hy : (y : Int) < src.Rect.Dy) :
    ∃ s, atColScan src r x y = .ok s ∧
      Vals r (windowSeq r (src.Rect.Dy - 1) (fun i => i)
        (fun i => readPixel (hOut r (copyOf src)) x i)) y s := by
  have hw : 0 ≤ src.Rect.Dx := by omega
  have hh : 0 ≤ src.Rect.Dy := by omega
  have hW : src.Rect.Dx = ((src.Rect.Dx.toNat : Nat) : Int) := by omega
  have hH : src.Rect.Dy = ((src.Rect.Dy.toNat : Nat) : Int) := by omega
  obtain ⟨s0, e0, g0, i0, _⟩ := buildRing_spec r hr (copyOf src)
  obtain ⟨s1, e1, g1, i1, _⟩ :=
    pass_spec r hr src.Rect.Dx.toNat src.Rect.Dy.toNat (hPre src.Rect.Dx) hAddr s0
      (fun _ _ => hd) g0
      (by
        intro k i j h
        simp only [hAddr, Point.mk.injEq] at h
        exact h.1)
  obtain ⟨s2, e2, g2, i2, _⟩ :=
    pass_spec r hr src.Rect.Dy.toNat x (fun i => i) vAddr s1 (fun _ _ => hd) g1
      (by
        intro k i j h
        simp only [vAddr, Point.mk.injEq] at h
        exact h.2)
  obtain ⟨s3, e3, v3⟩ :=
    lineAtG_spec r hr src.Rect.Dy.toNat (fun i => i) (vAddr x) s2 hd g2
      (by
        intro i j h
        simp only [vAddr, Point.mk.injEq] at h
        exact h.2) y (by omega)
  have hrow : hRow (r : Int) src.Rect.Dx =
      fun k => lineG r (src.Rect.Dx.toNat : Nat) (hPre src.Rect.Dx) (hAddr k) := by
    funext k
    rw [hRow_eq_lineG, ← hW]
    rfl
  have hcol : vCol (r : Int) src.Rect.Dy =
      fun k => lineG r (src.Rect.Dy.toNat : Nat) (fun i => i) (vAddr k) := by
    funext k
    rw [vCol_eq_lineG, ← hH]
    rfl
  have h1 : s1.img = hOut r (copyOf src) := by
    rw [i1, i0]
    simp only [hOut, copyOf_Rect]
  have hL : (fun i : Int => readPixel s2.img (vAddr x i).X (vAddr x i).Y) =
      fun i => readPixel (hOut r (copyOf src)) x i := by
    funext i
    apply readPixel_congr
    rw [i2, h1]
    show (passOut r _ _ vAddr (hOut r (copyOf src)) x).At x i = _
    rw [passOut_At_off _ _ _ _ _ _ _ _ (by
      intro l j hl _ he
      simp only [vAddr, Point.mk.injEq] at he
      omega)]
    rfl
  rw [hL, ← hH] at v3
  refine ⟨s3, ?_, v3⟩
  unfold copyOf at e0
  simp only [atColScan, NewNRGBA_ok src hw hh, e0, hrow, hcol, e1, e2]
  rw [vColAt_eq_lineAtG, hH]
  rw [← hH] at e3 ⊢
  exact e3

/-- What the accumulator `S` of one channel holds at an emission when it holds
the window sum `W` of 8-bit values and the radius is at most 4103: the sum
itself, which is at most `255 * (r+1)^2`, below `2^32`; the quotient by
`divsum` is at most 255 and is not changed by the conversion to `uint8`. -/
theorem emission_exact (r : Nat) (hr : r ≤ 4103) (U : Nat → Nat) (x : Nat)
    (hU : ∀ j, U j ≤ 255) (S : Nat) (hS : S = wsum r U x % 4294967296) :
    S = wsum r U x ∧ S ≤ 255 * (r + 1) ^ 2 ∧ S / divsum (r : Int) ≤ 255 ∧
      (uint8 (S / divsum (r : Int))).val = S / divsum (r : Int) := by
  have hb := wsum_le_255 r U x hU
  have hlt := wsum_lt r hr U x hU
  have hsq : (r + 1) * (r + 1) ≤ 4104 * 4104 := Nat.mul_le_mul (by omega) (by omega)
  have hpos : 0 < (r + 1) * (r + 1) := Nat.mul_pos (by omega) (by omega)
  have hd : divsum (r : Int) = (r + 1) * (r + 1) := by
    rw [divsum_natCast]
    exact Nat.mod_eq_of_lt (by omega)
  rw [Nat.mod_eq_of_lt hlt] at hS
  have hq : S / ((r + 1) * (r + 1)) ≤ 255 := by
    apply Nat.div_le_of_le_mul
    rw [hS]
    exact hb
  refine ⟨hS, ?_, ?_, ?_⟩
  · rw [hS, pow_two, Nat.mul_comm 255]
    exact hb
  · rw [hd]
    exact hq
  · rw [hd]
    show S / ((r + 1) * (r + 1)) % 256 = _
    exact Nat.mod_eq_of_lt (by omega)

/-! ## Reading from a copy -/

/-- Two loops whose bodies agree on the states that satisfy an invariant of the
first one are equal. -/
theorem forLoop_congr_inv {σ : Type} (b1 b2 : Int → σ → Except Fault σ)
    (Q : Nat → σ → Prop) (n : Nat) (start : Int) (s : σ) (h0 : Q 0 s)
    (heq : ∀ k s, k < n → Q k s → b1 (start + k) s = b2 (start + k) s)
    (hpres : ∀ k s s1, k < n → Q k s → b1 (start + k) s = .ok s1 → Q (k + 1) s1) :
    forLoop b1 n start s = forLoop b2 n start s ∧
      ∀ s1, forLoop b1 n start s = .ok s1 → Q n s1 := by
  induction n generalizing Q start s with
  | zero =>
    refine ⟨rfl, ?_⟩
    intro s1 h
    simp only [forLoop, Except.ok.injEq] at h
    exact h ▸ h0
  | succ n ih =>
    have e0 := heq 0 s (Nat.succ_pos n) h0
    simp only [Nat.cast_zero, add_zero] at e0
    cases hb : b1 start s with
    | error e =>
      rw [hb] at e0
      refine ⟨by simp [forLoop, hb, ← e0], ?_⟩
      intro s1 h
      simp [forLoop, hb] at h
    | ok t =>
      rw [hb] at e0
      have hq := hpres 0 s t (Nat.succ_pos n) h0 (by simpa using hb)
      have := ih (fun k u => Q (k + 1) u) (start + 1) t hq
        (by
          intro k u hk hu
          have := heq (k + 1) u (by omega) hu
          have hz : start + ((k + 1 : Nat) : Int) = start + 1 + (k : Int) := by
            push_cast; ring
          rw [hz] at this
          exact this)
        (by
          intro k u u1 hk hu hb1
          have hz : start + ((k + 1 : Nat) : Int) = start + 1 + (k : Int) := by
            push_cast; ring
          exact hpres (k + 1) u u1 (by omega) hu (by rw [hz]; exact hb1))
      simp only [forLoop, hb, ← e0]
      exact this

/-- The last iteration of a counted loop. -/
theorem forLoop_last {σ : Type} (body : Int → σ → Except Fault σ) (n : Nat) (i : Int) (s : σ) :
    forLoop body (n + 1) i s =
      match forLoop body n i s with
      | .error e => .error e
      | .ok t => body (i + n) t := by
  induction n generalizing i s with
  | zero =>
    simp only [forLoop, Nat.cast_zero, add_zero]
    cases body i s <;> rfl
  | succ n ih =>
    rw [forLoop]
    cases hb : body i s with
    | error e => simp [forLoop, hb]
    | ok t =>
      simp only []
      rw [ih (i + 1) t]
      have hz : i + 1 + (n : Int) = i + ((n + 1 : Nat) : Int) := by push_cast; ring
      rw [hz]
      conv_rhs => rw [forLoop]
      simp only [hb]

theorem fillStep_img (i : Int) (s s1 : Vars) (h : fillStep i s = .ok s1) :
    s1.img = s.img := by
  simp only [fillStep] at h
  cases hs : s.stack with
  | none => simp [hs, setVal] at h
  | some k =>
    simp only [hs, setVal, deref, Except.ok.injEq] at h
    rw [← h]

theorem preloadStepG_img (radius : Int) (pre : Int → Int) (addr : Int → Point) (i : Int)
    (s s1 : Vars) (h : preloadStepG radius pre addr i s = .ok s1) :
    s1.img = s.img := by
  simp only [preloadStepG] at h
  cases hs : s.stack with
  | none => simp [hs, setVal] at h
  | some k =>
    simp only [hs, setVal, deref, Except.ok.injEq] at h
    rw [← h]

theorem scanStepG_img (radius last : Int) (addr : Int → Point) (i : Int)
    (s s1 : Vars) (h : scanStepG radius last addr i s = .ok s1) :
    s1.img = s.img.Set (addr i).X (addr i).Y (emit radius s.Sum) := by
  simp only [scanStepG] at h
  split at h
  · simp at h
  · cases hi : s.stackIn with
    | none => simp [hi, deref] at h
    | some k =>
      cases ho : s.stackOut with
      | none => simp [hi, ho, deref, setVal] at h
      | some m =>
        simp only [hi, ho, setVal, deref, Except.ok.injEq] at h
        rw [← h]

theorem preloadStepFromG_eq (radius : Int) (pre : Int → Int) (addr : Int → Point) (i : Int)
    (s : Vars) : preloadStepFromG s.img radius pre addr i s = preloadStepG radius pre addr i s :=
  rfl

/-- A scan step that reads a pixel on which the working image and `orig` agree
after the write of the step does what the step reading from `orig` does. -/
theorem scanStepFromG_eq (orig : Image) (radius last : Int) (addr : Int → Point) (i : Int)
    (s : Vars)
    (h : (s.img.Set (addr i).X (addr i).Y (emit radius s.Sum)).At
        (addr (ahead radius last i)).X (addr (ahead radius last i)).Y =
      orig.At (addr (ahead radius last i)).X (addr (ahead radius last i)).Y) :
    scanStepG radius last addr i s = scanStepFromG orig radius last addr i s := by
  simp only [scanStepG, scanStepFromG, readPixel_congr _ _ _ _ h]

/-- Whatever it reads, a scan step writes the same pixel and faults in the same
cases. -/
theorem scanStepFromG_written (orig : Image) (radius last : Int) (addr : Int → Point)
    (i : Int) (s : Vars) :
    Except.map written (scanStepG radius last addr i s) =
      Except.map written (scanStepFromG orig radius last addr i s) := by
  simp only [scanStepG, scanStepFromG]
  split
  · rfl
  · cases hi : s.stackIn with
    | none => simp [deref]
    | some k =>
      cases ho : s.stackOut with
      | none => simp [deref, setVal, Except.map]
      | some m => simp [deref, setVal, Except.map, written]

/-- The index read by a scan step other than the last one of its line is ahead
of the index it writes, for a radius `radius ≥ 0`. -/
theorem ahead_gt_int (radius : Int) (hr : 0 ≤ radius) (last k : Int) (h : k < last) :
    k < ahead radius last k := by
  simp only [ahead]
  split <;> omega

/-- In-place safety of one line: with a radius `radius ≥ 0`, the line scanned in
place writes what the line scanned with its reads served from the image at the
start of the line writes, and faults in the same cases. -/
theorem lineFromG_written (radius len : Int) (hr : 0 ≤ radius) (pre : Int → Int)
    (addr : Int → Point) (hinj : ∀ i j : Int, addr i = addr j → i = j) (s : Vars) :
    Except.map written (lineG radius len pre addr s) =
      Except.map written (lineFromG s.img radius len pre addr s) := by
  simp only [lineG, lineFromG]
  cases h1 : forLoop fillStep (radiusPlus1 radius).toNat 0
      (seedG radius (readPixel s.img (addr 0).X (addr 0).Y) s) with
  | error e => rfl
  | ok s1 =>
    simp only []
    have a1 : s1.img = s.img := forLoop_preserves fillStep (fun t => t.img = s.img)
      (fun i t t3 ht hq => (fillStep_img i t t3 ht).trans hq) _ _ _ _ h1 rfl
    obtain ⟨e2, q2⟩ := forLoop_congr_inv (preloadStepG radius pre addr)
      (preloadStepFromG s.img radius pre addr) (fun _ t => t.img = s.img) radius.toNat 1 s1 a1
      (by
        intro k t _ ht
        rw [← ht]
        rfl)
      (by
        intro k t t1 _ ht hb
        exact (preloadStepG_img _ _ _ _ _ _ hb).trans ht)
    rw [← e2]
    cases h2 : forLoop (preloadStepG radius pre addr) radius.toNat 1 s1 with
    | error e => rfl
    | ok s2 =>
      simp only []
      have a2 : s2.img = s.img := q2 s2 h2
      cases hn : len.toNat with
      | zero => rfl
      | succ m =>
        have hlast : len - 1 = (m : Int) := by omega
        rw [forLoop_last, forLoop_last, hlast]
        obtain ⟨e3, _⟩ := forLoop_congr_inv (scanStepG radius (m : Int) addr)
          (scanStepFromG s.img radius (m : Int) addr)
          (fun k t => ∀ j : Int, (k : Int) ≤ j →
            t.img.At (addr j).X (addr j).Y = s.img.At (addr j).X (addr j).Y) m 0
          { s2 with stackIn := s2.stackStart, stackOut := s2.stackEnd }
          (by
            intro j _
            show s2.img.At _ _ = _
            rw [a2])
          (by
            intro k t hk ht
            have hz : (0 : Int) + (k : Int) = (k : Int) := by omega
            rw [hz]
            apply scanStepFromG_eq
            have hgt := ahead_gt_int radius hr (m : Int) (k : Int) (by omega)
            rw [Image.At_Set]
            have hne : ¬ ((addr (ahead radius m k)).X = (addr k).X ∧
                (addr (ahead radius m k)).Y = (addr k).Y ∧
                Point.In ⟨(addr k).X, (addr k).Y⟩ t.img.Rect = true) := by
              rintro ⟨hx, hy, _⟩
              have : addr (ahead radius m k) = addr (k : Int) := by
                cases h1 : addr (ahead radius m k); cases h2 : addr (k : Int)
                simp only [h1, h2] at hx hy
                rw [hx, hy]
              have := hinj _ _ this
              omega
            rw [if_neg hne]
            exact ht _ (by omega))
          (by
            intro k t t1 hk ht hb j hj
            have hz : (0 : Int) + (k : Int) = (k : Int) := by omega
            rw [hz] at hb
            rw [scanStepG_img _ _ _ _ _ _ hb, Image.At_Set]
            have hne : ¬ ((addr j).X = (addr k).X ∧ (addr j).Y = (addr k).Y ∧
                Point.In ⟨(addr k).X, (addr k).Y⟩ t.img.Rect = true) := by
              rintro ⟨hx, hy, _⟩
              have : addr j = addr (k : Int) := by
                cases h1 : addr j; cases h2 : addr (k : Int)
                simp only [h1, h2] at hx hy
                rw [hx, hy]
              have := hinj _ _ this
              push_cast at hj
              omega
            rw [if_neg hne]
            exact ht j (by push_cast at hj; omega))
        rw [← e3]
        cases forLoop (scanStepG radius (m : Int) addr) m 0
            { s2 with stackIn := s2.stackStart, stackOut := s2.stackEnd } with
        | error e => rfl
        | ok t => exact scanStepFromG_written s.img radius m addr _ t

/-! ## Transposition -/

theorem In_transpose (img : Image) (x y : Int) :
    Point.In ⟨x, y⟩ (transpose img).Rect = Point.In ⟨y, x⟩ img.Rect := by
  simp only [Point.In, transpose]
  rw [Bool.eq_iff_iff]
  simp only [Bool.and_eq_true, decide_eq_true_eq]
  tauto

theorem transpose_At (img : Image) (x y : Int) : (transpose img).At x y = img.At y x := by
  simp only [Image.At, In_transpose]
  rfl

theorem transpose_Set (img : Image) (x y : Int) (c : NRGBA) :
    transpose (img.Set x y c) = (transpose img).Set y x c := by
  simp only [Image.Set, In_transpose]
  by_cases h : Point.In ⟨x, y⟩ img.Rect = true
  · simp only [h, if_true, transpose]
    congr 1
    funext x1 y1
    by_cases h1 : y1 = x ∧ x1 = y
    · rw [if_pos h1, if_pos ⟨h1.2, h1.1⟩]
    · rw [if_neg h1, if_neg (fun hc => h1 ⟨hc.2, hc.1⟩)]
  · simp only [h]
    rfl

theorem readPixel_transpose (img : Image) (x y : Int) :
    readPixel (transpose img) x y = readPixel img y x := by
  unfold readPixel
  rw [transpose_At]

theorem transpose_transpose (img : Image) : transpose (transpose img) = img := rfl

/-- A loop on images of states: when every iteration commutes with `f`, so does
the loop. -/
theorem forLoop_map {σ : Type} (f : σ → σ) (b1 b2 : Int → σ → Except Fault σ) (n : Nat)
    (start : Int) (s : σ)
    (h : ∀ k t, k < n → b2 (start + k) (f t) = Except.map f (b1 (start + k) t)) :
    forLoop b2 n start (f s) = Except.map f (forLoop b1 n start s) := by
  induction n generalizing start s with
  | zero => rfl
  | succ n ih =>
    have h0 := h 0 s (Nat.succ_pos n)
    simp only [Nat.cast_zero, add_zero] at h0
    simp only [forLoop, h0]
    cases hb : b1 start s with
    | error e => rfl
    | ok t =>
      simp only [Except.map]
      apply ih
      intro k u hk
      have := h (k + 1) u (by omega)
      have hz : start + ((k + 1 : Nat) : Int) = start + 1 + (k : Int) := by push_cast; ring
      rw [hz] at this
      exact this

theorem ringStep_swap (radius i : Int) (s : Vars) :
    ringStep radius i s.swap = Except.map Vars.swap (ringStep radius i s) := by
  simp only [ringStep, Vars.swap]
  cases hs : s.stack with
  | none => simp [setNext, Except.map]
  | some k => simp [setNext, deref, Except.map, Vars.swap]

theorem fillStep_swap (i : Int) (s : Vars) :
    fillStep i s.swap = Except.map Vars.swap (fillStep i s) := by
  simp only [fillStep, Vars.swap]
  cases hs : s.stack with
  | none => simp [setVal, Except.map]
  | some k => simp [setVal, deref, Except.map, Vars.swap]

theorem preloadStepG_swap (radius : Int) (pre pre1 : Int → Int) (k i : Int) (s : Vars)
    (h : pre i = pre1 i) :
    preloadStepG radius pre (fun j => ⟨j, k⟩) i s.swap =
      Except.map Vars.swap (preloadStepG radius pre1 (fun j => ⟨k, j⟩) i s) := by
  simp only [preloadStepG, Vars.swap, readPixel_transpose, h]
  cases hs : s.stack with
  | none => simp [setVal, Except.map]
  | some k => simp [setVal, deref, Except.map, Vars.swap]

theorem scanStepG_swap (radius last : Int) (k i : Int) (s : Vars) :
    scanStepG radius last (fun j => ⟨j, k⟩) i s.swap =
      Except.map Vars.swap (scanStepG radius last (fun j => ⟨k, j⟩) i s) := by
  simp only [scanStepG, Vars.swap, ← transpose_Set, readPixel_transpose]
  split
  · rfl
  · cases hi : s.stackIn with
    | none => simp [deref, Except.map]
    | some a =>
      cases ho : s.stackOut with
      | none => simp [deref, setVal, Except.map]
      | some b => simp [deref, setVal, Except.map, Event.swap, Vars.swap]

/-- One row of the transposed image is one column of the image, when the two
pre-loads read the same indices. -/
theorem lineG_swap (radius len : Int) (pre pre1 : Int → Int) (k : Int) (s : Vars)
    (h : ∀ i : Int, 1 ≤ i → i ≤ radius → pre i = pre1 i) :
    lineG radius len pre (fun j => ⟨j, k⟩) s.swap =
      Except.map Vars.swap (lineG radius len pre1 (fun j => ⟨k, j⟩) s) := by
  simp only [lineG]
  have hseed : seedG radius (readPixel s.swap.img 0 k) s.swap =
      (seedG radius (readPixel s.img k 0) s).swap := by
    show seedG radius (readPixel (transpose s.img) 0 k) s.swap = _
    rw [readPixel_transpose]
    rfl
  rw [hseed, forLoop_map Vars.swap fillStep fillStep _ _ _ (fun _ t _ => fillStep_swap _ t)]
  cases forLoop fillStep (radiusPlus1 radius).toNat 0 (seedG radius (readPixel s.img k 0) s) with
  | error e => rfl
  | ok s1 =>
    simp only [Except.map]
    rw [forLoop_map Vars.swap (preloadStepG radius pre1 (fun j => ⟨k, j⟩))
      (preloadStepG radius pre (fun j => ⟨j, k⟩)) _ _ _
      (fun j t hj => preloadStepG_swap radius pre pre1 k _ t (h _ (by omega) (by omega)))]
    cases forLoop (preloadStepG radius pre1 (fun j => ⟨k, j⟩)) radius.toNat 1 s1 with
    | error e => rfl
    | ok s2 =>
      simp only [Except.map]
      exact forLoop_map Vars.swap _ _ _ _
        { s2 with stackIn := s2.stackStart, stackOut := s2.stackEnd }
        (fun j t _ => scanStepG_swap radius (len - 1) k _ t)

theorem buildRing_swap (radius : Int) (img : Image) :
    buildRing radius (transpose img) = Except.map Vars.swap (buildRing radius img) := by
  have key : forLoop (ringStep radius) (div radius - 1).toNat 1
      { img := transpose img
        heap := (NewBlurStack { val := fun _ => 0, next := none }
          { cell := fun _ => { val := fun _ => 0, next := none }, size := 0 }).2
        stackStart := (NewBlurStack { val := fun _ => 0, next := none }
          { cell := fun _ => { val := fun _ => 0, next := none }, size := 0 }).1
        stackEnd := none, stackIn := none, stackOut := none
        stack := (NewBlurStack { val := fun _ => 0, next := none }
          { cell := fun _ => { val := fun _ => 0, next := none }, size := 0 }).1
        Sum := fun _ => 0, OutSum := fun _ => 0, InSum := fun _ => 0
        pq := fun _ => 0, trace := [] } =
      Except.map Vars.swap (forLoop (ringStep radius) (div radius - 1).toNat 1
        { img := img
          heap := (NewBlurStack { val := fun _ => 0, next := none }
            { cell := fun _ => { val := fun _ => 0, next := none }, size := 0 }).2
          stackStart := (NewBlurStack { val := fun _ => 0, next := none }
            { cell := fun _ => { val := fun _ => 0, next := none }, size := 0 }).1
          stackEnd := none, stackIn := none, stackOut := none
          stack := (NewBlurStack { val := fun _ => 0, next := none }
            { cell := fun _ => { val := fun _ => 0, next := none }, size := 0 }).1
          Sum := fun _ => 0, OutSum := fun _ => 0, InSum := fun _ => 0
          pq := fun _ => 0, trace := [] }) :=
    forLoop_map Vars.swap (ringStep radius) (ringStep radius) _ _
      { img := img
        heap := (NewBlurStack { val := fun _ => 0, next := none }
          { cell := fun _ => { val := fun _ => 0, next := none }, size := 0 }).2
        stackStart := (NewBlurStack { val := fun _ => 0, next := none }
          { cell := fun _ => { val := fun _ => 0, next := none }, size := 0 }).1
        stackEnd := none, stackIn := none, stackOut := none
        stack := (NewBlurStack { val := fun _ => 0, next := none }
          { cell := fun _ => { val := fun _ => 0, next := none }, size := 0 }).1
        Sum := fun _ => 0, OutSum := fun _ => 0, InSum := fun _ => 0
        pq := fun _ => 0, trace := [] }
      (fun _ t _ => ringStep_swap radius _ t)
  simp only [buildRing, key]
  cases forLoop (ringStep radius) (div radius - 1).toNat 1 _ with
  | error e => rfl
  | ok s1 =>
    simp only [Except.map]
    cases hs : s1.stack with
    | none => simp [setNext, Vars.swap, hs]
    | some k => simp [setNext, Vars.swap, hs]

/-- The horizontal pass on the transposed image is the vertical pass on the
image, transposed, whenever the radius is below the height of the image: faults
included. -/
theorem horizontalPass_transpose (img : Image) (radius : Int) (h : radius < img.Rect.Dy) :
    horizontalPass (transpose img) radius =
      Except.map transpose (verticalPass img radius) := by
  simp only [horizontalPass, verticalPass, buildRing_swap]
  cases buildRing radius img with
  | error e => rfl
  | ok s0 =>
    simp only [Except.map]
    have hrow : ∀ (k : Nat) (t : Vars), hRow radius (transpose img).Rect.Dx (0 + (k : Int)) t.swap =
        Except.map Vars.swap (vCol radius img.Rect.Dy (0 + (k : Int)) t) := by
      intro k t
      rw [hRow_eq_lineG, vCol_eq_lineG]
      have hd : (transpose img).Rect.Dx = img.Rect.Dy := rfl
      rw [hd]
      apply lineG_swap
      intro i h1 h2
      simp only [hPre]
      split <;> omega
    have hn : (transpose img).Rect.Dy.toNat = img.Rect.Dx.toNat := rfl
    rw [hn, forLoop_map Vars.swap (vCol radius img.Rect.Dy) _ _ _ _ (fun k t _ => hrow k t)]
    cases forLoop (vCol radius img.Rect.Dy) img.Rect.Dx.toNat 0 s0 with
    | error e => rfl
    | ok s1 => rfl

theorem map_transpose_transpose (res : Except Fault Image) :
    Except.map transpose (Except.map transpose res) = res := by
  cases res <;> rfl

/-- With a radius `r ≥ 1` and a non-zero `divsum`, the horizontal pass on its
own leaves the image `hOut`. -/
theorem horizontalPass_spec (img : Image) (r : Nat) (hr : 1 ≤ r) (hd : divsum (r : Int) ≠ 0)
    (hw : 0 ≤ img.Rect.Dx) : horizontalPass img r = .ok (hOut r img) := by
  obtain ⟨s0, e0, g0, i0, _⟩ := buildRing_spec r hr img
  have hW : img.Rect.Dx = ((img.Rect.Dx.toNat : Nat) : Int) := by omega
  obtain ⟨s1, e1, _, i1, _⟩ :=
    pass_spec r hr img.Rect.Dx.toNat img.Rect.Dy.toNat (hPre img.Rect.Dx) hAddr s0
      (fun _ _ => hd) g0
      (by
        intro k i j h
        simp only [hAddr, Point.mk.injEq] at h
        exact h.1)
  have hrow : hRow (r : Int) img.Rect.Dx =
      fun k => lineG r (img.Rect.Dx.toNat : Nat) (hPre img.Rect.Dx) (hAddr k) := by
    funext k
    rw [hRow_eq_lineG, ← hW]
    rfl
  simp only [horizontalPass, e0, hrow, e1, i1, i0, hOut]

/-- With a radius `r ≥ 1` and a non-zero `divsum`, the vertical pass on its own
leaves the image `vOut`. -/
theorem verticalPass_spec (img : Image) (r : Nat) (hr : 1 ≤ r) (hd : divsum (r : Int) ≠ 0)
    (hh : 0 ≤ img.Rect.Dy) : verticalPass img r = .ok (vOut r img) := by
  obtain ⟨s0, e0, g0, i0, _⟩ := buildRing_spec r hr img
  have hH : img.Rect.Dy = ((img.Rect.Dy.toNat : Nat) : Int) := by omega
  obtain ⟨s1, e1, _, i1, _⟩ :=
    pass_spec r hr img.Rect.Dy.toNat img.Rect.Dx.toNat (fun i => i) vAddr s0
      (fun _ _ => hd) g0
      (by
        intro k i j h
        simp only [vAddr, Point.mk.injEq] at h
        exact h.2)
  have hcol : vCol (r : Int) img.Rect.Dy =
      fun k => lineG r (img.Rect.Dy.toNat : Nat) (fun i => i) (vAddr k) := by
    funext k
    rw [vCol_eq_lineG, ← hH]
    rfl
  simp only [verticalPass, e0, hcol, e1, i1, i0, vOut]

/-- `Process` is the vertical pass of the horizontal pass of the copy, for a
radius `r ≥ 1` with a non-zero `divsum`. -/
theorem Process_eq_passes (src : Image) (r : Nat) (hr : 1 ≤ r) (hd : divsum (r : Int) ≠ 0)
    (hw : 0 ≤ src.Rect.Dx) (hh : 0 ≤ src.Rect.Dy) :
    horizontalPass (copyOf src) r = .ok (hOut r (copyOf src)) ∧
      Process src r = verticalPass (hOut r (copyOf src)) r := by
  refine ⟨horizontalPass_spec _ r hr hd hw, ?_⟩
  rw [Process_total src r hr hd hw hh, verticalPass_spec _ r hr hd]
  simp only [hOut, passOut_Rect, copyOf_Rect]
  exact hh

/-! ## Writes outside the bounds -/

theorem Image.Set_outside (img : Image) (x y : Int) (c : NRGBA)
    (h : Point.In ⟨x, y⟩ img.Rect = false) : img.Set x y c = img := by
  simp [Image.Set, h]

/-- A line none of whose pixels is inside the bounds leaves the image as it
is. -/
theorem lineOut_outside (r : Nat) (U : Nat → Quad) (addr : Int → Point) (img : Image) (k : Nat)
    (h : ∀ i : Nat, i < k → Point.In (addr i) img.Rect = false) :
    lineOut r U addr img k = img := by
  induction k with
  | zero => rfl
  | succ k ih =>
    simp only [lineOut]
    rw [ih (fun i hi => h i (Nat.lt_succ_of_lt hi))]
    exact Image.Set_outside _ _ _ _ (h k (Nat.lt_succ_self k))

/-- A pass none of whose pixels is inside the bounds leaves the image as it
is. -/
theorem passOut_outside (r len : Nat) (pre : Int → Int) (addr : Int → Int → Point)
    (img : Image) (k : Nat)
    (h : ∀ l i : Nat, l < k → i < len → Point.In (addr l i) img.Rect = false) :
    passOut r len pre addr img k = img := by
  induction k with
  | zero => rfl
  | succ k ih =>
    simp only [passOut]
    rw [ih (fun l i hl hi => h l i (Nat.lt_succ_of_lt hl) hi)]
    exact lineOut_outside _ _ _ _ _ (fun i hi => h k i (Nat.lt_succ_self k) hi)

/-- The positions `(x, y)` with `0 ≤ x < Dx` and `0 ≤ y < Dy`, which are those
the two passes write, are all outside bounds that lie beyond them on one
side. -/
theorem In_scanned_false (R : Rectangle) (x y : Nat)
    (hx : (x : Int) < R.Dx) (hy : (y : Int) < R.Dy)
    (hoff : R.Dx ≤ R.Min.X ∨ R.Dy ≤ R.Min.Y ∨ R.Max.X ≤ 0 ∨ R.Max.Y ≤ 0) :
    Point.In ⟨x, y⟩ R = false := by
  simp only [Point.In, Rectangle.Dx, Rectangle.Dy] at *
  rw [Bool.eq_false_iff]
  intro hc
  simp only [Bool.and_eq_true, decide_eq_true_eq] at hc
  omega

/-! ## Opaque images: the output is the reference -/

/-- On an opaque image with bounds at the origin whose height is above the
radius, the two passes write the naive reference in every channel. -/
theorem vOut_hOut_solid (src : Image) (r : Nat) (hr : r ≤ 4103)
    (hmin : src.Rect.Min = ⟨0, 0⟩) (hh : (r : Int) < src.Rect.Dy)
    (hop : ∀ x y, Point.In ⟨x, y⟩ src.Rect = true → (src.At x y).A = 255)
    (x y : Int) (hin : Point.In ⟨x, y⟩ src.Rect = true) (c : Channel) :
    ((vOut r (hOut r (copyOf src))).At x y).chan c = naive r src c x y := by
  obtain ⟨hx0, hx1, hy0, hy1⟩ := (In_origin src.Rect hmin x y).mp hin
  have hH : src.Rect.Dy = ((src.Rect.Dy.toNat : Nat) : Int) := by omega
  have hX : x = ((x.toNat : Nat) : Int) := by omega
  have hY : y = ((y.toNat : Nat) : Int) := by omega
  have hR : (hOut r (copyOf src)).Rect = src.Rect := by
    simp only [hOut, passOut_Rect, copyOf_Rect]
  have key := pass_solid r src.Rect.Dy.toNat src.Rect.Dx.toNat (fun i => i) vAddr
    (hOut r (copyOf src)) hr (by omega)
    (fun i h1 h2 => id_clamp r _ (by omega) i h1 h2) vAddr_inj x.toNat y.toNat
    (by omega) (by omega)
    (by rw [← hX, ← hY, hR]; exact hin)
    (by
      intro i1 h0 h1
      rw [← hX]
      show ((hOut r (copyOf src)).At x i1).A = 255
      have hin1 : Point.In ⟨x, i1⟩ src.Rect = true :=
        (In_origin src.Rect hmin x i1).mpr ⟨hx0, hx1, h0, by omega⟩
      apply Fin.ext
      have h2 := hOut_solid src r hr hmin hop x i1 hin1 .a
      rw [show ((hOut r (copyOf src)).At x i1).A.val =
        ((hOut r (copyOf src)).At x i1).chan .a from rfl, h2]
      simp only [naiveRows]
      have hx2 : x = ((x.toNat : Nat) : Int) := hX
      rw [hx2]
      exact T_const r _ (by omega) _ 255 _ (by
        intro i h3 h4
        have := hop i i1 ((In_origin src.Rect hmin i i1).mpr ⟨h3, by omega, h0, by omega⟩)
        show (src.At i i1).A.val = 255
        rw [this]
        rfl)) c
  rw [← hX, ← hY] at key
  have e : vAddr x y = ⟨x, y⟩ := rfl
  rw [e] at key
  have hv : vOut r (hOut r (copyOf src)) =
      passOut r src.Rect.Dy.toNat (fun i => i) vAddr (hOut r (copyOf src))
        src.Rect.Dx.toNat := by
    simp only [vOut, hR]
  rw [hv, key]
  simp only [naive]
  apply T_congr r _ (by omega)
  intro i h0 h1
  exact hOut_solid src r hr hmin hop x i
    ((In_origin src.Rect hmin x i).mpr ⟨hx0, hx1, h0, by omega⟩) c

/-! ## The reference keeps the range of the values -/

theorem T_le (r len : Nat) (hlen : 1 ≤ len) (v : Int → Nat) (hi : Nat) (x : Nat)
    (h : ∀ i : Int, 0 ≤ i → i < len → v i ≤ hi) : T r len v x ≤ hi := by
  rw [← wsum_clamped_eq_T r len v x]
  have hpos : 0 < (r + 1) * (r + 1) := Nat.mul_pos (by omega) (by omega)
  have h1 := wsum_le r (fun j => v (clamp ((j : Int) - r) 0 ((len : Int) - 1))) (fun _ => hi) x
    (fun j => h _ (clamp_range _ len hlen).1 (clamp_range _ len hlen).2)
  rw [wsum_const] at h1
  exact Nat.div_le_of_le_mul h1

theorem le_T (r len : Nat) (hlen : 1 ≤ len) (v : Int → Nat) (lo : Nat) (x : Nat)
    (h : ∀ i : Int, 0 ≤ i → i < len → lo ≤ v i) : lo ≤ T r len v x := by
  rw [← wsum_clamped_eq_T r len v x]
  have hpos : 0 < (r + 1) * (r + 1) := Nat.mul_pos (by omega) (by omega)
  have h1 := wsum_le r (fun _ => lo) (fun j => v (clamp ((j : Int) - r) 0 ((len : Int) - 1))) x
    (fun j => h _ (clamp_range _ len hlen).1 (clamp_range _ len hlen).2)
  rw [wsum_const] at h1
  rw [Nat.le_div_iff_mul_le hpos, Nat.mul_comm]
  exact h1

/-- The naive reference keeps every channel between two bounds of the channel
on the source. -/
theorem naive_range (src : Image) (r : Nat) (hmin : src.Rect.Min = ⟨0, 0⟩)
    (c : Channel) (lo hi : Nat)
    (hb : ∀ x y, Point.In ⟨x, y⟩ src.Rect = true →
      lo ≤ (src.At x y).chan c ∧ (src.At x y).chan c ≤ hi)
    (x y : Int) (hin : Point.In ⟨x, y⟩ src.Rect = true) :
    lo ≤ naive r src c x y ∧ naive r src c x y ≤ hi := by
  obtain ⟨hx0, hx1, hy0, hy1⟩ := (In_origin src.Rect hmin x y).mp hin
  have hX : x = ((x.toNat : Nat) : Int) := by omega
  have hY : y = ((y.toNat : Nat) : Int) := by omega
  have hrow : ∀ j : Int, 0 ≤ j → j < (src.Rect.Dy.toNat : Nat) →
      lo ≤ naiveRows r src c x j ∧ naiveRows r src c x j ≤ hi := by
    intro j h0 h1
    simp only [naiveRows]
    rw [hX]
    exact ⟨le_T r _ (by omega) _ lo _ (fun i h2 h3 =>
        (hb i j ((In_origin src.Rect hmin i j).mpr ⟨h2, by omega, h0, by omega⟩)).1),
      T_le r _ (by omega) _ hi _ (fun i h2 h3 =>
        (hb i j ((In_origin src.Rect hmin i j).mpr ⟨h2, by omega, h0, by omega⟩)).2)⟩
  simp only [naive]
  rw [hY]
  exact ⟨le_T r _ (by omega) _ lo _ (fun j h0 h1 => (hrow j h0 h1).1),
    T_le r _ (by omega) _ hi _ (fun j h0 h1 => (hrow j h0 h1).2)⟩

/-! ## The reference commutes with the mirror -/

theorem sumTo_reverse (f : Nat → Nat) (n : Nat) :
    sumTo f n = sumTo (fun j => f (n - 1 - j)) n := by
  induction n with
  | zero => rfl
  | succ n ih =>
    rw [sumTo_shift (fun j => f (n + 1 - 1 - j)) n]
    simp only [sumTo, Nat.add_sub_cancel, Nat.sub_zero]
    rw [ih, Nat.add_comm]
    congr 1
    apply sumTo_congr
    intro j hj
    congr 1
    omega

theorem weight_symm (r : Nat) (k : Int) : weight r (-k) = weight r k := by
  simp only [weight, abs_neg]

theorem clamp_mirror (i : Int) (len : Nat) (hlen : 1 ≤ len) :
    clamp ((len : Int) - 1 - i) 0 ((len : Int) - 1) =
      (len : Int) - 1 - clamp i 0 ((len : Int) - 1) := by
  unfold clamp
  split_ifs <;> omega

/-- The reference of a mirrored line is the mirrored reference of the line. -/
theorem T_mirror (r len : Nat) (hlen : 1 ≤ len) (v : Int → Nat) (x : Int) :
    T r len (fun i => v ((len : Int) - 1 - i)) x = T r len v ((len : Int) - 1 - x) := by
  simp only [T]
  congr 1
  rw [sumTo_reverse _ (2 * r + 1)]
  apply sumTo_congr
  intro j hj
  have hc : (((2 * r + 1 - 1 - j : Nat) : Int) - r) = -((j : Int) - r) := by omega
  show weight r (((2 * r + 1 - 1 - j : Nat) : Int) - r) *
      v ((len : Int) - 1 - clamp (x + (((2 * r + 1 - 1 - j : Nat) : Int) - r)) 0 ((len : Int) - 1)) =
    weight r ((j : Int) - r) * v (clamp ((len : Int) - 1 - x + ((j : Int) - r)) 0 ((len : Int) - 1))
  rw [hc, weight_symm, ← clamp_mirror _ len hlen]
  congr 3
  omega

theorem mirror_At (img : Image) (x y : Int) :
    (mirror img).At x y = img.At (img.Rect.Min.X + img.Rect.Max.X - 1 - x) y := by
  have h : Point.In ⟨x, y⟩ img.Rect =
      Point.In ⟨img.Rect.Min.X + img.Rect.Max.X - 1 - x, y⟩ img.Rect := by
    simp only [Point.In]
    rw [Bool.eq_iff_iff]
    simp only [Bool.and_eq_true, decide_eq_true_eq]
    constructor <;> rintro ⟨⟨⟨a, b⟩, c⟩, d⟩ <;> exact ⟨⟨⟨by omega, by omega⟩, c⟩, d⟩
  simp only [Image.At, mirror, h]

theorem mirror_At_origin (img : Image) (hmin : img.Rect.Min = ⟨0, 0⟩) (x y : Int) :
    (mirror img).At x y = img.At (img.Rect.Dx - 1 - x) y := by
  rw [mirror_At]
  have hx : img.Rect.Min.X = 0 := by rw [hmin]
  simp only [Rectangle.Dx, hx]
  congr 1
  omega

theorem naiveRows_mirror (src : Image) (r : Nat) (hmin : src.Rect.Min = ⟨0, 0⟩)
    (hw : 1 ≤ src.Rect.Dx) (c : Channel) (x y : Int) :
    naiveRows r (mirror src) c x y = naiveRows r src c (src.Rect.Dx - 1 - x) y := by
  have hW : src.Rect.Dx = ((src.Rect.Dx.toNat : Nat) : Int) := by omega
  simp only [naiveRows]
  have e : (mirror src).Rect = src.Rect := rfl
  rw [e]
  have h1 : (fun i => ((mirror src).At i y).chan c) =
      fun i => (fun i1 => (src.At i1 y).chan c) (((src.Rect.Dx.toNat : Nat) : Int) - 1 - i) := by
    funext i
    rw [mirror_At_origin src hmin, ← hW]
  rw [h1, T_mirror r src.Rect.Dx.toNat (by omega) (fun i1 => (src.At i1 y).chan c) x, ← hW]

theorem naive_mirror (src : Image) (r : Nat) (hmin : src.Rect.Min = ⟨0, 0⟩)
    (hw : 1 ≤ src.Rect.Dx) (c : Channel) (x y : Int) :
    naive r (mirror src) c x y = naive r src c (src.Rect.Dx - 1 - x) y := by
  simp only [naive]
  have e : (mirror src).Rect = src.Rect := rfl
  rw [e]
  congr 1
  funext j
  exact naiveRows_mirror src r hmin hw c x j

theorem NRGBA.ext_chan (p q : NRGBA) (h : ∀ c, p.chan c = q.chan c) : p = q := by
  cases p
  cases q
  have h1 := h .r
  have h2 := h .g
  have h3 := h .b
  have h4 := h .a
  simp only [NRGBA.chan] at h1 h2 h3 h4
  simp only [NRGBA.mk.injEq]
  exact ⟨Fin.ext h1, Fin.ext h2, Fin.ext h3, Fin.ext h4⟩

/-! ## The reference spreads an impulse -/

theorem sumTo_ge_term (f : Nat → Nat) (n j : Nat) (hj : j < n) : f j ≤ sumTo f n := by
  induction n with
  | zero => omega
  | succ n ih =>
    simp only [sumTo]
    by_cases h : j = n
    · subst h
      omega
    · have := ih (by omega)
      omega

theorem weight_pos (r : Nat) (k : Int) (h : |k| ≤ r) : 1 ≤ weight r k := by
  simp only [weight]
  omega

/-- The reference at `x` is at least the share of any one value of the line
that lies within the radius of `x`. -/
theorem T_ge_term (r len : Nat) (v : Int → Nat) (x i0 : Int)
    (h0 : 0 ≤ i0) (h1 : i0 < len) (hd : |i0 - x| ≤ r) :
    weight r (i0 - x) * v i0 / (r + 1) ^ 2 ≤ T r len v x := by
  simp only [T]
  apply Nat.div_le_div_right
  have hj : (i0 - x + r).toNat < 2 * r + 1 := by
    have := abs_le.mp hd
    omega
  have hterm := sumTo_ge_term (fun j =>
      weight r ((j : Int) - r) * v (clamp (x + ((j : Int) - r)) 0 ((len : Int) - 1)))
    (2 * r + 1) (i0 - x + r).toNat hj
  have hc : (((i0 - x + r).toNat : Nat) : Int) - r = i0 - x := by
    have := abs_le.mp hd
    omega
  simp only [hc] at hterm
  have hx : x + (i0 - x) = i0 := by omega
  rw [hx, clamp_of_mem i0 _ h0 (by omega)] at hterm
  exact hterm

/-- The alpha channel of the reference of an image that is opaque white at
`(x0, y0)`: within the radius of that pixel, in `x` and in `y`, it is at least
`(255 / (r+1)^2) / (r+1)^2`. -/
theorem naive_alpha_ge (src : Image) (r : Nat) (x0 y0 : Int)
    (hmin : src.Rect.Min = ⟨0, 0⟩) (hin0 : Point.In ⟨x0, y0⟩ src.Rect = true)
    (hw : src.At x0 y0 = white) (x y : Int) (hx : |x - x0| ≤ r) (hy : |y - y0| ≤ r) :
    255 / (r + 1) ^ 2 / (r + 1) ^ 2 ≤ naive r src .a x y := by
  obtain ⟨hx0, hx1, hy0, hy1⟩ := (In_origin src.Rect hmin x0 y0).mp hin0
  have hrow : 255 / (r + 1) ^ 2 ≤ naiveRows r src .a x y0 := by
    have h := T_ge_term r src.Rect.Dx.toNat (fun i => (src.At i y0).chan .a) x x0 hx0
      (by omega) (by rw [abs_sub_comm]; exact hx)
    simp only [hw] at h
    have hw1 := weight_pos r (x0 - x) (by rw [abs_sub_comm]; exact hx)
    refine le_trans (Nat.div_le_div_right ?_) h
    show 255 ≤ weight r (x0 - x) * 255
    nlinarith
  have h := T_ge_term r src.Rect.Dy.toNat (fun j => naiveRows r src .a x j) y y0 hy0
    (by omega) (by rw [abs_sub_comm]; exact hy)
  have hw2 := weight_pos r (y0 - y) (by rw [abs_sub_comm]; exact hy)
  simp only [naive]
  refine le_trans (Nat.div_le_div_right ?_) h
  calc 255 / (r + 1) ^ 2 ≤ naiveRows r src .a x y0 := hrow
    _ = 1 * naiveRows r src .a x y0 := by rw [Nat.one_mul]
    _ ≤ weight r (y0 - y) * naiveRows r src .a x y0 := Nat.mul_le_mul_right _ hw2

theorem spread_pos (r : Nat) (h1 : r ≤ 2) : 1 ≤ 255 / (r + 1) ^ 2 / (r + 1) ^ 2 := by
  interval_cases r <;> decide

theorem selfWeight2_le (r n x0 : Nat) (hn : 2 ≤ n) :
    selfWeight2 r n x0 ≤ (r + 1) * (r + 2) := by
  unfold selfWeight2
  split_ifs
  · omega
  · nlinarith
  · nlinarith
  · nlinarith

/-- The reference at the impulse of a line of at least two pixels is below 255
for every radius `r ≥ 1`. -/
theorem T_impulse_lt (r n x0 a : Nat) (hr : 1 ≤ r) (hn : 2 ≤ n) (hx : x0 < n) (ha : a ≤ 255) :
    T r n (fun i => if i = (x0 : Int) then a else 0) x0 < 255 := by
  rw [T_impulse r n x0 a hx]
  rw [Nat.div_lt_iff_lt_mul (by positivity)]
  have h1 := selfWeight2_le r n x0 hn
  have h2 : selfWeight2 r n x0 * a ≤ (r + 1) * (r + 2) * 255 := Nat.mul_le_mul h1 ha
  nlinarith

/-- From radius 1 to radius 2: when the pixels that are not `{0, 0, 0, 0}` are,
under each of the two radii, the pixels of the image within the radius of the
impulse, the set under radius 1 is contained in the set under radius 2, and
strictly so unless it is the whole image. -/
theorem footprint_widens (R : Rectangle) (hmin : R.Min = ⟨0, 0⟩) (out out1 : Image)
    (a b : Int) (hin0 : Point.In ⟨a, b⟩ R = true)
    (hR : out.Rect = R)
    (hfar : ∀ x y, ((1 : Int) < |x - a| ∨ (1 : Int) < |y - b|) → out.At x y = clear)
    (hnear : ∀ x y, Point.In ⟨x, y⟩ R = true → |x - a| ≤ (1 : Int) → |y - b| ≤ (1 : Int) →
      out.At x y ≠ clear)
    (hnear1 : ∀ x y, Point.In ⟨x, y⟩ R = true → |x - a| ≤ (2 : Int) → |y - b| ≤ (2 : Int) →
      out1.At x y ≠ clear) :
    (∀ x y, out.At x y ≠ clear → out1.At x y ≠ clear) ∧
      ((∃ x y, Point.In ⟨x, y⟩ R = true ∧ out.At x y = clear) →
        ∃ x y, Point.In ⟨x, y⟩ R = true ∧ out.At x y = clear ∧ out1.At x y ≠ clear) := by
  obtain ⟨ha0, ha1, hb0, hb1⟩ := (In_origin R hmin a b).mp hin0
  constructor
  · intro x y hne
    by_cases hin : Point.In ⟨x, y⟩ R = true
    · have hx : |x - a| ≤ (1 : Int) := by
        by_contra h
        exact hne (hfar x y (Or.inl (by omega)))
      have hy : |y - b| ≤ (1 : Int) := by
        by_contra h
        exact hne (hfar x y (Or.inr (by omega)))
      exact hnear1 x y hin (by omega) (by omega)
    · exact absurd (At_outside out x y (by rw [hR]; simpa using hin)) hne
  · rintro ⟨x, y, hin, hc⟩
    obtain ⟨hx0, hx1, hy0, hy1⟩ := (In_origin R hmin x y).mp hin
    by_cases h1 : |x - a| ≤ (1 : Int)
    · have h2 : ¬ |y - b| ≤ (1 : Int) := fun h => hnear x y hin h1 h hc
      rcases abs_cases (y - b) with ⟨e, _⟩ | ⟨e, _⟩
      · refine ⟨a, b + 2, (In_origin R hmin _ _).mpr ⟨ha0, ha1, by omega, by omega⟩,
          hfar _ _ (Or.inr ?_), hnear1 _ _
            ((In_origin R hmin _ _).mpr ⟨ha0, ha1, by omega, by omega⟩) ?_ ?_⟩
        · rw [show b + 2 - b = (2 : Int) by omega]; decide
        · rw [sub_self]; decide
        · rw [show b + 2 - b = (2 : Int) by omega]; decide
      · refine ⟨a, b - 2, (In_origin R hmin _ _).mpr ⟨ha0, ha1, by omega, by omega⟩,
          hfar _ _ (Or.inr ?_), hnear1 _ _
            ((In_origin R hmin _ _).mpr ⟨ha0, ha1, by omega, by omega⟩) ?_ ?_⟩
        · rw [show b - 2 - b = (-2 : Int) by omega]; decide
        · rw [sub_self]; decide
        · rw [show b - 2 - b = (-2 : Int) by omega]; decide
    · rcases abs_cases (x - a) with ⟨e, _⟩ | ⟨e, _⟩
      · refine ⟨a + 2, b, (In_origin R hmin _ _).mpr ⟨by omega, by omega, hb0, hb1⟩,
          hfar _ _ (Or.inl ?_), hnear1 _ _
            ((In_origin R hmin _ _).mpr ⟨by omega, by omega, hb0, hb1⟩) ?_ ?_⟩
        · rw [show a + 2 - a = (2 : Int) by omega]; decide
        · rw [show a + 2 - a = (2 : Int) by omega]; decide
        · rw [sub_self]; decide
      · refine ⟨a - 2, b, (In_origin R hmin _ _).mpr ⟨by omega, by omega, hb0, hb1⟩,
          hfar _ _ (Or.inl ?_), hnear1 _ _
            ((In_origin R hmin _ _).mpr ⟨by omega, by omega, hb0, hb1⟩) ?_ ?_⟩
        · rw [show a - 2 - a = (-2 : Int) by omega]; decide
        · rw [show a - 2 - a = (-2 : Int) by omega]; decide
        · rw [sub_self]; decide

/-! ## The claims -/

set_option maxRecDepth 1000000 in
/-- C1 (refinement of the naive reference): `Process` returns the image of the
naive reference (rows replaced by `T`, then columns replaced by `T`, channel by
channel) for every fully opaque image with bounds at the origin, width at least
1, height above the radius and a radius from 1 to 4103; it does not for an
image with other bounds.  The 2x2 opaque image with the rows `[white, black]`
and bounds `(2,0)-(4,2)` is returned unchanged with radius 1, white at `(2, 0)`
and black at `(3, 0)`, where the reference of these rows has 191 and 63 in the
red channel. -/
theorem Process_refines_naive (src : Image) (radius : Int) :
    (src.Rect.Min = ⟨0, 0⟩ → 1 ≤ src.Rect.Dx → radius < src.Rect.Dy →
      1 ≤ radius → radius ≤ 4103 →
      (∀ x y, Point.In ⟨x, y⟩ src.Rect = true → (src.At x y).A = 255) →
      ∃ out, Process src radius = .ok out ∧ out.Rect = src.Rect ∧
        ∀ x y, Point.In ⟨x, y⟩ src.Rect = true →
          ∀ c, (out.At x y).chan c = naive radius.toNat src c x y) ∧
    (pixelAt (Process (edge2x2 ⟨2, 0⟩) 1) 2 0 = some white ∧
      pixelAt (Process (edge2x2 ⟨2, 0⟩) 1) 3 0 = some black ∧
      naive 1 (edge2x2 ⟨0, 0⟩) .r 0 0 = 191 ∧
      naive 1 (edge2x2 ⟨0, 0⟩) .r 1 0 = 63) := by
  refine ⟨fun hmin hw hh hr1 hr2 hop => ?_, by decide, by decide, by decide, by decide⟩
  obtain ⟨r, rfl⟩ : ∃ r : Nat, radius = r := ⟨radius.toNat, by omega⟩
  have hr : r ≤ 4103 := by omega
  have htot := Process_total src r (by omega) (divsum_ne_zero r hr) (by omega) (by omega)
  refine ⟨_, htot, Process_Rect src r _ htot, ?_⟩
  intro x y hin c
  rw [Int.toNat_ofNat]
  exact vOut_hOut_solid src r hr hmin (by omega) hop x y hin c

theorem Process_refines_naive_witness :
    ∃ out, Process solid2x2 1 = .ok out ∧ out.Rect = solid2x2.Rect ∧
      ∀ x y, Point.In ⟨x, y⟩ solid2x2.Rect = true →
        ∀ c, (out.At x y).chan c = naive (1 : Int).toNat solid2x2 c x y :=
  (Process_refines_naive solid2x2 1).1 rfl (by decide) (by decide) (by decide) (by decide)
    (by
      intro x y h
      have h2 : Point.In ⟨x, y⟩ ⟨⟨0, 0⟩, ⟨2, 2⟩⟩ = true := h
      simp only [Image.At, solid2x2, h2, if_true]
      split_ifs <;> rfl)

/-- C2 (identity at radius 0): the code does not return the input at radius 0.
On every image with at least one pixel, `Process` with radius 0 stops with a
nil dereference: the allocation loop does not run, `stackEnd` stays `nil`, and
the first scan step reads through `stackOut = stackEnd`. -/
theorem Process_radius_zero_nil (src : Image) (hw : 1 ≤ src.Rect.Dx)
    (hh : 1 ≤ src.Rect.Dy) : Process src 0 = .error .nilDereference := by
  rw [Process_nonpos_fault src 0 (le_refl _) hw hh]
  simp [divsum_zero]

theorem Process_radius_zero_nil_witness :
    1 ≤ red3x3.Rect.Dx ∧ 1 ≤ red3x3.Rect.Dy ∧ Process red3x3 0 = .error .nilDereference :=
  ⟨by decide, by decide, Process_radius_zero_nil red3x3 (by decide) (by decide)⟩

set_option maxRecDepth 1000000 in
/-- C3 (flat-field invariance): the 3x3 all-red opaque image is returned
unchanged at radius 1, but at radius 3 its pixel at `(0, 0)` becomes
`{239, 0, 0, 239}`: the pre-load of the vertical pass reads rows 1 to 3, and
row 3 is outside the image and reads as zero. -/
theorem flat_field_not_fixed_radius_3 :
    (∀ x, x < 3 → ∀ y, y < 3 → pixelAt (Process red3x3 1) (x : Nat) (y : Nat) = some red) ∧
      pixelAt (Process red3x3 3) 0 0 = some ⟨239, 0, 0, 239⟩ := by
  decide

/-- C4 (boundary replication): on the 1x1 opaque red image with radius 1 the
horizontal pass leaves the pixel unchanged, but the vertical pass does not, and
`Process` returns `{191, 0, 0, 191}`. -/
theorem one_pixel_not_fixed_radius_1 :
    (hOut 1 (copyOf red1x1)).At 0 0 = red ∧
      (vOut 1 (hOut 1 (copyOf red1x1))).At 0 0 = ⟨191, 0, 0, 191⟩ ∧
      pixelAt (Process red1x1 1) 0 0 = some ⟨191, 0, 0, 191⟩ := by
  decide

/-- C5 (straight-alpha channel independence): two 1x2 images with the same red
channel at both pixels, one with alpha 255 and one with alpha 128, have outputs
with different red channels at radius 1; the value read for the red channel of
`{255, 0, 0, 128}` is 128, not 255. -/
theorem red_output_depends_on_alpha :
    red1x2.Rect = halfRed1x2.Rect ∧
      (red1x2.At 0 0).R = (halfRed1x2.At 0 0).R ∧
      (red1x2.At 0 1).R = (halfRed1x2.At 0 1).R ∧
      pixelAt (Process red1x2 1) 0 0 = some ⟨255, 0, 0, 255⟩ ∧
      pixelAt (Process halfRed1x2 1) 0 0 = some ⟨128, 0, 0, 128⟩ ∧
      readPixel halfRed1x2 0 0 .r = 128 := by
  decide

/-- C6 (dimension preservation): for every source and every radius, an image
returned by `Process` has the bounds of the source; and `Process` does return
such an image for every source with non-negative dimensions when the radius is
at least 1 (and below `2^62`, the range of `int` without wrap-around) and its
`divsum` is not zero, and also, whatever the radius, when the source has zero
width or zero height. -/
theorem Process_preserves_bounds (src : Image) (radius : Int) :
    (∀ out, Process src radius = .ok out → out.Rect = src.Rect) ∧
      (0 ≤ src.Rect.Dx → 0 ≤ src.Rect.Dy →
        ((1 ≤ radius ∧ radius < 4611686018427387904 ∧ divsum radius ≠ 0) ∨
          src.Rect.Dx = 0 ∨ src.Rect.Dy = 0) →
        ∃ out, Process src radius = .ok out ∧ out.Rect = src.Rect) := by
  refine ⟨fun out h => Process_Rect src radius out h, ?_⟩
  intro hw hh hc
  rcases hc with ⟨hr, _, hd⟩ | he
  · obtain ⟨r, rfl⟩ : ∃ r : Nat, radius = r := ⟨radius.toNat, by omega⟩
    have h := Process_total src r (by omega) hd hw hh
    exact ⟨_, h, Process_Rect src r _ h⟩
  · have h := Process_empty src radius hw hh he
    exact ⟨_, h, Process_Rect src radius _ h⟩

set_option maxRecDepth 1000000 in
theorem Process_preserves_bounds_witness :
    (∃ out, Process red3x3 1 = .ok out ∧ out.Rect = red3x3.Rect) ∧
      (∃ out, Process noPixels 0 = .ok out ∧ out.Rect = noPixels.Rect) :=
  ⟨(Process_preserves_bounds red3x3 1).2 (by decide) (by decide)
      (Or.inl ⟨by decide, by decide, by decide⟩),
    (Process_preserves_bounds noPixels 0).2 (by decide) (by decide)
      (Or.inr (Or.inl (by decide)))⟩

/-- C7 (no error conditions for a valid radius): on every image with at least
one pixel, `Process` stops with a nil dereference when the radius is 0 and
with a division by zero when the radius is 65535, where `divsum` wraps to 0. -/
theorem valid_radius_faults (src : Image) (hw : 1 ≤ src.Rect.Dx) (hh : 1 ≤ src.Rect.Dy) :
    Process src 0 = .error .nilDereference ∧ Process src 65535 = .error .divideByZero := by
  refine ⟨?_, Process_divsum_zero src 65535 (by decide) divsum_65535 hw hh⟩
  rw [Process_nonpos_fault src 0 (le_refl _) hw hh]
  simp [divsum_zero]

theorem valid_radius_faults_witness :
    Process red1x1 0 = .error .nilDereference ∧ Process red1x1 65535 = .error .divideByZero :=
  valid_radius_faults red1x1 (by decide) (by decide)

/-- C8 (invalid preconditions are rejected), counterexample: on the image with
no pixels and the radius -1, `Process` returns an image. -/
theorem no_rejection_counterexample :
    Process noPixels (-1) = .ok (copyOf noPixels) := by
  rfl

/-- C8 (invalid preconditions are rejected), as amended: `Process` validates
nothing.  For every radius in the range of `int` without wrap-around
(`-2^62 ≤ radius < 2^62`): on an image of zero width or zero height it returns
the copy of the source; with a negative radius and an image with at least one
pixel it returns no image: the run stops in the first scan step, on the
division when `divsum` is zero and on a nil dereference otherwise. -/
theorem Process_without_validation (src : Image) (radius : Int) :
    (-4611686018427387904 ≤ radius → radius < 4611686018427387904 →
        0 ≤ src.Rect.Dx → 0 ≤ src.Rect.Dy → (src.Rect.Dx = 0 ∨ src.Rect.Dy = 0) →
        Process src radius = .ok (copyOf src)) ∧
      (radius < 0 → -4611686018427387904 ≤ radius → 1 ≤ src.Rect.Dx → 1 ≤ src.Rect.Dy →
        Process src radius =
          .error (if divsum radius = 0 then Fault.divideByZero else Fault.nilDereference)) :=
  ⟨fun _ _ hw hh he => Process_empty src radius hw hh he,
    fun hr _ hw hh => Process_nonpos_fault src radius (by omega) hw hh⟩

theorem Process_without_validation_witness :
    Process noPixels 5 = .ok (copyOf noPixels) ∧
      Process red1x1 (-1) = .error .divideByZero ∧
      Process red1x1 (-2) = .error .nilDereference :=
  ⟨(Process_without_validation noPixels 5).1 (by decide) (by decide) (by decide) (by decide)
      (by decide),
    (Process_without_validation red1x1 (-1)).2 (by decide) (by decide) (by decide)
      (by decide),
    (Process_without_validation red1x1 (-2)).2 (by decide) (by decide) (by decide)
      (by decide)⟩

/-- C9 (impulse scenario): on the 5x1 impulse image with radius 1 `Process`
returns an image whose pixels at `x = 0` and `x = 2` have every channel
non-zero and below 255, and whose pixel at `x = 4` is `{0, 0, 0, 0}`. -/
theorem impulse_scenario :
    ∃ out, Process impulse5x1 1 = .ok out ∧
      (∀ c, 0 < (out.At 0 0).chan c ∧ (out.At 0 0).chan c < 255) ∧
      (∀ c, 0 < (out.At 2 0).chan c ∧ (out.At 2 0).chan c < 255) ∧
      out.At 4 0 = ⟨0, 0, 0, 0⟩ := by
  refine ⟨_, Process_total impulse5x1 1 (le_refl _) (by decide) (by decide) (by decide), ?_, ?_, ?_⟩
  · have h : (vOut 1 (hOut 1 (copyOf impulse5x1))).At 0 0 = ⟨120, 120, 120, 47⟩ := by decide
    intro c
    rw [h]
    cases c <;> decide
  · have h : (vOut 1 (hOut 1 (copyOf impulse5x1))).At 2 0 = ⟨120, 120, 120, 47⟩ := by decide
    intro c
    rw [h]
    cases c <;> decide
  · decide

set_option maxRecDepth 1000000 in
/-- C10 (monotonic smoothing), counterexamples.  (a) On the 1x15 impulse image
with the impulse at `(0, 0)` the output at the impulse is `{136, 136, 136, 136}`
under radius 13 and under radius 14: the peak is not strictly lower under the
larger radius.  (b) On the 1x16 impulse image with the impulse at `(0, 0)` the
pixels that are `{0, 0, 0, 0}` under radius 14 are those that are so under
radius 15, and the last pixel is one of them: the set of non-zero pixels under
radius 14 is not the whole image and not a strict subset of the set under
radius 15.  (c) On the 2x3 impulse image with the impulse at `(0, 0)` the colour
channels at the impulse rise from 119 under radius 1 to 132 under radius 2.
(d) On the 1x3 impulse image with its corner at `(5, 0)` the output is the input
under radius 1 and under radius 2.  (e) Under radius 0 and under radius 65535
there is no output. -/
theorem peak_not_lowered_counterexample :
    (pixelAt (Process (impulseAt 1 15 0 0) 13) 0 0 = some ⟨136, 136, 136, 136⟩ ∧
      pixelAt (Process (impulseAt 1 15 0 0) 14) 0 0 = some ⟨136, 136, 136, 136⟩) ∧
    ((∀ y, y < 16 →
        (pixelAt (Process (impulseAt 1 16 0 0) 14) 0 (y : Nat) = some clear ↔
          pixelAt (Process (impulseAt 1 16 0 0) 15) 0 (y : Nat) = some clear)) ∧
      pixelAt (Process (impulseAt 1 16 0 0) 14) 0 15 = some clear) ∧
    (pixelAt (Process (impulseAt 2 3 0 0) 1) 0 0 = some ⟨119, 119, 119, 143⟩ ∧
      pixelAt (Process (impulseAt 2 3 0 0) 2) 0 0 = some ⟨132, 132, 132, 113⟩) ∧
    (pixelAt (Process impulseAway 1) 5 0 = some white ∧
      pixelAt (Process impulseAway 2) 5 0 = some white ∧
      pixelAt (Process impulseAway 1) 5 1 = some clear ∧
      pixelAt (Process impulseAway 2) 5 1 = some clear) ∧
    (pixelAt (Process (impulseAt 1 15 0 0) 0) 0 0 = none ∧
      pixelAt (Process (impulseAt 1 15 0 0) 65535) 0 0 = none) := by
  refine ⟨by decide, by decide, by decide, by decide, by decide, ?_⟩
  have h : Process (impulseAt 1 15 0 0) 65535 = .error .divideByZero :=
    Process_divsum_zero (impulseAt 1 15 0 0) 65535 (by decide) divsum_65535 (by decide)
      (by decide)
  rw [h]
  rfl

/-- C10 (monotonic smoothing), as amended: for every impulse image with bounds
at the origin and all radii `1 ≤ r < r1 ≤ 4103` with `r1` below the height,
`Process` returns under both radii.  (i) The alpha value at the impulse is
below 255 under `r`, and under `r1` it is not higher than under `r`.  (ii)
Under each radius every pixel further from the impulse than the radius, in `x`
or in `y`, is `{0, 0, 0, 0}`; and under a radius of at most 2 every pixel of the
image within the radius of the impulse, in `x` and in `y`, is not
`{0, 0, 0, 0}`, so that the non-zero pixels are exactly the pixels of the image
in the `(2r+1) x (2r+1)` window around the impulse.  (iii) When `r1` is at most
2 (from radius 1 to radius 2) the set of non-zero pixels under `r` is contained
in the set under `r1`, and strictly so unless the set under `r` is the whole
image. -/
theorem impulse_smoothing (src : Image) (x0 y0 : Int) (r r1 : Int)
    (hmin : src.Rect.Min = ⟨0, 0⟩) (hin0 : Point.In ⟨x0, y0⟩ src.Rect = true)
    (hw : src.At x0 y0 = white)
    (hz : ∀ x y, ¬ (x = x0 ∧ y = y0) → src.At x y = clear)
    (h1 : 1 ≤ r) (h2 : r < r1) (h3 : r1 ≤ 4103) (h4 : r1 < src.Rect.Dy) :
    ∃ out out1, Process src r = .ok out ∧ Process src r1 = .ok out1 ∧
      (out.At x0 y0).A < 255 ∧
      (out1.At x0 y0).A ≤ (out.At x0 y0).A ∧
      (∀ x y, (r < |x - x0| ∨ r < |y - y0|) → out.At x y = clear) ∧
      (∀ x y, (r1 < |x - x0| ∨ r1 < |y - y0|) → out1.At x y = clear) ∧
      (r ≤ 2 → ∀ x y, Point.In ⟨x, y⟩ src.Rect = true → |x - x0| ≤ r → |y - y0| ≤ r →
        out.At x y ≠ clear) ∧
      (r1 ≤ 2 → ∀ x y, Point.In ⟨x, y⟩ src.Rect = true → |x - x0| ≤ r1 → |y - y0| ≤ r1 →
        out1.At x y ≠ clear) ∧
      (r1 ≤ 2 →
        (∀ x y, out.At x y ≠ clear → out1.At x y ≠ clear) ∧
        ((∃ x y, Point.In ⟨x, y⟩ src.Rect = true ∧ out.At x y = clear) →
          ∃ x y, Point.In ⟨x, y⟩ src.Rect = true ∧ out.At x y = clear ∧
            out1.At x y ≠ clear)) := by
  obtain ⟨hx0, hx1, hy0, hy1⟩ := (In_origin src.Rect hmin x0 y0).mp hin0
  obtain ⟨n, rfl⟩ : ∃ n : Nat, r = n := ⟨r.toNat, by omega⟩
  obtain ⟨m, rfl⟩ : ∃ m : Nat, r1 = m := ⟨r1.toNat, by omega⟩
  obtain ⟨a, rfl⟩ : ∃ a : Nat, x0 = a := ⟨x0.toNat, by omega⟩
  obtain ⟨b, rfl⟩ : ∃ b : Nat, y0 = b := ⟨y0.toNat, by omega⟩
  have hn : n ≤ 4103 := by omega
  have hm : m ≤ 4103 := by omega
  have e1 := alpha_refines_naive src n hn hmin (by omega) a b hin0
  have e2 := alpha_refines_naive src m hm hmin (by omega) a b hin0
  rw [naive_alpha_impulse src n a b hmin hin0 hw hz] at e1
  rw [naive_alpha_impulse src m a b hmin hin0 hw hz] at e2
  have hspread : ∀ k : Nat, k ≤ 4103 → (k : Int) < src.Rect.Dy → k ≤ 2 →
      ∀ x y, Point.In ⟨x, y⟩ src.Rect = true → |x - (a : Int)| ≤ k → |y - (b : Int)| ≤ k →
        (vOut k (hOut k (copyOf src))).At x y ≠ clear := by
    intro k hk hkh hk2 x y hin hx hy hc
    have e := alpha_refines_naive src k hk hmin hkh x y hin
    have hge := naive_alpha_ge src k a b hmin hin0 hw x y hx hy
    have hpos := spread_pos k hk2
    rw [hc] at e
    have : (clear.chan .a) = 0 := rfl
    omega
  refine ⟨_, _,
    Process_total src n (by omega) (divsum_ne_zero n hn) (by omega) (by omega),
    Process_total src m (by omega) (divsum_ne_zero m hm) (by omega) (by omega), ?_, ?_,
    fun x y hfar => vOut_impulse_clear src n a b hmin (by omega) hz x y hfar,
    fun x y hfar => vOut_impulse_clear src m a b hmin (by omega) hz x y hfar,
    fun hk => hspread n hn (by omega) (by omega),
    fun hk => hspread m hm (by omega) (by omega), ?_⟩
  · rw [Fin.lt_def]
    show ((vOut n (hOut n (copyOf src))).At a b).chan .a < 255
    rw [e1]
    exact T_impulse_lt n _ b _ (by omega) (by omega) (by omega)
      (T_le n _ (by omega) _ 255 a (fun i _ _ => by split_ifs <;> omega))
  · have hmono : T m src.Rect.Dy.toNat (fun j => if j = (b : Int) then
          T m src.Rect.Dx.toNat (fun i => if i = (a : Int) then 255 else 0) a else 0) b ≤
        T n src.Rect.Dy.toNat (fun j => if j = (b : Int) then
          T n src.Rect.Dx.toNat (fun i => if i = (a : Int) then 255 else 0) a else 0) b :=
      T_impulse_mono n m _ b _ _ (by omega) (by omega)
        (T_impulse_mono n m _ a 255 255 (by omega) (by omega) (le_refl _))
    rw [Fin.le_def]
    show ((vOut m (hOut m (copyOf src))).At a b).chan .a ≤
      ((vOut n (hOut n (copyOf src))).At a b).chan .a
    rw [e1, e2]
    exact hmono
  · intro hk
    have hn1 : n = 1 := by omega
    have hm2 : m = 2 := by omega
    subst hn1
    subst hm2
    have p := Process_total src 1 (by omega) (divsum_ne_zero 1 hn) (by omega) (by omega)
    exact footprint_widens src.Rect hmin _ _ a b hin0 (Process_Rect src _ _ p)
      (fun x y hf => vOut_impulse_clear src 1 a b hmin (by omega) hz x y (by simpa using hf))
      (fun x y hin hx hy => hspread 1 hn (by omega) (by omega) x y hin (by simpa using hx)
        (by simpa using hy))
      (fun x y hin hx hy => hspread 2 hm (by omega) (by omega) x y hin (by simpa using hx)
        (by simpa using hy))

theorem impulse_smoothing_witness :
    ∃ out out1, Process (impulseAt 3 3 1 1) 1 = .ok out ∧
      Process (impulseAt 3 3 1 1) 2 = .ok out1 ∧
      (out.At 1 1).A < 255 ∧
      (out1.At 1 1).A ≤ (out.At 1 1).A ∧
      (∀ x y, ((1 : Int) < |x - 1| ∨ (1 : Int) < |y - 1|) → out.At x y = clear) ∧
      (∀ x y, ((2 : Int) < |x - 1| ∨ (2 : Int) < |y - 1|) → out1.At x y = clear) ∧
      ((1 : Int) ≤ 2 → ∀ x y, Point.In ⟨x, y⟩ (impulseAt 3 3 1 1).Rect = true →
        |x - 1| ≤ (1 : Int) → |y - 1| ≤ (1 : Int) → out.At x y ≠ clear) ∧
      ((2 : Int) ≤ 2 → ∀ x y, Point.In ⟨x, y⟩ (impulseAt 3 3 1 1).Rect = true →
        |x - 1| ≤ (2 : Int) → |y - 1| ≤ (2 : Int) → out1.At x y ≠ clear) ∧
      ((2 : Int) ≤ 2 →
        (∀ x y, out.At x y ≠ clear → out1.At x y ≠ clear) ∧
        ((∃ x y, Point.In ⟨x, y⟩ (impulseAt 3 3 1 1).Rect = true ∧ out.At x y = clear) →
          ∃ x y, Point.In ⟨x, y⟩ (impulseAt 3 3 1 1).Rect = true ∧ out.At x y = clear ∧
            out1.At x y ≠ clear)) :=
  impulse_smoothing (impulseAt 3 3 1 1) 1 1 1 2 rfl (by decide) (by decide)
    (by
      intro x y h
      simp only [Image.At, impulseAt]
      split <;> rfl)
    (by decide) (by decide) (by decide) (by decide)

/-- C11 (completion signal): in every run of `Process` that returns (radius in
the range of `int` without wrap-around), the trace is the pixel writes of the
horizontal pass, then the pixel writes of the vertical pass, then one send on
`done`, and nothing after it: the send happens exactly once, after the last
pixel write, and the image returned is the image at the time of the send.  The
writes of the vertical pass cover every position `(x, y)` with `0 ≤ x < width`
and `0 ≤ y < height`. -/
theorem done_sent_once_after_last_write (src : Image) (radius : Int) (s : Vars) :
    -4611686018427387904 ≤ radius → radius < 4611686018427387904 →
    run src radius = .ok s →
      Process src radius = .ok s.img ∧
      s.trace = passEvents src.Rect.Dx.toNat hAddr src.Rect.Dy.toNat ++
        passEvents src.Rect.Dy.toNat vAddr src.Rect.Dx.toNat ++ [Event.done] ∧
      Event.done ∉ passEvents src.Rect.Dx.toNat hAddr src.Rect.Dy.toNat ++
        passEvents src.Rect.Dy.toNat vAddr src.Rect.Dx.toNat ∧
      s.trace.count Event.done = 1 ∧
      (∀ x y : Nat, (x : Int) < src.Rect.Dx → (y : Int) < src.Rect.Dy →
        Event.set x y ∈ passEvents src.Rect.Dy.toNat vAddr src.Rect.Dx.toNat) := by
  intro _ _ h
  have ht := run_trace src radius s h
  have hno : Event.done ∉ passEvents src.Rect.Dx.toNat hAddr src.Rect.Dy.toNat ++
      passEvents src.Rect.Dy.toNat vAddr src.Rect.Dx.toNat := by
    simp [passEvents_no_done]
  refine ⟨by simp only [Process, h], ht, hno, ?_, ?_⟩
  · rw [ht, List.count_append, List.count_eq_zero_of_not_mem hno]
    rfl
  · intro x y hx hy
    exact passEvents_mem src.Rect.Dy.toNat vAddr src.Rect.Dx.toNat x y (by omega) (by omega)

theorem done_sent_once_after_last_write_witness :
    ∃ s, run red1x2 1 = .ok s ∧ Process red1x2 1 = .ok s.img ∧
      s.trace = [Event.set 0 0, Event.set 0 1, Event.set 0 0, Event.set 0 1, Event.done] ∧
      s.trace.count Event.done = 1 := by
  obtain ⟨s, hs, _⟩ := run_spec red1x2 1 (le_refl _) (fun _ _ => by decide) (by decide)
    (by decide)
  have h := done_sent_once_after_last_write red1x2 1 s (by decide) (by decide) hs
  exact ⟨s, hs, h.1, h.2.1.trans (by decide), h.2.2.2.1⟩

/-- C15 (ring construction): for every radius from 0 (below `2^62`, the range
of `int` without wrap-around) the set-up of `Process` returns; it has allocated
`div = 2*radius+1` nodes; following `next` from `stackStart` comes back to
`stackStart` after `div` steps and not before, through `div` different nodes.
For `radius ≥ 1`, `stackEnd` is the node reached from `stackStart` after
`radius+1` steps.  For `radius = 0` it is not: the node reached after one step
is `stackStart` itself, and `stackEnd` is `nil`. -/
theorem ring_construction (radius : Int) (img : Image) :
    0 ≤ radius → radius < 4611686018427387904 →
    ∃ s, buildRing radius img = .ok s ∧ (s.heap.size : Int) = div radius ∧
      follow s.heap (div radius).toNat s.stackStart = .ok s.stackStart ∧
      (∀ k, 0 < k → k < (div radius).toNat →
        follow s.heap k s.stackStart ≠ .ok s.stackStart) ∧
      (∀ j k, j < k → k < (div radius).toNat →
        follow s.heap j s.stackStart ≠ follow s.heap k s.stackStart) ∧
      (1 ≤ radius →
        follow s.heap (radiusPlus1 radius).toNat s.stackStart = .ok s.stackEnd) ∧
      (radius = 0 →
        follow s.heap (radiusPlus1 radius).toNat s.stackStart = .ok s.stackStart ∧
          s.stackStart = some 0 ∧ s.stackEnd = none) := by
  intro h0 _
  obtain ⟨r, rfl⟩ : ∃ r : Nat, radius = r := ⟨radius.toNat, by omega⟩
  obtain ⟨s, e, hsz, hst, hnx, hend⟩ := buildRing_shape r img
  have hd : (div (r : Int)).toNat = 2 * r + 1 := by simp only [div]; omega
  have hp : (radiusPlus1 (r : Int)).toNat = r + 1 := by simp only [radiusPlus1]; omega
  have hf : ∀ k, follow s.heap k s.stackStart = .ok (some (k % (2 * r + 1))) := by
    intro k
    rw [hst, follow_ring s.heap (2 * r + 1) hnx k 0 (by omega), Nat.zero_add]
  refine ⟨s, e, ?_, ?_, ?_, ?_, ?_, ?_⟩
  · rw [hsz]; simp only [div]; omega
  · rw [hd, hf, hst]; simp
  · intro k hk1 hk2
    rw [hf, hst, Nat.mod_eq_of_lt (by omega)]
    intro hc
    simp only [Except.ok.injEq, Option.some.injEq] at hc
    omega
  · intro j k hjk hk
    rw [hf, hf, Nat.mod_eq_of_lt (by omega), Nat.mod_eq_of_lt (by omega)]
    intro hc
    simp only [Except.ok.injEq, Option.some.injEq] at hc
    omega
  · intro hr1
    have hr0 : ¬ r = 0 := by omega
    rw [hp, hf, hend, Nat.mod_eq_of_lt (by omega)]
    simp [hr0]
  · intro hr0
    have hr : r = 0 := by omega
    subst hr
    refine ⟨?_, hst, by simp [hend]⟩
    rw [hp, hf, hst]

theorem ring_construction_witness :
    (∃ s, buildRing 0 red1x1 = .ok s ∧ (s.heap.size : Int) = 1 ∧
      follow s.heap 1 s.stackStart = .ok s.stackStart ∧ s.stackStart = some 0 ∧
      s.stackEnd = none) ∧
    (∃ s, buildRing 2 red1x1 = .ok s ∧ (s.heap.size : Int) = 5 ∧
      follow s.heap 5 s.stackStart = .ok s.stackStart ∧
      follow s.heap 3 s.stackStart = .ok s.stackEnd) := by
  obtain ⟨s, e, h1, h2, _, _, _, h6⟩ := ring_construction 0 red1x1 (by decide) (by decide)
  obtain ⟨t, e1, g1, g2, _, _, g5, _⟩ := ring_construction 2 red1x1 (by decide) (by decide)
  exact ⟨⟨s, e, h1, (h6 rfl).1, (h6 rfl).2.1, (h6 rfl).2.2⟩, ⟨t, e1, g1, g2, g5 (by decide)⟩⟩

/-- C13 (incremental sum invariant of the horizontal scan): for every radius
from 1 to 4103, at the moment the horizontal pass of `Process` emits the pixel
`(x, y)`, with `x` below the width and `y` below the height, the run has not
faulted and the accumulator of every channel `c` is the sum over `k` in
`[-radius, radius]` of `(radius+1-|k|) * v[clamp(x+k, 0, width-1)]`, where
`v[i]` is the value read for channel `c` at `(i, y)` in the source (pixel `i`
of the row `y` when the bounds start at the origin). -/
theorem horizontal_sum_invariant (src : Image) (radius : Int) (y x : Nat)
    (hr1 : 1 ≤ radius) (hr2 : radius ≤ 4103)
    (hy : (y : Int) < src.Rect.Dy) (hx : (x : Int) < src.Rect.Dx) :
    ∃ s, atRowScan src radius y x = .ok s ∧
      ∀ c, s.Sum c =
        windowSum radius.toNat src.Rect.Dx.toNat (fun i => readPixel src i y c) x := by
  obtain ⟨r, rfl⟩ : ∃ r : Nat, radius = r := ⟨radius.toNat, by omega⟩
  have hr : r ≤ 4103 := by omega
  obtain ⟨s, e, v⟩ := atRowScan_spec src r (by omega) (divsum_ne_zero r hr) y x hy hx
  refine ⟨s, e, ?_⟩
  intro c
  have hW : src.Rect.Dx = ((src.Rect.Dx.toNat : Nat) : Int) := by omega
  have hU : ∀ j, windowSeq r (src.Rect.Dx - 1) (hPre src.Rect.Dx)
      (fun i => readPixel src i y) j c =
      readPixel src (clamp ((j : Int) - r) 0 ((src.Rect.Dx.toNat : Int) - 1)) y c := by
    intro j
    have := windowSeq_clamp r src.Rect.Dx.toNat (by omega) (hPre src.Rect.Dx)
      (fun i => readPixel src i y)
      (fun i h1 _ => by rw [hW]; exact hPre_clamp _ i h1) j
    rw [← hW] at this
    rw [this, ← hW]
  have h1 := (emission_exact r hr _ x (fun j => by
    rw [hU j]
    exact readPixel_le _ _ _ _) (s.Sum c) (v.sum c)).1
  rw [h1, Int.toNat_ofNat, ← wsum_clamped_eq_windowSum]
  congr 1
  funext j
  exact hU j

theorem horizontal_sum_invariant_witness :
    ∃ s, atRowScan solid2x2 1 0 1 = .ok s ∧
      ∀ c, s.Sum c =
        windowSum (1 : Int).toNat solid2x2.Rect.Dx.toNat (fun i => readPixel solid2x2 i 0 c)
          ((1 : Nat) : Int) :=
  horizontal_sum_invariant solid2x2 1 0 1 (by decide) (by decide) (by decide) (by decide)

/-- C16 (no overflow and no narrowing wrap-around): for every radius from 1 to
4103, `divsum` is `(radius+1)^2` and `255 * (radius+1)^2` is below `2^32`; and
at every emission of the horizontal pass and of the vertical pass the run has
not faulted, the accumulator of every channel is the window sum of the 8-bit
values read on that line computed in the natural numbers, it is at most
`255 * (radius+1)^2`, its quotient by `divsum` is at most 255 and the
conversion of that quotient to `uint8` does not change it. -/
theorem no_overflow_at_emission (src : Image) (radius : Int)
    (hr1 : 1 ≤ radius) (hr2 : radius ≤ 4103) :
    divsum radius = (radius.toNat + 1) ^ 2 ∧
    255 * (radius.toNat + 1) ^ 2 < 4294967296 ∧
    (∀ y x : Nat, (y : Int) < src.Rect.Dy → (x : Int) < src.Rect.Dx →
      ∃ s, atRowScan src radius y x = .ok s ∧ ∀ c,
        s.Sum c = wsum radius.toNat (fun j => windowSeq radius.toNat (src.Rect.Dx - 1)
          (hPre src.Rect.Dx) (fun i => readPixel src i y) j c) x ∧
        s.Sum c ≤ 255 * (radius.toNat + 1) ^ 2 ∧
        s.Sum c / divsum radius ≤ 255 ∧
        (uint8 (s.Sum c / divsum radius)).val = s.Sum c / divsum radius) ∧
    (∀ x y : Nat, (x : Int) < src.Rect.Dx → (y : Int) < src.Rect.Dy →
      ∃ s, atColScan src radius x y = .ok s ∧ ∀ c,
        s.Sum c = wsum radius.toNat (fun j => windowSeq radius.toNat (src.Rect.Dy - 1)
          (fun i => i) (fun i => readPixel (hOut radius.toNat (copyOf src)) x i) j c) y ∧
        s.Sum c ≤ 255 * (radius.toNat + 1) ^ 2 ∧
        s.Sum c / divsum radius ≤ 255 ∧
        (uint8 (s.Sum c / divsum radius)).val = s.Sum c / divsum radius) := by
  obtain ⟨r, rfl⟩ : ∃ r : Nat, radius = r := ⟨radius.toNat, by omega⟩
  have hr : r ≤ 4103 := by omega
  have hsq : (r + 1) * (r + 1) ≤ 4104 * 4104 := Nat.mul_le_mul (by omega) (by omega)
  simp only [Int.toNat_ofNat]
  refine ⟨?_, ?_, ?_, ?_⟩
  · rw [divsum_natCast, pow_two]
    exact Nat.mod_eq_of_lt (by omega)
  · rw [pow_two]
    omega
  · intro y x hy hx
    obtain ⟨s, e, v⟩ := atRowScan_spec src r (by omega) (divsum_ne_zero r hr) y x hy hx
    exact ⟨s, e, fun c => emission_exact r hr _ x
      (fun j => windowSeq_le _ _ _ _ (fun i c => readPixel_le _ _ _ _) j c) (s.Sum c) (v.sum c)⟩
  · intro x y hx hy
    obtain ⟨s, e, v⟩ := atColScan_spec src r (by omega) (divsum_ne_zero r hr) x y hx hy
    exact ⟨s, e, fun c => emission_exact r hr _ y
      (fun j => windowSeq_le _ _ _ _ (fun i c => readPixel_le _ _ _ _) j c) (s.Sum c) (v.sum c)⟩

theorem no_overflow_at_emission_witness :
    divsum 4103 = ((4103 : Int).toNat + 1) ^ 2 ∧
    255 * ((4103 : Int).toNat + 1) ^ 2 < 4294967296 ∧
    (∃ s, atRowScan red1x1 4103 0 0 = .ok s ∧ ∀ c, s.Sum c / divsum 4103 ≤ 255) ∧
    (∃ s, atColScan red1x1 4103 0 0 = .ok s ∧ ∀ c, s.Sum c / divsum 4103 ≤ 255) := by
  have h := no_overflow_at_emission red1x1 4103 (by decide) (by decide)
  obtain ⟨s, e, hs⟩ := h.2.2.1 0 0 (by decide) (by decide)
  obtain ⟨t, e1, ht⟩ := h.2.2.2 0 0 (by decide) (by decide)
  exact ⟨h.1, h.2.1, ⟨s, e, fun c => (hs c).2.2.1⟩, ⟨t, e1, fun c => (ht c).2.2.1⟩⟩

/-- C14 (in-place safety of the horizontal pass): for every radius `radius ≥ 1`,
every row `y`, every width and all values of the variables at the start of the
row, the scan of the row in place (`hRow`) and the scan of the row with all its
reads served from the image as it is at the start of the row (`hRowFrom`)
fault in the same cases and otherwise leave the same image and the same list of
writes. -/
theorem horizontal_scan_in_place_safe (radius width y : Int) (s : Vars) (hr : 1 ≤ radius) :
    Except.map written (hRow radius width y s) =
      Except.map written (hRowFrom s.img radius width y s) := by
  rw [hRow_eq_lineG]
  exact lineFromG_written radius width (by omega) (hPre width) (fun i => ⟨i, y⟩)
    (by
      intro i j h
      simp only [Point.mk.injEq] at h
      exact h.1) s

theorem horizontal_scan_in_place_safe_witness :
    ∃ s, buildRing 1 red3x3 = .ok s ∧
      Except.map written (hRow 1 3 0 s) = Except.map written (hRowFrom s.img 1 3 0 s) := by
  obtain ⟨s, hs, _⟩ := buildRing_spec 1 (le_refl _) red3x3
  exact ⟨s, hs, horizontal_scan_in_place_safe 1 3 0 s (by decide)⟩

/-- C12 (the vertical pass is the horizontal pass transposed): for every image
and every radius below the height of the image, the vertical pass on the image
is the transpose of the horizontal pass on the transposed image, faults
included.  It is not so when the height is at most the radius: on the 1x1
opaque red image with radius 1 the vertical pass writes `{191, 0, 0, 191}`, and
the horizontal pass on the transposed image leaves the pixel red, because the
pre-load of the vertical pass reads row 1 without clamping it to row 0. -/
theorem vertical_pass_transposed_below_height (img : Image) (radius : Int) :
    (radius < img.Rect.Dy →
      verticalPass img radius = Except.map transpose (horizontalPass (transpose img) radius)) ∧
    pixelAt (verticalPass red1x1 1) 0 0 = some ⟨191, 0, 0, 191⟩ ∧
    pixelAt (Except.map transpose (horizontalPass (transpose red1x1) 1)) 0 0 = some red := by
  refine ⟨?_, by decide, by decide⟩
  intro h
  rw [horizontalPass_transpose img radius h, map_transpose_transpose]

theorem vertical_pass_transposed_below_height_witness :
    verticalPass red3x3 1 = Except.map transpose (horizontalPass (transpose red3x3) 1) :=
  (vertical_pass_transposed_below_height red3x3 1).1 (by decide)

set_option maxRecDepth 1000000 in
/-- C17 (origin independence): `Process` does not blur an image away from the
origin as it blurs the same pixels at the origin.  The 2x2 opaque image with a
white left column and a black right column is blurred at the origin (its pixel
at `(0, 0)` becomes `{191, 191, 191, 255}` with radius 1), and returned
unchanged when its corner is at `(2, 0)`.  In general, for a radius from 1 to
4103, an image whose bounds lie beyond the positions `(x, y)` with
`0 ≤ x < width`, `0 ≤ y < height` on one side is returned as a copy of the
source: the passes read and write those positions, not the positions of the
bounds. -/
theorem shifted_image_not_blurred (src : Image) (radius : Int) :
    pixelAt (Process (edge2x2 ⟨0, 0⟩) 1) 0 0 = some ⟨191, 191, 191, 255⟩ ∧
    pixelAt (Process (edge2x2 ⟨2, 0⟩) 1) 2 0 = some white ∧
    (1 ≤ radius → radius ≤ 4103 → 0 ≤ src.Rect.Dx → 0 ≤ src.Rect.Dy →
      (src.Rect.Dx ≤ src.Rect.Min.X ∨ src.Rect.Dy ≤ src.Rect.Min.Y ∨
        src.Rect.Max.X ≤ 0 ∨ src.Rect.Max.Y ≤ 0) →
      Process src radius = .ok (copyOf src)) := by
  refine ⟨by decide, by decide, ?_⟩
  intro hr1 hr2 hw hh hoff
  obtain ⟨r, rfl⟩ : ∃ r : Nat, radius = r := ⟨radius.toNat, by omega⟩
  rw [Process_total src r (by omega) (divsum_ne_zero r (by omega)) hw hh]
  have h1 : hOut r (copyOf src) = copyOf src := by
    simp only [hOut]
    apply passOut_outside
    intro l i hl hi
    rw [copyOf_Rect] at hl hi ⊢
    exact In_scanned_false _ i l (by omega) (by omega) hoff
  rw [h1]
  simp only [vOut]
  rw [passOut_outside]
  intro l i hl hi
  rw [copyOf_Rect] at hl hi ⊢
  exact In_scanned_false _ l i (by omega) (by omega) hoff

theorem shifted_image_not_blurred_witness :
    Process (edge2x2 ⟨2, 0⟩) 1 = .ok (copyOf (edge2x2 ⟨2, 0⟩)) :=
  (shifted_image_not_blurred (edge2x2 ⟨2, 0⟩) 1).2.2 (by decide) (by decide) (by decide)
    (by decide) (Or.inl (by decide))

set_option maxRecDepth 1000000 in
/-- C18 (range preservation): for every fully opaque image with bounds at the
origin, width at least 1, height above the radius and a radius from 1 to 4103,
`Process` returns an image in which every channel of every pixel lies between
any two bounds of that channel over the pixels of the source (in particular
between its minimum and its maximum), and every pixel is fully opaque.  It is
not so for an image with other bounds: the 2x2 image with bounds `(1,0)-(3,2)`
whose four pixels are opaque white has the output pixel `{159, 159, 159, 191}`
at `(1, 0)` with radius 1, below the minimum 255 in every channel and not
opaque. -/
theorem Process_keeps_range (src : Image) (radius : Int) :
    (src.Rect.Min = ⟨0, 0⟩ → 1 ≤ src.Rect.Dx → radius < src.Rect.Dy →
      1 ≤ radius → radius ≤ 4103 →
      (∀ x y, Point.In ⟨x, y⟩ src.Rect = true → (src.At x y).A = 255) →
      ∃ out, Process src radius = .ok out ∧
        (∀ (c : Channel) (lo hi : Nat),
          (∀ x y, Point.In ⟨x, y⟩ src.Rect = true →
            lo ≤ (src.At x y).chan c ∧ (src.At x y).chan c ≤ hi) →
          ∀ x y, Point.In ⟨x, y⟩ src.Rect = true →
            lo ≤ (out.At x y).chan c ∧ (out.At x y).chan c ≤ hi) ∧
        ∀ x y, Point.In ⟨x, y⟩ src.Rect = true → (out.At x y).A = 255) ∧
    ((white2x2 ⟨1, 0⟩).Rect = ⟨⟨1, 0⟩, ⟨3, 2⟩⟩ ∧
      (white2x2 ⟨1, 0⟩).At 1 0 = white ∧ (white2x2 ⟨1, 0⟩).At 2 0 = white ∧
      (white2x2 ⟨1, 0⟩).At 1 1 = white ∧ (white2x2 ⟨1, 0⟩).At 2 1 = white ∧
      pixelAt (Process (white2x2 ⟨1, 0⟩) 1) 1 0 = some ⟨159, 159, 159, 191⟩) := by
  refine ⟨fun hmin hw hh hr1 hr2 hop => ?_,
    by decide, by decide, by decide, by decide, by decide, by decide⟩
  obtain ⟨r, rfl⟩ : ∃ r : Nat, radius = r := ⟨radius.toNat, by omega⟩
  have hr : r ≤ 4103 := by omega
  have hrange : ∀ (c : Channel) (lo hi : Nat),
      (∀ x y, Point.In ⟨x, y⟩ src.Rect = true →
        lo ≤ (src.At x y).chan c ∧ (src.At x y).chan c ≤ hi) →
      ∀ x y, Point.In ⟨x, y⟩ src.Rect = true →
        lo ≤ ((vOut r (hOut r (copyOf src))).At x y).chan c ∧
          ((vOut r (hOut r (copyOf src))).At x y).chan c ≤ hi := by
    intro c lo hi hb x y hin
    rw [vOut_hOut_solid src r hr hmin (by omega) hop x y hin c]
    exact naive_range src r hmin c lo hi hb x y hin
  refine ⟨_, Process_total src r (by omega) (divsum_ne_zero r hr) (by omega) (by omega),
    hrange, ?_⟩
  intro x y hin
  have h := hrange .a 255 255 (fun x1 y1 h1 => by
    have := hop x1 y1 h1
    show 255 ≤ (src.At x1 y1).A.val ∧ (src.At x1 y1).A.val ≤ 255
    rw [this]
    decide) x y hin
  apply Fin.ext
  show ((vOut r (hOut r (copyOf src))).At x y).chan .a = 255
  omega

theorem Process_keeps_range_witness :
    ∃ out, Process solid2x2 1 = .ok out ∧
      (∀ (c : Channel) (lo hi : Nat),
        (∀ x y, Point.In ⟨x, y⟩ solid2x2.Rect = true →
          lo ≤ (solid2x2.At x y).chan c ∧ (solid2x2.At x y).chan c ≤ hi) →
        ∀ x y, Point.In ⟨x, y⟩ solid2x2.Rect = true →
          lo ≤ (out.At x y).chan c ∧ (out.At x y).chan c ≤ hi) ∧
      ∀ x y, Point.In ⟨x, y⟩ solid2x2.Rect = true → (out.At x y).A = 255 :=
  (Process_keeps_range solid2x2 1).1 rfl (by decide) (by decide) (by decide) (by decide)
    (by
      intro x y h
      have h2 : Point.In ⟨x, y⟩ ⟨⟨0, 0⟩, ⟨2, 2⟩⟩ = true := h
      simp only [Image.At, solid2x2, h2, if_true]
      split_ifs <;> rfl)

set_option maxRecDepth 1000000 in
/-- C19 (mirror symmetry): for every fully opaque image with bounds at the
origin, width at least 1, height above the radius and a radius from 1 to 4103,
`Process` returns on the image and on its left-right mirror image, and the
image returned for the mirror image has the bounds and, at every position, the
pixel of the mirror image of the image returned for the image.  It is not so
for an image with other bounds: for the 2x2 opaque image with the rows
`[white, black]` and bounds `(1,0)-(3,2)` and radius 1, the output for the
mirror image has `{0, 0, 0, 191}` at `(1, 0)` and the mirror image of the output
has `{0, 0, 0, 255}` there. -/
theorem Process_mirror (src : Image) (radius : Int) :
    (src.Rect.Min = ⟨0, 0⟩ → 1 ≤ src.Rect.Dx → radius < src.Rect.Dy →
      1 ≤ radius → radius ≤ 4103 →
      (∀ x y, Point.In ⟨x, y⟩ src.Rect = true → (src.At x y).A = 255) →
      ∃ out out1, Process src radius = .ok out ∧ Process (mirror src) radius = .ok out1 ∧
        out1.Rect = (mirror out).Rect ∧ ∀ x y, out1.At x y = (mirror out).At x y) ∧
    (pixelAt (Process (mirror (edge2x2 ⟨1, 0⟩)) 1) 1 0 = some ⟨0, 0, 0, 191⟩ ∧
      pixelAt (Except.map mirror (Process (edge2x2 ⟨1, 0⟩) 1)) 1 0 = some ⟨0, 0, 0, 255⟩) := by
  refine ⟨fun hmin hw hh hr1 hr2 hop => ?_, by decide, by decide⟩
  obtain ⟨r, rfl⟩ : ∃ r : Nat, radius = r := ⟨radius.toNat, by omega⟩
  have hr : r ≤ 4103 := by omega
  have e : (mirror src).Rect = src.Rect := rfl
  have hx0 : src.Rect.Min.X = 0 := by rw [hmin]
  have hflip : ∀ x y, Point.In ⟨x, y⟩ src.Rect = true →
      Point.In ⟨src.Rect.Dx - 1 - x, y⟩ src.Rect = true := by
    intro x y hin
    obtain ⟨a, b, c, d⟩ := (In_origin src.Rect hmin x y).mp hin
    exact (In_origin src.Rect hmin _ y).mpr ⟨by omega, by omega, c, d⟩
  have hop1 : ∀ x y, Point.In ⟨x, y⟩ (mirror src).Rect = true →
      ((mirror src).At x y).A = 255 := by
    intro x y hin
    rw [mirror_At_origin src hmin]
    exact hop _ _ (hflip x y hin)
  have p := Process_total src r (by omega) (divsum_ne_zero r hr) (by omega) (by omega)
  have p1 := Process_total (mirror src) r (by omega) (divsum_ne_zero r hr)
    (by rw [e]; omega) (by rw [e]; omega)
  have hR := Process_Rect src r _ p
  have hR1 := Process_Rect (mirror src) r _ p1
  refine ⟨_, _, p, p1, ?_, ?_⟩
  · rw [hR1, e]
    exact hR.symm
  · intro x y
    by_cases hin : Point.In ⟨x, y⟩ src.Rect = true
    · apply NRGBA.ext_chan
      intro c
      rw [vOut_hOut_solid (mirror src) r hr hmin (by rw [e]; omega) hop1 x y hin c,
        naive_mirror src r hmin hw c x y, mirror_At_origin _ (by rw [hR]; exact hmin), hR,
        vOut_hOut_solid src r hr hmin (by omega) hop _ y (hflip x y hin) c]
    · have hin0 : Point.In ⟨x, y⟩ src.Rect = false := by simpa using hin
      rw [At_outside _ x y (by rw [hR1, e]; exact hin0),
        At_outside _ x y (by
          show Point.In ⟨x, y⟩ (vOut r (hOut r (copyOf src))).Rect = false
          rw [hR]
          exact hin0)]

theorem Process_mirror_witness :
    ∃ out out1, Process solid2x2 1 = .ok out ∧ Process (mirror solid2x2) 1 = .ok out1 ∧
      out1.Rect = (mirror out).Rect ∧ ∀ x y, out1.At x y = (mirror out).At x y :=
  (Process_mirror solid2x2 1).1 rfl (by decide) (by decide) (by decide) (by decide)
    (by
      intro x y h
      have h2 : Point.In ⟨x, y⟩ ⟨⟨0, 0⟩, ⟨2, 2⟩⟩ = true := h
      simp only [Image.At, solid2x2, h2, if_true]
      split_ifs <;> rfl)

end StackBlur
